import Mathlib

/-!
# cvqoi: a QOI encoder over `cv::Mat`

A shallow embedding of `include/cvqoi/CVQoi.hpp` and theorems about it.

* `uint8_t` values are naturals, every narrowing store is an explicit `% 256`;
* `int8_t` values are integers, every narrowing store goes through `toInt8`;
* the output stream is the list of bytes written to it;
* the `mutable` members of `Encoder` are fields of a record that every
  member function takes and returns.
-/

namespace cvqoi

/-! ## Pixels -/

/-- A `cv::Vec<uint8_t, N>` pixel. Fields are in index order: `p[0]` blue,
`p[1]` green, `p[2]` red, `p[3]` alpha. `PixelType<false>` has no fourth
component; there the field `a` is 0. -/
structure Pixel where
  b : Nat
  g : Nat
  r : Nat
  a : Nat
deriving DecidableEq, Repr

/-- A `cv::Vec<int8_t, N>` vector of signed channel differences. -/
structure SignedPixel where
  b : Int
  g : Int
  r : Int
  a : Int
deriving DecidableEq, Repr

/-- Value-initialised `Pixel{}` (all channels zero). -/
def Pixel.zero : Pixel := ⟨0, 0, 0, 0⟩

/-- Value-initialised `SignedPixel` (all components zero). -/
def SignedPixel.zero : SignedPixel := ⟨0, 0, 0, 0⟩

/-- Narrowing of an `int` to `int8_t` (two's complement wrap). -/
def toInt8 (x : Int) : Int := (x + 128) % 256 - 128

/-- The `saturate_cast<uint8_t>` of an `int8_t`: negative values become 0. -/
def saturateU8 (x : Int) : Nat := x.toNat

/-- Conversion `cv::Vec<int8_t, N>` to `cv::Vec<uint8_t, N>`, which OpenCV
performs component-wise with `saturate_cast`. It happens where a
`SignedPixel` is passed to `diffChunk` / `lumaChunk`, whose parameter is a
`Pixel`. -/
def SignedPixel.toPixel (dp : SignedPixel) : Pixel :=
  ⟨saturateU8 dp.b, saturateU8 dp.g, saturateU8 dp.r, saturateU8 dp.a⟩

/-- All channels are bytes; without alpha the fourth component is absent. -/
def Pixel.wf (hasAlpha : Bool) (p : Pixel) : Prop :=
  p.b < 256 ∧ p.g < 256 ∧ p.r < 256 ∧ (if hasAlpha then p.a < 256 else p.a = 0)

instance (hasAlpha : Bool) (p : Pixel) : Decidable (Pixel.wf hasAlpha p) := by
  unfold Pixel.wf; infer_instance

/-! ## Constants -/

namespace qoi
def MAGIC : List Nat := [0x71, 0x6f, 0x69, 0x66]
def EOS : List Nat := [0, 0, 0, 0, 0, 0, 0, 1]
end qoi

namespace luma
namespace green
def UPPER_RANGE : Int := 32
def LOWER_RANGE : Int := -33
def BIAS : Int := 32
end green
namespace red_blue
def UPPER_RANGE : Int := 8
def LOWER_RANGE : Int := -9
def BIAS : Int := 8
end red_blue
def TAG : Nat := 0x80
end luma

namespace diff
def UPPER_RANGE : Int := 2
def LOWER_RANGE : Int := -3
def BIAS : Int := 2
def TAG : Nat := 0x40
end diff

namespace rgb
def TAG : Nat := 0xfe
end rgb

namespace rgba
def TAG : Nat := 0xff
end rgba

namespace index
def TAG : Nat := 0x00
end index

namespace run
def TAG : Nat := 0xc0
def LOWER_RANGE : Nat := 0
def UPPER_LIMIT : Nat := 62
def BIAS : Nat := 1
end run

/-- One chunk handed to the stream by a single `writeToStream` /
`writeArrayToStream` call of the scan, tagged with the chunk type of the
builder that made it (`index::chunk`, `diff::chunk`, `luma::chunk`,
`run::chunk`, `rgb::chunk`, `rgba::chunk`). -/
inductive Chunk where
  | index (ch : Nat)
  | diff (ch : Nat)
  | luma (ch : List Nat)
  | run (ch : Nat)
  | rgb (ch : List Nat)
  | rgba (ch : List Nat)
deriving DecidableEq, Repr

/-- The bytes a chunk puts on the stream. -/
def Chunk.bytes : Chunk → List Nat
  | .index ch => [ch]
  | .diff ch => [ch]
  | .luma ch => ch
  | .run ch => [ch]
  | .rgb ch => ch
  | .rgba ch => ch

/-- The bytes of a sequence of chunks, in order. -/
def chunkBytes : List Chunk → List Nat
  | [] => []
  | ch :: rest => ch.bytes ++ chunkBytes rest

/-! ## `util` -/

namespace util

/-- `util::less`: all three colour components are below `right`. -/
def less (left : SignedPixel) (right : Int) : Bool :=
  decide (left.b < right) && decide (left.g < right) && decide (left.r < right)

/-- `util::greater`: all three colour components are above `right`. -/
def greater (left : SignedPixel) (right : Int) : Bool :=
  decide (left.b > right) && decide (left.g > right) && decide (left.r > right)

/-- `util::isInDiffRange`. -/
def isInDiffRange (dp : SignedPixel) : Bool :=
  less dp diff.UPPER_RANGE && greater dp diff.LOWER_RANGE

/-- `util::isInLumaRange`: returns the result and the new value of the
reference parameter `lumaDp`, which is written only when green is in range. -/
def isInLumaRange (dp lumaDp : SignedPixel) : Bool × SignedPixel :=
  let dgInRange := decide (dp.g < luma.green.UPPER_RANGE) && decide (dp.g > luma.green.LOWER_RANGE)
  if dgInRange then
    let lumaDp1 : SignedPixel :=
      { lumaDp with g := dp.g, b := toInt8 (dp.b - dp.g), r := toInt8 (dp.r - dp.g) }
    let dr_dgInRange := decide (lumaDp1.r < luma.red_blue.UPPER_RANGE)
      && decide (lumaDp1.r > luma.red_blue.LOWER_RANGE)
    let db_dgInRange := decide (lumaDp1.b < luma.red_blue.UPPER_RANGE)
      && decide (lumaDp1.b > luma.red_blue.LOWER_RANGE)
    (dr_dgInRange && db_dgInRange, lumaDp1)
  else
    (false, lumaDp)

/-- `util::hash`. -/
def hash (hasAlpha : Bool) (p : Pixel) : Nat :=
  let val := p.b * 7 + p.g * 5 + p.r * 3
  let val := if hasAlpha then val + p.a * 11 else val
  val % 64

/-- `util::writeToStream` for a `uint32_t`: four bytes, most significant first. -/
def writeToStream32 (t : Nat) : List Nat :=
  [t / 2 ^ 24 % 256, t / 2 ^ 16 % 256, t / 2 ^ 8 % 256, t % 256]

end util

/-! ## `cv::Mat` -/

/-- The part of a `cv::Mat` the encoder reads: `rows`, `cols`, `channels()`
and the pixel data, row after row. -/
structure Mat where
  rows : Nat
  cols : Nat
  channels : Nat
  data : List Pixel

/-- `mat.ptr<Pixel>(r)[c]`. -/
def Mat.ptr (m : Mat) (r c : Nat) : Pixel := m.data.getD (r * m.cols + c) Pixel.zero

/-- A well-formed image for `Encoder<hasAlpha>`: the dimensions are `int`s,
the channel count is the one the constructor asserts, there is one pixel per
position and every channel is a byte. -/
def Mat.wf (hasAlpha : Bool) (m : Mat) : Prop :=
  m.rows < 2 ^ 31 ∧ m.cols < 2 ^ 31 ∧ m.channels = (if hasAlpha then 4 else 3) ∧
  m.data.length = m.rows * m.cols ∧ ∀ p ∈ m.data, p.wf hasAlpha

instance (hasAlpha : Bool) (m : Mat) : Decidable (Mat.wf hasAlpha m) := by
  unfold Mat.wf; infer_instance

/-! ## `Encoder` -/

/-- The members of `Encoder<hasAlpha>`: the image and the `mutable` scan
state. `previousTag` exists under `CVQOI_ASSERT_NO_CONSECUTIVE_INDEX` only
and never influences the output. -/
structure Encoder where
  mat : Mat
  arr : Nat → Pixel
  previousPixel : Pixel
  runningPixCnt : Nat
  previousTag : Option (Nat × Nat)

/-- Errors thrown by the encoder. -/
inductive QoiError where
  | overflow_error
  | assertion_failed
deriving DecidableEq, Repr

namespace Encoder

/-- The condition the constructor asserts on the channel count. -/
def ctorAssert (hasAlpha : Bool) (mat : Mat) : Bool :=
  (mat.channels == 3 && !hasAlpha) || (mat.channels == 4 && hasAlpha)

/-- `Encoder::Encoder`: `previousPixel{}` with alpha set to 255 when there is
an alpha channel, `arr` filled with zero pixels, `runningPixCnt{}`. -/
def ctor (hasAlpha : Bool) (mat : Mat) : Encoder :=
  { mat := mat
    arr := fun _ => Pixel.zero
    previousPixel := if hasAlpha then { Pixel.zero with a := 255 } else Pixel.zero
    runningPixCnt := 0
    previousTag := none }

/-- `Encoder::header`. The comparison of the `int` dimensions with
`numeric_limits<uint32_t>::max()` is made in `uint32_t`. -/
def header (e : Encoder) : Except QoiError (List Nat) :=
  if e.mat.rows % 2 ^ 32 > 2 ^ 32 - 1 ∨ e.mat.cols % 2 ^ 32 > 2 ^ 32 - 1 then
    .error .overflow_error
  else
    let width := e.mat.cols % 2 ^ 32
    let height := e.mat.rows % 2 ^ 32
    let channels := e.mat.channels % 256
    let colorspace := 1
    .ok (qoi.MAGIC ++ util.writeToStream32 width ++ util.writeToStream32 height
          ++ [channels] ++ [colorspace])

/-- `Encoder::markEnd`. -/
def markEnd : List Nat := qoi.EOS

/-- `Encoder::isLastPixel`; the point is built as `{r, c}`, so `p.1` is its
`x` and `p.2` its `y`. -/
def isLastPixel (e : Encoder) (p : Nat × Nat) : Bool :=
  decide ((p.1 : Int) = (e.mat.rows : Int) - 1) && decide ((p.2 : Int) = (e.mat.cols : Int) - 1)

/-- `Encoder::isSeenBefore`. -/
def isSeenBefore (hasAlpha : Bool) (e : Encoder) (p : Pixel) : Bool × Nat :=
  let currentPixelHash := util.hash hasAlpha p
  (decide (e.arr currentPixelHash = p), currentPixelHash)

/-- `Encoder::indexChunk`; the `int` slot is narrowed to the `uint8_t` parameter. -/
def indexChunk (idx : Nat) : Nat :=
  let idx := idx % 256
  (index.TAG ||| idx) % 256

/-- `Encoder::diffChunk`. -/
def diffChunk (dp : Pixel) : Nat :=
  (diff.TAG ||| ((dp.r <<< 4) ||| (dp.g <<< 2) ||| dp.b)) % 256

/-- `Encoder::lumaChunk`. -/
def lumaChunk (dp : Pixel) : List Nat :=
  [(luma.TAG ||| dp.g) % 256, ((dp.r <<< 4) ||| dp.b) % 256]

/-- `Encoder::runChunk`; reads the member `runningPixCnt`. -/
def runChunk (e : Encoder) : Nat :=
  (run.TAG ||| e.runningPixCnt) % 256

/-- `Encoder::rgbaChunk`. -/
def rgbaChunk (currentPixel : Pixel) : List Nat :=
  [rgba.TAG, currentPixel.r, currentPixel.g, currentPixel.b, currentPixel.a]

/-- `Encoder::rgbChunk`. -/
def rgbChunk (currentPixel : Pixel) : List Nat :=
  [rgb.TAG, currentPixel.r, currentPixel.g, currentPixel.b]

/-- What one iteration of the inner loop of `encodeImage` leaves behind: the
encoder, the chunks written in order, and the final value of `currentTag`
(debug bookkeeping). -/
structure Iter where
  enc : Encoder
  out : List Chunk
  currentTag : Option (Nat × Nat)

/-- The `runningPixCnt -= run::BIAS; write(runChunk()); runningPixCnt = 0`
sequence, used by both branches. -/
def flushRun (e : Encoder) : Encoder × Chunk :=
  let e1 := { e with runningPixCnt := (e.runningPixCnt + 256 - run.BIAS) % 256 }
  let ch := Chunk.run (runChunk e1)
  ({ e1 with runningPixCnt := 0 }, ch)

/-- The body of the inner loop of `encodeImage` for the pixel `currentPixel`,
with `last` the value `isLastPixel({r, c})` has at this position. -/
def encodePixel (hasAlpha : Bool) (last : Bool) (currentPixel : Pixel) (e : Encoder) : Iter :=
  if currentPixel = e.previousPixel then
    let e := { e with runningPixCnt := (e.runningPixCnt + 1) % 256 }
    if e.runningPixCnt == run.UPPER_LIMIT || last then
      let (e, ch) := flushRun e
      let currentTag := some (run.TAG, 255)
      { enc := { e with previousTag := currentTag }, out := [ch], currentTag := currentTag }
    else
      { enc := { e with previousTag := none }, out := [], currentTag := none }
  else
    let (e, os) :=
      if e.runningPixCnt > run.LOWER_RANGE then
        let (e, ch) := flushRun e
        (e, [ch])
      else (e, [])
    let pairIsSeenBefore := isSeenBefore hasAlpha e currentPixel
    let seenBefore := pairIsSeenBefore.1
    let arrayIdx := pairIsSeenBefore.2
    if seenBefore then
      let currentTag := some (index.TAG, arrayIdx)
      { enc := { e with previousPixel := currentPixel, previousTag := currentTag }
        out := os ++ [Chunk.index (indexChunk arrayIdx)]
        currentTag := currentTag }
    else
      let e := { e with arr := fun i => if i = arrayIdx then currentPixel else e.arr i }
      let dp : SignedPixel :=
        { SignedPixel.zero with
          b := toInt8 ((currentPixel.b : Int) - e.previousPixel.b)
          g := toInt8 ((currentPixel.g : Int) - e.previousPixel.g)
          r := toInt8 ((currentPixel.r : Int) - e.previousPixel.r) }
      let lumaDp : SignedPixel := SignedPixel.zero
      let dp : SignedPixel :=
        if hasAlpha then { dp with a := toInt8 ((currentPixel.a : Int) - e.previousPixel.a) } else dp
      if hasAlpha && dp.a != 0 then
        let currentTag := some (rgba.TAG, 255)
        { enc := { e with previousPixel := currentPixel, previousTag := currentTag }
          out := os ++ [Chunk.rgba (rgbaChunk currentPixel)]
          currentTag := currentTag }
      else if util.isInDiffRange dp then
        let dp : SignedPixel :=
          { dp with b := toInt8 (dp.b + diff.BIAS), g := toInt8 (dp.g + diff.BIAS),
                    r := toInt8 (dp.r + diff.BIAS) }
        let currentTag := some (diff.TAG, 255)
        { enc := { e with previousPixel := currentPixel, previousTag := currentTag }
          out := os ++ [Chunk.diff (diffChunk dp.toPixel)]
          currentTag := currentTag }
      else
        let (inLuma, lumaDp) := util.isInLumaRange dp lumaDp
        if inLuma then
          let lumaDp : SignedPixel :=
            { lumaDp with b := toInt8 (lumaDp.b + luma.red_blue.BIAS),
                          g := toInt8 (lumaDp.g + luma.green.BIAS),
                          r := toInt8 (lumaDp.r + luma.red_blue.BIAS) }
          let currentTag := some (luma.TAG, 255)
          { enc := { e with previousPixel := currentPixel, previousTag := currentTag }
            out := os ++ [Chunk.luma (lumaChunk lumaDp.toPixel)]
            currentTag := currentTag }
        else
          let currentTag := some (rgb.TAG, 255)
          { enc := { e with previousPixel := currentPixel, previousTag := currentTag }
            out := os ++ [Chunk.rgb (rgbChunk currentPixel)]
            currentTag := currentTag }

/-- The inner loop body at position `(r, c)`. -/
def loopBody (hasAlpha : Bool) (r c : Nat) (acc : Encoder × List Chunk) : Encoder × List Chunk :=
  let it := encodePixel hasAlpha (acc.1.isLastPixel (r, c)) (acc.1.mat.ptr r c) acc.1
  (it.enc, acc.2 ++ it.out)

/-- `Encoder::encodeImage`: the two nested `for` loops; returns the encoder
after the scan and the chunks written. -/
def encodeImage (hasAlpha : Bool) (e : Encoder) : Encoder × List Chunk :=
  (List.range e.mat.rows).foldl
    (fun acc r => (List.range e.mat.cols).foldl (fun acc c => loopBody hasAlpha r c acc) acc)
    (e, [])

/-- The stream insertion `os << e`: header, scan, end marker, appended to what
the stream `os` already holds. Returns the stream and the encoder, whose
`mutable` members the scan has changed. -/
def write (hasAlpha : Bool) (os : List Nat) (e : Encoder) : Except QoiError (List Nat × Encoder) :=
  match e.header with
  | .error err => .error err
  | .ok hd =>
    let res := encodeImage hasAlpha e
    .ok (os ++ hd ++ chunkBytes res.2 ++ markEnd, res.1)

end Encoder

open Encoder

/-- The bytes of `os << Encoder<hasAlpha>(mat)` on an empty stream. -/
def encode (hasAlpha : Bool) (mat : Mat) : Except QoiError (List Nat) :=
  match Encoder.write hasAlpha [] (Encoder.ctor hasAlpha mat) with
  | .error err => .error err
  | .ok res => .ok res.1

/-- The scan as a recursion over the pixels in scan order, the last-pixel
flag being true exactly on the final pixel; `Encoder.encodeImage` computes
this on an image with one pixel per position (`encodeImage_eq_scan`). -/
def scan (hasAlpha : Bool) : List Pixel → Encoder → Encoder × List Chunk
  | [], e => (e, [])
  | p :: ps, e =>
    let it := Encoder.encodePixel hasAlpha (decide (ps = [])) p e
    let r := scan hasAlpha ps it.enc
    (r.1, it.out ++ r.2)

/-! ## The reference decoder -/

namespace qoi

/-- Modelled from the spec: the state of the reference decoder's pixel loop
(`qoi_decode` of `qoi.h`, which the test harness calls and which is not part
of the sources): the current pixel `px`, the 64-slot table `index`, the
pending `run`, and the unread input `bytes`, end marker included. -/
structure DecState where
  px : Pixel
  index : Nat → Pixel
  run : Nat
  bytes : List Nat

/-- Modelled from the spec: the slot at which the reference decoder stores a
decoded pixel, `(r*3 + g*5 + b*7 + a*11) mod 64`. -/
def colorHash (px : Pixel) : Nat := (px.r * 3 + px.g * 5 + px.b * 7 + px.a * 11) % 64

/-- Modelled from the spec: one iteration of the reference decoder's pixel
loop. A pending run repeats the pixel; otherwise, while chunk bytes remain
before the 8-byte end marker, one chunk is read by its tag (`0xFE` RGB,
`0xFF` RGBA, `00` Index, `01` Diff, `10` Luma, `11` Run, as in the wire
format), channel arithmetic wraps in 8 bits, and the resulting pixel is
stored in the table after every chunk. -/
def decodePixel (d : DecState) : DecState :=
  if d.run > 0 then { d with run := d.run - 1 }
  else if d.bytes.length > 8 then
    let b1 := d.bytes.headD 0
    let rest := d.bytes.tail
    let d1 : DecState :=
      if b1 = 0xfe then
        { d with px := { d.px with r := rest.getD 0 0, g := rest.getD 1 0, b := rest.getD 2 0 }
                 bytes := rest.drop 3 }
      else if b1 = 0xff then
        { d with px := { r := rest.getD 0 0, g := rest.getD 1 0, b := rest.getD 2 0,
                         a := rest.getD 3 0 }
                 bytes := rest.drop 4 }
      else if b1 &&& 0xc0 = 0x00 then
        { d with px := d.index b1, bytes := rest }
      else if b1 &&& 0xc0 = 0x40 then
        { d with px := { d.px with r := (d.px.r + ((b1 >>> 4) &&& 0x03) + 254) % 256
                                   g := (d.px.g + ((b1 >>> 2) &&& 0x03) + 254) % 256
                                   b := (d.px.b + (b1 &&& 0x03) + 254) % 256 }
                 bytes := rest }
      else if b1 &&& 0xc0 = 0x80 then
        let b2 := rest.headD 0
        let vg : Int := ((b1 &&& 0x3f : Nat) : Int) - 32
        { d with px := { d.px with r := (((d.px.r : Int) + (vg - 8 + ((b2 >>> 4) &&& 0x0f : Nat))) % 256).toNat
                                   g := (((d.px.g : Int) + vg) % 256).toNat
                                   b := (((d.px.b : Int) + (vg - 8 + (b2 &&& 0x0f : Nat))) % 256).toNat }
                 bytes := rest.tail }
      else if b1 &&& 0xc0 = 0xc0 then
        { d with run := b1 &&& 0x3f, bytes := rest }
      else { d with bytes := rest }
    { d1 with index := fun i => if i = colorHash d1.px then d1.px else d1.index i }
  else d

/-- Modelled from the spec: the bytes the reference decoder writes for one
pixel: r, g, b, and a when the image has 4 channels. -/
def pixelBytes (channels : Nat) (px : Pixel) : List Nat :=
  if channels = 4 then [px.r, px.g, px.b, px.a] else [px.r, px.g, px.b]

/-- Modelled from the spec: the reference decoder's pixel loop, `n` pixels. -/
def decodeLoop (channels : Nat) : Nat → DecState → List Nat
  | 0, _ => []
  | n + 1, d =>
    let d1 := decodePixel d
    pixelBytes channels d1.px ++ decodeLoop channels n d1

/-- The big-endian 32-bit value at the head of a byte list (`qoi_read_32`). -/
def read32 (bs : List Nat) : Nat :=
  bs.getD 0 0 * 2 ^ 24 + bs.getD 1 0 * 2 ^ 16 + bs.getD 2 0 * 2 ^ 8 + bs.getD 3 0

/-- The image description the decoder returns. -/
structure Desc where
  width : Nat
  height : Nat
  channels : Nat
  colorspace : Nat
deriving DecidableEq, Repr

/-- Modelled from the spec: the reference decoder `qoi_decode` as the harness
calls it (output channels taken from the header). It rejects input shorter
than header plus end marker, a wrong magic, a zero dimension, a channel count
other than 3 or 4 and a colorspace above 1; then it starts from the pixel
r = g = b = 0, a = 255 and an all-zero table and decodes `width * height`
pixels. Limits on the image size are not part of the model. -/
def decode (data : List Nat) : Option (Desc × List Nat) :=
  if data.length < 14 + 8 then none
  else
    let header_magic := data.take 4
    let desc : Desc :=
      { width := read32 (data.drop 4), height := read32 (data.drop 8),
        channels := data.getD 12 0, colorspace := data.getD 13 0 }
    if desc.width = 0 ∨ desc.height = 0 ∨ desc.channels < 3 ∨ desc.channels > 4
        ∨ desc.colorspace > 1 ∨ header_magic ≠ MAGIC then none
    else
      let d : DecState :=
        { px := { r := 0, g := 0, b := 0, a := 255 }, index := fun _ => Pixel.zero, run := 0,
          bytes := data.drop 14 }
      some (desc, decodeLoop desc.channels (desc.width * desc.height) d)

/-- The table after the decoder has stored `px` at its slot. -/
def store (idx : Nat → Pixel) (px : Pixel) : Nat → Pixel :=
  fun i => if i = colorHash px then px else idx i

end qoi

/-- The bytes of the image as the decoder lays them out: r, g, b (and a) of
every pixel, row after row. -/
def Mat.rgbaBytes (m : Mat) : List Nat :=
  m.data.flatMap (fun p => if m.channels = 4 then [p.r, p.g, p.b, p.a] else [p.r, p.g, p.b])

/-- Decoding what `os << Encoder<hasAlpha>(mat)` wrote. -/
def roundTrip (hasAlpha : Bool) (mat : Mat) : Option (qoi.Desc × List Nat) :=
  match encode hasAlpha mat with
  | .error _ => none
  | .ok bytes => qoi.decode bytes

/-- The colour differences `dp` the scan computes for a pixel whose alpha is
unchanged (or absent). -/
def dpOf (cur prev : Pixel) : SignedPixel :=
  ⟨toInt8 ((cur.b : Int) - prev.b), toInt8 ((cur.g : Int) - prev.g),
    toInt8 ((cur.r : Int) - prev.r), 0⟩

/-- The cache after `arr[arrayIdx] = currentPixel`. -/
def arrStore (hasAlpha : Bool) (arr : Nat → Pixel) (p : Pixel) : Nat → Pixel :=
  fun i => if i = util.hash hasAlpha p then p else arr i

/-- What ties the encoder's cache to the decoder's table in the alpha format:
a slot of the cache either agrees with the table or holds a pixel that does
not hash to it (the initial zero pixel), and the same holds for the slot of
the previous pixel against the previous pixel itself. -/
def InStep (e : Encoder) (idx : Nat → Pixel) : Prop :=
  e.previousPixel.wf true ∧
  (∀ s, e.arr s = idx s ∨ util.hash true (e.arr s) ≠ s) ∧
  (e.arr (util.hash true e.previousPixel) = e.previousPixel
    ∨ util.hash true (e.arr (util.hash true e.previousPixel)) ≠ util.hash true e.previousPixel)

/-- A 1x3 image with alpha: opaque black, a colour, opaque black again. -/
def imgBlackColourBlack : Mat :=
  ⟨1, 3, 4, [⟨0, 0, 0, 255⟩, ⟨30, 20, 10, 255⟩, ⟨0, 0, 0, 255⟩]⟩

/-- A 1x3 image without alpha whose third pixel repeats the first. -/
def imgRepeat : Mat :=
  ⟨1, 3, 3, [⟨30, 20, 10, 0⟩, ⟨60, 50, 40, 0⟩, ⟨30, 20, 10, 0⟩]⟩

/-- The 1x1 image without alpha whose pixel is R=10, G=20, B=30. -/
def imgSingle : Mat := ⟨1, 1, 3, [⟨30, 20, 10, 0⟩]⟩

/-- The positions `(r, c)` the two nested loops of `encodeImage` visit, in order. -/
def scanOrder (m : Mat) : List (Nat × Nat) :=
  (List.range m.rows).flatMap (fun r => (List.range m.cols).map (fun c => (r, c)))

/-- The encoder and the chunks written after the first `k` iterations of the
inner loop of `encodeImage` on a freshly constructed encoder. -/
def stateAfter (hasAlpha : Bool) (m : Mat) (k : Nat) : Encoder × List Chunk :=
  ((scanOrder m).take k).foldl (fun acc rc => loopBody hasAlpha rc.1 rc.2 acc)
    (ctor hasAlpha m, [])

/-- Iteration number `k` (counted from 0) of the inner loop of `encodeImage`
on a freshly constructed encoder. -/
def iterAt (hasAlpha : Bool) (m : Mat) (k : Nat) : Iter :=
  let e := (stateAfter hasAlpha m k).1
  let rc := (scanOrder m).getD k (0, 0)
  encodePixel hasAlpha (e.isLastPixel rc) (e.mat.ptr rc.1 rc.2) e

/-- The chunk written by the flush at the head of the not-equal branch: the
Run chunk of the pending run, or nothing when `runningPixCnt` is 0. -/
def pendingRun (e : Encoder) : List Chunk :=
  if e.runningPixCnt > run.LOWER_RANGE then [(flushRun e).2] else []

/-- Follows the spec's words for a delta component: current minus previous,
taken modulo 256 and read as a signed 8-bit value. -/
def signedDelta (cur prev : Nat) : Int :=
  let u := ((cur : Int) - (prev : Int)) % 256
  if u < 128 then u else u - 256

/-- A 1x4 image with alpha: a colour, opaque black, another colour, opaque
black again. -/
def imgAlphaRepeat : Mat :=
  ⟨1, 4, 4, [⟨30, 20, 10, 255⟩, ⟨0, 0, 0, 255⟩, ⟨60, 50, 40, 255⟩, ⟨0, 0, 0, 255⟩]⟩

/-- A 2x3 image without alpha that ends in a run. -/
def imgTwoByThree : Mat :=
  ⟨2, 3, 3, [⟨1, 1, 1, 0⟩, ⟨7, 7, 7, 0⟩, ⟨7, 7, 7, 0⟩, ⟨7, 7, 7, 0⟩, ⟨9, 9, 9, 0⟩, ⟨9, 9, 9, 0⟩]⟩

/-- One `Encoder<hasAlpha>` object built from `mat` and written to two empty
streams, one after the other: the bytes of the first and of the second
stream. The second write finds the `mutable` members as the first left them. -/
def writeTwice (hasAlpha : Bool) (mat : Mat) : Except QoiError (List Nat × List Nat) :=
  match write hasAlpha [] (ctor hasAlpha mat) with
  | .error err => .error err
  | .ok res1 =>
    match write hasAlpha [] res1.2 with
    | .error err => .error err
    | .ok res2 => .ok (res1.1, res2.1)

/-- The single row (5,5,5), (5,5,5), (9,9,9) without alpha. -/
def imgRunBreak : Mat := ⟨1, 3, 3, [⟨5, 5, 5, 0⟩, ⟨5, 5, 5, 0⟩, ⟨9, 9, 9, 0⟩]⟩

/-- The condition asserted at the bottom of the loop body under
`CVQOI_ASSERT_NO_CONSECUTIVE_INDEX` ("Cannot emit two index tags in a row for
the same index!"), for the `previousTag` the iteration found and the
`currentTag` it produced. -/
def consecutiveIndexAssert (previousTag currentTag : Option (Nat × Nat)) : Bool :=
  !(match currentTag, previousTag with
    | some cur, some prev => prev.1 == index.TAG && cur.1 == index.TAG && prev.2 == cur.2
    | _, _ => false)

/-- The `assert` of `Encoder::indexChunk`, on its `uint8_t` parameter. -/
def Encoder.indexChunkAssert (idx : Nat) : Bool := decide (idx % 256 < 64)

/-- The `assert`s of `Encoder::diffChunk`. -/
def Encoder.diffChunkAssert (hasAlpha : Bool) (dp : Pixel) : Bool :=
  decide (dp.r < 4) && decide (dp.b < 4) && decide (dp.g < 4)
    && (if hasAlpha then decide (dp.a = 0) else true)

/-- The `assert`s of `Encoder::lumaChunk`. -/
def Encoder.lumaChunkAssert (hasAlpha : Bool) (dp : Pixel) : Bool :=
  decide (dp.r < 16) && decide (dp.b < 16) && decide (dp.g < 64)
    && (if hasAlpha then decide (dp.a = 0) else true)

/-- The `assert` of `Encoder::runChunk`. -/
def Encoder.runChunkAssert (e : Encoder) : Bool := decide (e.runningPixCnt < 63)

/-- `flushRun` with the assertion of `runChunk` evaluated. -/
def Encoder.flushRunChecked (e : Encoder) : Except QoiError (Encoder × Chunk) :=
  let e1 := { e with runningPixCnt := (e.runningPixCnt + 256 - run.BIAS) % 256 }
  if runChunkAssert e1 then .ok ({ e1 with runningPixCnt := 0 }, Chunk.run (runChunk e1))
  else .error .assertion_failed

/-- The not-equal branch of the loop body after the flush of a pending run
(the cache lookup and the choice of the chunk), with the assertions of the
chunk builders evaluated; `os` holds what the flush wrote. -/
def Encoder.encodeNewChecked (hasAlpha : Bool) (currentPixel : Pixel) (e : Encoder)
    (os : List Chunk) : Except QoiError Iter :=
  let pairIsSeenBefore := isSeenBefore hasAlpha e currentPixel
  let seenBefore := pairIsSeenBefore.1
  let arrayIdx := pairIsSeenBefore.2
  if seenBefore then
    if indexChunkAssert arrayIdx then
      let currentTag := some (index.TAG, arrayIdx)
      .ok { enc := { e with previousPixel := currentPixel, previousTag := currentTag }
            out := os ++ [Chunk.index (indexChunk arrayIdx)]
            currentTag := currentTag }
    else .error .assertion_failed
  else
    let e := { e with arr := fun i => if i = arrayIdx then currentPixel else e.arr i }
    let dp : SignedPixel :=
      { SignedPixel.zero with
        b := toInt8 ((currentPixel.b : Int) - e.previousPixel.b)
        g := toInt8 ((currentPixel.g : Int) - e.previousPixel.g)
        r := toInt8 ((currentPixel.r : Int) - e.previousPixel.r) }
    let lumaDp : SignedPixel := SignedPixel.zero
    let dp : SignedPixel :=
      if hasAlpha then { dp with a := toInt8 ((currentPixel.a : Int) - e.previousPixel.a) }
      else dp
    if hasAlpha && dp.a != 0 then
      let currentTag := some (rgba.TAG, 255)
      .ok { enc := { e with previousPixel := currentPixel, previousTag := currentTag }
            out := os ++ [Chunk.rgba (rgbaChunk currentPixel)]
            currentTag := currentTag }
    else if util.isInDiffRange dp then
      let dp : SignedPixel :=
        { dp with b := toInt8 (dp.b + diff.BIAS), g := toInt8 (dp.g + diff.BIAS),
                  r := toInt8 (dp.r + diff.BIAS) }
      if diffChunkAssert hasAlpha dp.toPixel then
        let currentTag := some (diff.TAG, 255)
        .ok { enc := { e with previousPixel := currentPixel, previousTag := currentTag }
              out := os ++ [Chunk.diff (diffChunk dp.toPixel)]
              currentTag := currentTag }
      else .error .assertion_failed
    else
      let inLuma := util.isInLumaRange dp lumaDp
      if inLuma.1 then
        let lumaDp : SignedPixel :=
          { inLuma.2 with b := toInt8 (inLuma.2.b + luma.red_blue.BIAS),
                          g := toInt8 (inLuma.2.g + luma.green.BIAS),
                          r := toInt8 (inLuma.2.r + luma.red_blue.BIAS) }
        if lumaChunkAssert hasAlpha lumaDp.toPixel then
          let currentTag := some (luma.TAG, 255)
          .ok { enc := { e with previousPixel := currentPixel, previousTag := currentTag }
                out := os ++ [Chunk.luma (lumaChunk lumaDp.toPixel)]
                currentTag := currentTag }
        else .error .assertion_failed
      else
        let currentTag := some (rgb.TAG, 255)
        .ok { enc := { e with previousPixel := currentPixel, previousTag := currentTag }
              out := os ++ [Chunk.rgb (rgbChunk currentPixel)]
              currentTag := currentTag }

/-- The body of the inner loop of `encodeImage` with the assertions of the
chunk builders it calls evaluated, as in a build without `NDEBUG`: the same
steps as `encodePixel`, each call of `runChunk`, `indexChunk`, `diffChunk`
and `lumaChunk` failing when its assertion does. -/
def Encoder.encodePixelChecked (hasAlpha : Bool) (last : Bool) (currentPixel : Pixel)
    (e : Encoder) : Except QoiError Iter :=
  if currentPixel = e.previousPixel then
    let e := { e with runningPixCnt := (e.runningPixCnt + 1) % 256 }
    if e.runningPixCnt == run.UPPER_LIMIT || last then
      match flushRunChecked e with
      | .error err => .error err
      | .ok res =>
        let currentTag := some (run.TAG, 255)
        .ok { enc := { res.1 with previousTag := currentTag }, out := [res.2],
              currentTag := currentTag }
    else
      .ok { enc := { e with previousTag := none }, out := [], currentTag := none }
  else
    if e.runningPixCnt > run.LOWER_RANGE then
      match flushRunChecked e with
      | .error err => .error err
      | .ok res => encodeNewChecked hasAlpha currentPixel res.1 [res.2]
    else encodeNewChecked hasAlpha currentPixel e []

/-- Follows the claim's words: the most recent pixel, among the first `k`
pixels of the image, that was stored at cache slot `s`, that is, that
differed from its predecessor (the previous pixel at that moment), missed
the cache and has hash `s`; `none` if no pixel was stored there. -/
def lastStored (hasAlpha : Bool) (m : Mat) : Nat → Nat → Option Pixel
  | 0, _ => none
  | k + 1, s =>
    let e := (stateAfter hasAlpha m k).1
    let p := m.data.getD k Pixel.zero
    if p ≠ e.previousPixel ∧ e.arr (util.hash hasAlpha p) ≠ p ∧ util.hash hasAlpha p = s then some p
    else lastStored hasAlpha m k s

/-! ## The scan as a recursion over the pixel list -/

theorem encodePixel_mat (hasAlpha last : Bool) (p : Pixel) (e : Encoder) :
    (encodePixel hasAlpha last p e).enc.mat = e.mat := by
  unfold encodePixel flushRun
  simp only []
  split_ifs <;> simp

theorem nested_range_foldl {β : Type} (F : Nat → Nat → β → β) (rows cols : Nat) (init : β) :
    (List.range rows).foldl (fun acc r => (List.range cols).foldl (fun acc c => F r c acc) acc) init
      = (List.range (rows * cols)).foldl (fun acc i => F (i / cols) (i % cols) acc) init := by
  induction rows with
  | zero => simp
  | succ n ih =>
    rw [List.range_succ, List.foldl_append, ih, Nat.succ_mul, List.range_add, List.foldl_append,
      List.foldl_map]
    simp only [List.foldl_cons, List.foldl_nil]
    apply List.foldl_ext
    intro a c hc
    have hc' : c < cols := List.mem_range.mp hc
    have h1 : (n * cols + c) / cols = n := by
      rw [Nat.mul_comm, Nat.mul_add_div (by omega), Nat.div_eq_of_lt hc', Nat.add_zero]
    have h2 : (n * cols + c) % cols = c := by
      rw [Nat.mul_comm, Nat.mul_add_mod, Nat.mod_eq_of_lt hc']
    rw [h1, h2]

theorem isLastPixel_div_mod (e : Encoder) (i : Nat) (hi : i < e.mat.rows * e.mat.cols) :
    e.isLastPixel (i / e.mat.cols, i % e.mat.cols) = decide (i + 1 = e.mat.rows * e.mat.cols) := by
  have hc : 0 < e.mat.cols := by
    rcases Nat.eq_zero_or_pos e.mat.cols with h | h
    · rw [h] at hi; simp at hi
    · exact h
  have hr : 0 < e.mat.rows := by
    rcases Nat.eq_zero_or_pos e.mat.rows with h | h
    · rw [h] at hi; simp at hi
    · exact h
  have hdm := Nat.div_add_mod i e.mat.cols
  have hm := Nat.mod_lt i hc
  have hd : i / e.mat.cols < e.mat.rows := Nat.div_lt_of_lt_mul (by rw [Nat.mul_comm]; exact hi)
  unfold isLastPixel
  simp only []
  obtain ⟨r', hr'⟩ : ∃ r', e.mat.rows = r' + 1 := ⟨e.mat.rows - 1, by omega⟩
  rw [hr'] at hd ⊢
  rw [Nat.succ_mul]
  by_cases h : i + 1 = r' * e.mat.cols + e.mat.cols
  · have h1 : i / e.mat.cols = r' := by
      have : i = e.mat.cols * r' + (e.mat.cols - 1) := by rw [Nat.mul_comm]; omega
      rw [this, Nat.mul_add_div hc, Nat.div_eq_of_lt (by omega), Nat.add_zero]
    have h2 : i % e.mat.cols = e.mat.cols - 1 := by
      rw [h1] at hdm; rw [Nat.mul_comm] at hdm; omega
    simp [h, h1, h2]; omega
  · simp only [h, decide_False, Bool.and_eq_false_imp, decide_eq_true_eq, decide_eq_false_iff_not]
    intro h1 h2
    apply h
    have h1' : i / e.mat.cols = r' := by omega
    have h2' : i % e.mat.cols + 1 = e.mat.cols := by omega
    rw [h1'] at hdm
    rw [Nat.mul_comm] at hdm
    omega

theorem foldl_loopBody_out (hasAlpha : Bool) (m : Mat) (hlen : m.data.length = m.rows * m.cols) :
    ∀ (ps : List Pixel) (k : Nat) (acc : Encoder × List Chunk),
      acc.1.mat = m → m.data.drop k = ps → 
      (List.range' k ps.length).foldl
          (fun acc i => loopBody hasAlpha (i / m.cols) (i % m.cols) acc) acc
        = ((scan hasAlpha ps acc.1).1, acc.2 ++ (scan hasAlpha ps acc.1).2) := by
  intro ps
  induction ps with
  | nil => intro k acc _ _; simp [scan]
  | cons p ps ih =>
    intro k acc hm hd
    have hk : k < m.data.length := by
      by_contra hcon
      rw [List.drop_eq_nil_of_le (by omega)] at hd
      cases hd
    have hd' := List.drop_eq_getElem_cons hk
    rw [hd] at hd'
    injection hd' with hp hps
    simp only [List.length_cons, List.range'_succ, List.foldl_cons]
    have hlen' : k + (ps.length + 1) = m.rows * m.cols := by
      have := congrArg List.length hd
      simp at this; omega
    have hbody : loopBody hasAlpha (k / m.cols) (k % m.cols) acc
        = ((encodePixel hasAlpha (decide (ps = [])) p acc.1).enc,
            acc.2 ++ (encodePixel hasAlpha (decide (ps = [])) p acc.1).out) := by
      unfold loopBody
      have h1 : acc.1.mat.ptr (k / m.cols) (k % m.cols) = p := by
        rw [hm]; unfold Mat.ptr
        rw [Nat.mul_comm, Nat.div_add_mod, List.getD_eq_getElem _ _ hk, hp]
      have h2 : acc.1.isLastPixel (k / m.cols, k % m.cols) = decide (ps = []) := by
        have := isLastPixel_div_mod acc.1 k (by rw [hm]; omega)
        rw [hm] at this
        rw [this]
        rcases ps with _ | ⟨q, qs⟩
        · simp at hlen' ⊢; omega
        · simp at hlen' ⊢; omega
      simp only [h1, h2]
    rw [hbody, ih (k + 1) _ (by simp [encodePixel_mat, hm]) hps.symm]
    simp [scan, List.append_assoc]

theorem encodeImage_eq_scan (hasAlpha : Bool) (e : Encoder)
    (hlen : e.mat.data.length = e.mat.rows * e.mat.cols) :
    encodeImage hasAlpha e = scan hasAlpha e.mat.data e := by
  unfold encodeImage
  rw [nested_range_foldl (fun r c acc => loopBody hasAlpha r c acc), List.range_eq_range', ← hlen]
  rw [foldl_loopBody_out hasAlpha e.mat hlen e.mat.data 0 (e, []) rfl (by simp)]
  simp

/-! ## Bytes of the chunks -/

theorem run_byte_facts : ∀ v < 62, (0xc0 ||| v) % 256 = 192 + v ∧ (192 + v) &&& 0xc0 = 0xc0 ∧ (192 + v) &&& 0x3f = v := by
  decide

theorem index_byte_facts : ∀ s < 64, (0 ||| s % 256) % 256 = s ∧ s &&& 0xc0 = 0 := by
  decide

theorem diff_byte_facts : ∀ r < 4, ∀ g < 4, ∀ b < 4,
    (0x40 ||| ((r <<< 4) ||| (g <<< 2) ||| b)) % 256 = 64 + 16 * r + 4 * g + b ∧
    (64 + 16 * r + 4 * g + b) &&& 0xc0 = 0x40 ∧
    ((64 + 16 * r + 4 * g + b) >>> 4) &&& 0x03 = r ∧
    ((64 + 16 * r + 4 * g + b) >>> 2) &&& 0x03 = g ∧
    (64 + 16 * r + 4 * g + b) &&& 0x03 = b := by
  decide

theorem luma_byte0_facts : ∀ g < 64, (0x80 ||| g) % 256 = 128 + g ∧ (128 + g) &&& 0xc0 = 0x80 ∧
    (128 + g) &&& 0x3f = g := by
  decide

set_option maxRecDepth 100000 in
theorem luma_byte1_facts : ∀ r < 16, ∀ b < 16, ((r <<< 4) ||| b) % 256 = 16 * r + b ∧
    ((16 * r + b) >>> 4) &&& 0x0f = r ∧ (16 * r + b) &&& 0x0f = b := by
  decide

/-! ## The decoder on single chunks -/

namespace qoi

theorem decodePixel_index (px : Pixel) (idx : Nat → Pixel) (s : Nat) (tl : List Nat)
    (hs : s < 64) (htl : 8 ≤ tl.length) :
    decodePixel ⟨px, idx, 0, s :: tl⟩ = ⟨idx s, store idx (idx s), 0, tl⟩ := by
  have h := (index_byte_facts s hs).2
  have h1 : s ≠ 254 := by omega
  have h2 : s ≠ 255 := by omega
  unfold decodePixel store
  simp [h, h1, h2]
  omega

theorem decodePixel_run (px : Pixel) (idx : Nat → Pixel) (v : Nat) (tl : List Nat)
    (hv : v < 62) (htl : 8 ≤ tl.length) :
    decodePixel ⟨px, idx, 0, (192 + v) :: tl⟩ = ⟨px, store idx px, v, tl⟩ := by
  obtain ⟨_, h3, h4⟩ := run_byte_facts v hv
  have h1 : 192 + v ≠ 254 := by omega
  have h2 : 192 + v ≠ 255 := by omega
  unfold decodePixel store
  simp [h1, h2, h3, h4]
  omega

theorem decodePixel_rgb (px : Pixel) (idx : Nat → Pixel) (r g b : Nat) (tl : List Nat)
    (htl : 8 ≤ tl.length) :
    decodePixel ⟨px, idx, 0, 254 :: r :: g :: b :: tl⟩
      = ⟨⟨b, g, r, px.a⟩, store idx ⟨b, g, r, px.a⟩, 0, tl⟩ := by
  unfold decodePixel store
  simp
  intro h; omega

theorem decodePixel_rgba (px : Pixel) (idx : Nat → Pixel) (r g b a : Nat) (tl : List Nat)
    (htl : 8 ≤ tl.length) :
    decodePixel ⟨px, idx, 0, 255 :: r :: g :: b :: a :: tl⟩
      = ⟨⟨b, g, r, a⟩, store idx ⟨b, g, r, a⟩, 0, tl⟩ := by
  unfold decodePixel store
  simp
  intro h; omega

theorem decodePixel_diff (px : Pixel) (idx : Nat → Pixel) (r g b : Nat) (tl : List Nat)
    (hr : r < 4) (hg : g < 4) (hb : b < 4) (htl : 8 ≤ tl.length) :
    decodePixel ⟨px, idx, 0, (64 + 16 * r + 4 * g + b) :: tl⟩
      = ⟨⟨(px.b + b + 254) % 256, (px.g + g + 254) % 256, (px.r + r + 254) % 256, px.a⟩,
          store idx ⟨(px.b + b + 254) % 256, (px.g + g + 254) % 256, (px.r + r + 254) % 256, px.a⟩,
          0, tl⟩ := by
  obtain ⟨_, h3, h4, h5, h6⟩ := diff_byte_facts r hr g hg b hb
  have h1 : 64 + 16 * r + 4 * g + b ≠ 254 := by omega
  have h2 : 64 + 16 * r + 4 * g + b ≠ 255 := by omega
  unfold decodePixel store
  simp [h1, h2, h3, h4, h5, h6]
  omega

theorem decodePixel_luma (px : Pixel) (idx : Nat → Pixel) (r g b : Nat) (tl : List Nat)
    (hr : r < 16) (hg : g < 64) (hb : b < 16) (htl : 8 ≤ tl.length) :
    decodePixel ⟨px, idx, 0, (128 + g) :: (16 * r + b) :: tl⟩
      = ⟨⟨(((px.b : Int) + ((g : Int) - 32 - 8 + b)) % 256).toNat,
           (((px.g : Int) + ((g : Int) - 32)) % 256).toNat,
           (((px.r : Int) + ((g : Int) - 32 - 8 + r)) % 256).toNat, px.a⟩,
          store idx ⟨(((px.b : Int) + ((g : Int) - 32 - 8 + b)) % 256).toNat,
           (((px.g : Int) + ((g : Int) - 32)) % 256).toNat,
           (((px.r : Int) + ((g : Int) - 32 - 8 + r)) % 256).toNat, px.a⟩,
          0, tl⟩ := by
  obtain ⟨_, h3, h4⟩ := luma_byte0_facts g hg
  obtain ⟨_, h5, h6⟩ := luma_byte1_facts r hr b hb
  have h1 : 128 + g ≠ 254 := by omega
  have h2 : 128 + g ≠ 255 := by omega
  unfold decodePixel store
  simp [h1, h2, h3, h4, h5, h6]
  omega

theorem decodeLoop_run (channels : Nat) (px : Pixel) (idx : Nat → Pixel) (bs : List Nat) :
    ∀ (k n : Nat), decodeLoop channels (k + n) ⟨px, idx, k, bs⟩
      = (List.replicate k px).flatMap (pixelBytes channels)
          ++ decodeLoop channels n ⟨px, idx, 0, bs⟩ := by
  intro k
  induction k with
  | zero => intro n; simp
  | succ k ih =>
    intro n
    have h : k + 1 + n = (k + n) + 1 := by omega
    rw [h, decodeLoop]
    have hd : decodePixel ⟨px, idx, k + 1, bs⟩ = ⟨px, idx, k, bs⟩ := by
      unfold decodePixel; simp
    simp only [hd, ih n, List.replicate_succ, List.flatMap_cons, List.append_assoc]

end qoi

/-! ## The loop body, case by case -/

theorem encodePixel_ne_pending (hasAlpha last : Bool) (p : Pixel) (e : Encoder)
    (hne : p ≠ e.previousPixel) (hpos : 0 < e.runningPixCnt) :
    encodePixel hasAlpha last p e
      = { encodePixel hasAlpha last p { e with runningPixCnt := 0 } with
          out := Chunk.run ((run.TAG ||| (e.runningPixCnt + 256 - run.BIAS) % 256) % 256)
                  :: (encodePixel hasAlpha last p { e with runningPixCnt := 0 }).out } := by
  unfold encodePixel flushRun runChunk isSeenBefore
  simp only [hne, if_false, run.LOWER_RANGE, hpos, if_true, gt_iff_lt, lt_self_iff_false]
  split_ifs <;> simp

theorem encodePixel_eq_flush (hasAlpha last : Bool) (p : Pixel) (e : Encoder)
    (heq : p = e.previousPixel)
    (hfl : (e.runningPixCnt + 1) % 256 = run.UPPER_LIMIT ∨ last = true) :
    encodePixel hasAlpha last p e
      = { enc := { e with runningPixCnt := 0, previousTag := some (run.TAG, 255) }
          out := [Chunk.run ((run.TAG ||| ((e.runningPixCnt + 1) % 256 + 256 - run.BIAS) % 256) % 256)]
          currentTag := some (run.TAG, 255) } := by
  unfold encodePixel flushRun runChunk
  have : ((e.runningPixCnt + 1) % 256 == run.UPPER_LIMIT || last) = true := by
    simpa using hfl
  simp [heq, this]

theorem encodePixel_eq_keep (hasAlpha last : Bool) (p : Pixel) (e : Encoder)
    (heq : p = e.previousPixel)
    (h1 : (e.runningPixCnt + 1) % 256 ≠ run.UPPER_LIMIT) (h2 : last = false) :
    encodePixel hasAlpha last p e
      = { enc := { e with runningPixCnt := (e.runningPixCnt + 1) % 256, previousTag := none }
          out := []
          currentTag := none } := by
  unfold encodePixel
  simp [heq, h1, h2]

theorem encodePixel_hit (hasAlpha last : Bool) (p : Pixel) (e : Encoder)
    (hne : p ≠ e.previousPixel) (hcnt : e.runningPixCnt = 0)
    (hhit : e.arr (util.hash hasAlpha p) = p) :
    encodePixel hasAlpha last p e
      = { enc := { e with previousPixel := p
                          previousTag := some (index.TAG, util.hash hasAlpha p) }
          out := [Chunk.index (indexChunk (util.hash hasAlpha p))]
          currentTag := some (index.TAG, util.hash hasAlpha p) } := by
  unfold encodePixel isSeenBefore
  simp [hne, hcnt, run.LOWER_RANGE, hhit]

theorem encodePixel_rgba (last : Bool) (p : Pixel) (e : Encoder)
    (hne : p ≠ e.previousPixel) (hcnt : e.runningPixCnt = 0)
    (hmiss : e.arr (util.hash true p) ≠ p)
    (ha : toInt8 ((p.a : Int) - e.previousPixel.a) ≠ 0) :
    encodePixel true last p e
      = { enc := { e with arr := arrStore true e.arr p, previousPixel := p
                          previousTag := some (rgba.TAG, 255) }
          out := [Chunk.rgba (rgbaChunk p)]
          currentTag := some (rgba.TAG, 255) } := by
  unfold encodePixel isSeenBefore arrStore
  simp [hne, hcnt, run.LOWER_RANGE, hmiss, ha]

theorem encodePixel_diff (hasAlpha last : Bool) (p : Pixel) (e : Encoder)
    (hne : p ≠ e.previousPixel) (hcnt : e.runningPixCnt = 0)
    (hmiss : e.arr (util.hash hasAlpha p) ≠ p)
    (ha : hasAlpha = true → toInt8 ((p.a : Int) - e.previousPixel.a) = 0)
    (hd : util.isInDiffRange (dpOf p e.previousPixel) = true) :
    encodePixel hasAlpha last p e
      = { enc := { e with arr := arrStore hasAlpha e.arr p, previousPixel := p
                          previousTag := some (diff.TAG, 255) }
          out := [Chunk.diff (diffChunk
                  ⟨saturateU8 (toInt8 ((dpOf p e.previousPixel).b + diff.BIAS)),
                   saturateU8 (toInt8 ((dpOf p e.previousPixel).g + diff.BIAS)),
                   saturateU8 (toInt8 ((dpOf p e.previousPixel).r + diff.BIAS)), 0⟩)]
          currentTag := some (diff.TAG, 255) } := by
  cases hasAlpha
  · unfold encodePixel isSeenBefore arrStore
    unfold dpOf at hd
    simp [hne, hcnt, run.LOWER_RANGE, hmiss, SignedPixel.zero, hd, SignedPixel.toPixel, dpOf, saturateU8]
  · have ha' := ha rfl
    unfold encodePixel isSeenBefore arrStore
    unfold dpOf at hd
    simp [hne, hcnt, run.LOWER_RANGE, hmiss, SignedPixel.zero, hd, SignedPixel.toPixel, dpOf, ha', saturateU8]

theorem encodePixel_luma (hasAlpha last : Bool) (p : Pixel) (e : Encoder)
    (hne : p ≠ e.previousPixel) (hcnt : e.runningPixCnt = 0)
    (hmiss : e.arr (util.hash hasAlpha p) ≠ p)
    (ha : hasAlpha = true → toInt8 ((p.a : Int) - e.previousPixel.a) = 0)
    (hd : util.isInDiffRange (dpOf p e.previousPixel) = false)
    (hl : (util.isInLumaRange (dpOf p e.previousPixel) SignedPixel.zero).1 = true) :
    encodePixel hasAlpha last p e
      = { enc := { e with arr := arrStore hasAlpha e.arr p, previousPixel := p
                          previousTag := some (luma.TAG, 255) }
          out := [Chunk.luma (lumaChunk
                  ⟨saturateU8 (toInt8 (toInt8 ((dpOf p e.previousPixel).b - (dpOf p e.previousPixel).g)
                      + luma.red_blue.BIAS)),
                   saturateU8 (toInt8 ((dpOf p e.previousPixel).g + luma.green.BIAS)),
                   saturateU8 (toInt8 (toInt8 ((dpOf p e.previousPixel).r - (dpOf p e.previousPixel).g)
                      + luma.red_blue.BIAS)), 0⟩)]
          currentTag := some (luma.TAG, 255) } := by
  have hg : (decide ((dpOf p e.previousPixel).g < luma.green.UPPER_RANGE)
      && decide ((dpOf p e.previousPixel).g > luma.green.LOWER_RANGE)) = true := by
    by_contra hcon
    unfold util.isInLumaRange at hl
    simp only [hcon] at hl
    simp at hl
  have hl2 : util.isInLumaRange (dpOf p e.previousPixel) SignedPixel.zero
      = (true, ⟨toInt8 ((dpOf p e.previousPixel).b - (dpOf p e.previousPixel).g),
            (dpOf p e.previousPixel).g,
            toInt8 ((dpOf p e.previousPixel).r - (dpOf p e.previousPixel).g), 0⟩) := by
    rw [← hl]
    unfold util.isInLumaRange
    simp only [hg, if_true, SignedPixel.zero]
  simp only [dpOf, SignedPixel.zero] at hl2 hd
  cases hasAlpha
  · unfold encodePixel isSeenBefore arrStore
    simp [hne, hcnt, run.LOWER_RANGE, hmiss, SignedPixel.zero, hd, SignedPixel.toPixel, dpOf, saturateU8, hl2]
  · have ha' := ha rfl
    unfold encodePixel isSeenBefore arrStore
    simp [hne, hcnt, run.LOWER_RANGE, hmiss, SignedPixel.zero, hd, SignedPixel.toPixel, dpOf, ha', saturateU8, hl2]

theorem encodePixel_rgb (hasAlpha last : Bool) (p : Pixel) (e : Encoder)
    (hne : p ≠ e.previousPixel) (hcnt : e.runningPixCnt = 0)
    (hmiss : e.arr (util.hash hasAlpha p) ≠ p)
    (ha : hasAlpha = true → toInt8 ((p.a : Int) - e.previousPixel.a) = 0)
    (hd : util.isInDiffRange (dpOf p e.previousPixel) = false)
    (hl : (util.isInLumaRange (dpOf p e.previousPixel) SignedPixel.zero).1 = false) :
    encodePixel hasAlpha last p e
      = { enc := { e with arr := arrStore hasAlpha e.arr p, previousPixel := p
                          previousTag := some (rgb.TAG, 255) }
          out := [Chunk.rgb (rgbChunk p)]
          currentTag := some (rgb.TAG, 255) } := by
  simp only [dpOf, SignedPixel.zero] at hl hd
  cases hasAlpha
  · unfold encodePixel isSeenBefore arrStore
    simp [hne, hcnt, run.LOWER_RANGE, hmiss, SignedPixel.zero, hd, SignedPixel.toPixel, dpOf, saturateU8, hl]
  · have ha' := ha rfl
    unfold encodePixel isSeenBefore arrStore
    simp [hne, hcnt, run.LOWER_RANGE, hmiss, SignedPixel.zero, hd, SignedPixel.toPixel, dpOf, ha', saturateU8, hl]

/-! ## Encoder and decoder in step (alpha format) -/

theorem hash_lt (hasAlpha : Bool) (p : Pixel) : util.hash hasAlpha p < 64 := by
  unfold util.hash
  exact Nat.mod_lt _ (by decide)

theorem colorHash_eq_hash (p : Pixel) : qoi.colorHash p = util.hash true p := by
  unfold qoi.colorHash util.hash
  simp only [if_true]
  congr 1
  omega

theorem toInt8_sub_eq_zero (c q : Nat) (hc : c < 256) (hq : q < 256)
    (h : toInt8 ((c : Int) - q) = 0) : c = q := by
  unfold toInt8 at h
  omega

theorem diff_arith (c q : Nat) (hc : c < 256)
    (h1 : toInt8 ((c : Int) - q) < 2) (h2 : toInt8 ((c : Int) - q) > -3) :
    saturateU8 (toInt8 (toInt8 ((c : Int) - q) + 2)) < 4 ∧
    (q + saturateU8 (toInt8 (toInt8 ((c : Int) - q) + 2)) + 254) % 256 = c := by
  unfold toInt8 saturateU8 at *
  omega

theorem luma_arith_g (c q : Nat) (hc : c < 256) (hq : q < 256)
    (h1 : toInt8 ((c : Int) - q) < 32) (h2 : toInt8 ((c : Int) - q) > -33) :
    saturateU8 (toInt8 (toInt8 ((c : Int) - q) + 32)) < 64 ∧
    (((q : Int) + ((saturateU8 (toInt8 (toInt8 ((c : Int) - q) + 32)) : Int) - 32)) % 256).toNat = c ∧
    ((saturateU8 (toInt8 (toInt8 ((c : Int) - q) + 32)) : Int) - 32) = toInt8 ((c : Int) - q) := by
  unfold toInt8 saturateU8 at *
  omega

theorem luma_arith_rb (c q : Nat) (dg : Int) (hc : c < 256)
    (h1 : toInt8 (toInt8 ((c : Int) - q) - dg) < 8) (h2 : toInt8 (toInt8 ((c : Int) - q) - dg) > -9) :
    saturateU8 (toInt8 (toInt8 (toInt8 ((c : Int) - q) - dg) + 8)) < 16 ∧
    (((q : Int) + (dg - 8 + (saturateU8 (toInt8 (toInt8 (toInt8 ((c : Int) - q) - dg) + 8)) : Int))) % 256).toNat
      = c := by
  unfold toInt8 saturateU8 at *
  omega


theorem isInDiffRange_iff (dp : SignedPixel) :
    util.isInDiffRange dp = true ↔
      (dp.b < 2 ∧ dp.g < 2 ∧ dp.r < 2) ∧ (-3 < dp.b ∧ -3 < dp.g ∧ -3 < dp.r) := by
  unfold util.isInDiffRange util.less util.greater diff.UPPER_RANGE diff.LOWER_RANGE
  simp only [Bool.and_eq_true, decide_eq_true_eq, gt_iff_lt, and_assoc]

theorem isInLumaRange_iff (dp : SignedPixel) :
    (util.isInLumaRange dp SignedPixel.zero).1 = true ↔
      (dp.g < 32 ∧ -33 < dp.g) ∧ (toInt8 (dp.r - dp.g) < 8 ∧ -9 < toInt8 (dp.r - dp.g))
        ∧ (toInt8 (dp.b - dp.g) < 8 ∧ -9 < toInt8 (dp.b - dp.g)) := by
  unfold util.isInLumaRange luma.green.UPPER_RANGE luma.green.LOWER_RANGE
    luma.red_blue.UPPER_RANGE luma.red_blue.LOWER_RANGE
  by_cases hg : dp.g < 32 ∧ -33 < dp.g
  · simp [hg.1, hg.2]
  · have : (decide (dp.g < 32) && decide (dp.g > -33)) = false := by
      simp only [gt_iff_lt, Bool.and_eq_false_imp, decide_eq_true_eq, decide_eq_false_iff_not]
      intro h1 h2; exact hg ⟨h1, h2⟩
    simp only [this]
    simp [hg]

/-- In the alpha format the decoder, standing at the previous pixel, reads
the chunk the scan wrote for a new pixel and arrives at that pixel. -/
theorem decodePixel_encodePixel (last : Bool) (p : Pixel) (e : Encoder) (idx : Nat → Pixel)
    (tl : List Nat) (hne : p ≠ e.previousPixel) (hcnt : e.runningPixCnt = 0)
    (hp : p.wf true) (hprev : e.previousPixel.wf true)
    (hidx : e.arr (util.hash true p) = p → idx (util.hash true p) = p) (htl : 8 ≤ tl.length) :
    qoi.decodePixel ⟨e.previousPixel, idx, 0, chunkBytes (encodePixel true last p e).out ++ tl⟩
      = ⟨p, qoi.store idx p, 0, tl⟩ := by
  obtain ⟨hpb, hpg, hpr, hpa⟩ := hp
  obtain ⟨hqb, hqg, hqr, hqa⟩ := hprev
  simp only [if_true] at hpa hqa
  by_cases hhit : e.arr (util.hash true p) = p
  · rw [encodePixel_hit true last p e hne hcnt hhit]
    have hlt := hash_lt true p
    have hb := (index_byte_facts _ hlt).1
    simp only [chunkBytes, Chunk.bytes, indexChunk, index.TAG, hb, List.append_nil,
      List.singleton_append]
    rw [qoi.decodePixel_index _ _ _ _ hlt htl, hidx hhit]
  · by_cases ha : toInt8 ((p.a : Int) - e.previousPixel.a) = 0
    · have hae : p.a = e.previousPixel.a := toInt8_sub_eq_zero _ _ hpa hqa ha
      by_cases hd : util.isInDiffRange (dpOf p e.previousPixel) = true
      · rw [encodePixel_diff true last p e hne hcnt hhit (fun _ => ha) hd]
        obtain ⟨⟨h1, h2, h3⟩, h4, h5, h6⟩ := (isInDiffRange_iff _).mp hd
        simp only [dpOf, diff.BIAS] at h1 h2 h3 h4 h5 h6 ⊢
        obtain ⟨hb1, hb2⟩ := diff_arith p.b e.previousPixel.b hpb h1 h4
        obtain ⟨hg1, hg2⟩ := diff_arith p.g e.previousPixel.g hpg h2 h5
        obtain ⟨hr1, hr2⟩ := diff_arith p.r e.previousPixel.r hpr h3 h6
        have hbyte := (diff_byte_facts _ hr1 _ hg1 _ hb1).1
        simp only [chunkBytes, Chunk.bytes, diffChunk, diff.TAG, hbyte, List.append_nil,
          List.singleton_append]
        rw [qoi.decodePixel_diff _ _ _ _ _ _ hr1 hg1 hb1 htl, hb2, hg2, hr2, ← hae]
      · have hd' : util.isInDiffRange (dpOf p e.previousPixel) = false := by simpa using hd
        by_cases hl : (util.isInLumaRange (dpOf p e.previousPixel) SignedPixel.zero).1 = true
        · rw [encodePixel_luma true last p e hne hcnt hhit (fun _ => ha) hd' hl]
          obtain ⟨⟨h1, h2⟩, ⟨h3, h4⟩, h5, h6⟩ := (isInLumaRange_iff _).mp hl
          simp only [dpOf, luma.green.BIAS, luma.red_blue.BIAS] at h1 h2 h3 h4 h5 h6 ⊢
          obtain ⟨hg1, hg2, hg3⟩ := luma_arith_g p.g e.previousPixel.g hpg hqg h1 h2
          obtain ⟨hr1, hr2⟩ := luma_arith_rb p.r e.previousPixel.r _ hpr h3 h4
          obtain ⟨hb1, hb2⟩ := luma_arith_rb p.b e.previousPixel.b _ hpb h5 h6
          have hbyte0 := (luma_byte0_facts _ hg1).1
          have hbyte1 := (luma_byte1_facts _ hr1 _ hb1).1
          simp only [chunkBytes, Chunk.bytes, lumaChunk, luma.TAG, hbyte0, hbyte1, List.append_nil,
            List.cons_append, List.nil_append]
          rw [qoi.decodePixel_luma _ _ _ _ _ _ hr1 hg1 hb1 htl, hg2, hg3, hr2, hb2, ← hae]
        · have hl' : (util.isInLumaRange (dpOf p e.previousPixel) SignedPixel.zero).1 = false := by
            simpa using hl
          rw [encodePixel_rgb true last p e hne hcnt hhit (fun _ => ha) hd' hl']
          simp only [chunkBytes, Chunk.bytes, rgbChunk, rgb.TAG, List.append_nil, List.cons_append,
            List.nil_append]
          rw [qoi.decodePixel_rgb _ _ _ _ _ _ htl, ← hae]
    · rw [encodePixel_rgba last p e hne hcnt hhit ha]
      simp only [chunkBytes, Chunk.bytes, rgbaChunk, rgba.TAG, List.append_nil, List.cons_append,
        List.nil_append]
      rw [qoi.decodePixel_rgba _ _ _ _ _ _ _ htl]

theorem chunkBytes_append (xs ys : List Chunk) :
    chunkBytes (xs ++ ys) = chunkBytes xs ++ chunkBytes ys := by
  induction xs with
  | nil => simp [chunkBytes]
  | cons x xs ih => simp [chunkBytes, ih]

theorem encodePixel_ne_state (hasAlpha last : Bool) (p : Pixel) (e : Encoder)
    (hne : p ≠ e.previousPixel) :
    (encodePixel hasAlpha last p e).enc.previousPixel = p ∧
    (encodePixel hasAlpha last p e).enc.runningPixCnt = 0 ∧
    (encodePixel hasAlpha last p e).enc.arr
      = (if e.arr (util.hash hasAlpha p) = p then e.arr else arrStore hasAlpha e.arr p) := by
  unfold encodePixel flushRun isSeenBefore arrStore
  simp only [hne, if_false]
  split_ifs <;> simp_all [run.LOWER_RANGE]

theorem InStep_store_prev (e : Encoder) (idx : Nat → Pixel) (e1 : Encoder)
    (h : InStep e idx) (harr : e1.arr = e.arr) (hprev : e1.previousPixel = e.previousPixel) :
    InStep e1 (qoi.store idx e.previousPixel) := by
  obtain ⟨h1, h2, h3⟩ := h
  refine ⟨by rw [hprev]; exact h1, ?_, by rw [harr, hprev]; exact h3⟩
  intro s
  rw [harr]
  unfold qoi.store
  by_cases hs : s = qoi.colorHash e.previousPixel
  · rw [colorHash_eq_hash] at hs
    simp only [hs, colorHash_eq_hash, if_true]
    exact h3
  · simp only [hs, if_false]
    exact h2 s

theorem InStep_new (last : Bool) (p : Pixel) (e : Encoder) (idx : Nat → Pixel)
    (h : InStep e idx) (hne : p ≠ e.previousPixel) (hp : p.wf true) :
    InStep (encodePixel true last p e).enc (qoi.store idx p) := by
  obtain ⟨h1, h2, h3⟩ := h
  obtain ⟨hs1, _, hs3⟩ := encodePixel_ne_state true last p e hne
  have key : (encodePixel true last p e).enc.arr (util.hash true p) = p := by
    rw [hs3]
    by_cases hhit : e.arr (util.hash true p) = p
    · simp [hhit]
    · simp [hhit, arrStore]
  refine ⟨by rw [hs1]; exact hp, ?_, by rw [hs1]; exact Or.inl key⟩
  intro s
  unfold qoi.store
  by_cases hs : s = qoi.colorHash p
  · rw [colorHash_eq_hash] at hs
    simp only [hs, colorHash_eq_hash, if_true]
    exact Or.inl key
  · simp only [hs, if_false]
    rw [colorHash_eq_hash] at hs
    rw [hs3]
    by_cases hhit : e.arr (util.hash true p) = p
    · simp only [hhit, if_true]; exact h2 s
    · simp only [hhit, if_false, arrStore, hs]; exact h2 s

theorem decodeLoop_succ (channels n : Nat) (d : qoi.DecState) :
    qoi.decodeLoop channels (n + 1) d
      = qoi.pixelBytes channels (qoi.decodePixel d).px
          ++ qoi.decodeLoop channels n (qoi.decodePixel d) := rfl

/-- A pending run of `k` pixels, once its chunk arrives, is decoded as `k`
copies of the previous pixel. -/
theorem decodeLoop_run_chunk (px : Pixel) (idx : Nat → Pixel) (k n : Nat) (tl : List Nat)
    (hk1 : 0 < k) (hk2 : k ≤ 62) (htl : 8 ≤ tl.length) :
    qoi.decodeLoop 4 (k + n) ⟨px, idx, 0, (192 + (k - 1)) :: tl⟩
      = (List.replicate k px).flatMap (qoi.pixelBytes 4)
          ++ qoi.decodeLoop 4 n ⟨px, qoi.store idx px, 0, tl⟩ := by
  obtain ⟨v, rfl⟩ : ∃ v, k = v + 1 := ⟨k - 1, by omega⟩
  have h : v + 1 + n = (v + n) + 1 := by omega
  rw [h, decodeLoop_succ, Nat.add_sub_cancel, qoi.decodePixel_run _ _ _ _ (by omega) htl,
    qoi.decodeLoop_run, List.replicate_succ, List.flatMap_cons, List.append_assoc]

theorem decode_scan (ps : List Pixel) :
    ∀ (e : Encoder) (idx : Nat → Pixel) (tl : List Nat),
      InStep e idx → e.runningPixCnt ≤ 61 → (ps = [] → e.runningPixCnt = 0) →
      (∀ p ∈ ps, p.wf true) → 8 ≤ tl.length →
      qoi.decodeLoop 4 (e.runningPixCnt + ps.length)
          ⟨e.previousPixel, idx, 0, chunkBytes (scan true ps e).2 ++ tl⟩
        = (List.replicate e.runningPixCnt e.previousPixel ++ ps).flatMap (qoi.pixelBytes 4) := by
  induction ps with
  | nil =>
    intro e idx tl _ _ h0 _ _
    simp [h0 rfl, qoi.decodeLoop]
  | cons p ps ih =>
    intro e idx tl hin hcnt _ hwf htl
    have hwfp : p.wf true := hwf p (List.mem_cons_self _ _)
    have hwfps : ∀ q ∈ ps, q.wf true := fun q hq => hwf q (List.mem_cons_of_mem _ hq)
    simp only [scan, chunkBytes_append, List.append_assoc, List.length_cons]
    by_cases heq : p = e.previousPixel
    · by_cases hfl : (e.runningPixCnt + 1) % 256 = run.UPPER_LIMIT ∨ decide (ps = []) = true
      · rw [encodePixel_eq_flush true _ p e heq hfl]
        have hmod : (e.runningPixCnt + 1) % 256 = e.runningPixCnt + 1 := Nat.mod_eq_of_lt (by omega)
        have hv : (e.runningPixCnt + 1 + 256 - run.BIAS) % 256 = e.runningPixCnt := by
          unfold run.BIAS; omega
        have hbyte := (run_byte_facts e.runningPixCnt (by omega)).1
        simp only [chunkBytes, Chunk.bytes, hmod, hv, run.TAG, hbyte, List.append_nil,
          List.singleton_append]
        have hlen : e.runningPixCnt + (ps.length + 1) = (e.runningPixCnt + 1) + ps.length := by omega
        have hrun := decodeLoop_run_chunk e.previousPixel idx (e.runningPixCnt + 1) ps.length
          (chunkBytes (scan true ps { e with runningPixCnt := 0, previousTag := some (192, 255) }).2 ++ tl)
          (by omega) (by omega) (by simp; omega)
        rw [Nat.add_sub_cancel] at hrun
        rw [hlen, hrun]
        have hih := ih { e with runningPixCnt := 0, previousTag := some (192, 255) }
          (qoi.store idx e.previousPixel) tl
          (InStep_store_prev e idx _ hin rfl rfl) (by simp) (by simp) hwfps htl
        simp only [Nat.zero_add, List.replicate_zero, List.nil_append] at hih
        rw [hih, heq, List.replicate_succ']
        simp [List.flatMap_append]
      · have h1 : (e.runningPixCnt + 1) % 256 ≠ run.UPPER_LIMIT := fun h => hfl (Or.inl h)
        have h2 : decide (ps = []) = false := by
          cases hd : decide (ps = [])
          · rfl
          · exact absurd (Or.inr hd) hfl
        rw [encodePixel_eq_keep true _ p e heq h1 h2]
        have hmod : (e.runningPixCnt + 1) % 256 = e.runningPixCnt + 1 := Nat.mod_eq_of_lt (by omega)
        rw [hmod] at h1 ⊢
        unfold run.UPPER_LIMIT at h1
        have hps : ps ≠ [] := by simpa using h2
        have hih := ih { e with runningPixCnt := e.runningPixCnt + 1, previousTag := none } idx tl
          ⟨hin.1, hin.2.1, hin.2.2⟩ (by simp; omega) (fun h => absurd h hps) hwfps htl
        simp only [chunkBytes, List.nil_append] at hih ⊢
        have hlen : e.runningPixCnt + (ps.length + 1) = (e.runningPixCnt + 1) + ps.length := by omega
        rw [hlen, hih, heq, List.replicate_succ', List.append_assoc]
        simp
    · -- the pending run, if any, is flushed first
      have hstep : ∀ (e0 : Encoder) (idx0 : Nat → Pixel), InStep e0 idx0 →
          e0.previousPixel = e.previousPixel → e0.runningPixCnt = 0 →
          qoi.decodeLoop 4 (ps.length + 1)
            ⟨e.previousPixel, idx0, 0,
              chunkBytes (encodePixel true (decide (ps = [])) p e0).out
                ++ (chunkBytes (scan true ps (encodePixel true (decide (ps = [])) p e0).enc).2 ++ tl)⟩
          = (p :: ps).flatMap (qoi.pixelBytes 4) := by
        intro e0 idx0 hin0 hprev0 hcnt0
        have hne0 : p ≠ e0.previousPixel := by rw [hprev0]; exact heq
        have hidx : e0.arr (util.hash true p) = p → idx0 (util.hash true p) = p := by
          intro hhit
          rcases hin0.2.1 (util.hash true p) with h | h
          · rw [← h, hhit]
          · rw [hhit] at h; exact absurd rfl h
        have hdec := decodePixel_encodePixel (decide (ps = [])) p e0 idx0
          (chunkBytes (scan true ps (encodePixel true (decide (ps = [])) p e0).enc).2 ++ tl)
          hne0 hcnt0 hwfp hin0.1 hidx (by simp; omega)
        rw [hprev0] at hdec
        rw [decodeLoop_succ, hdec]
        obtain ⟨hs1, hs2, _⟩ := encodePixel_ne_state true (decide (ps = [])) p e0 hne0
        have hih := ih (encodePixel true (decide (ps = [])) p e0).enc (qoi.store idx0 p) tl
          (InStep_new _ p e0 idx0 hin0 hne0 hwfp) (by rw [hs2]; omega) (fun _ => hs2) hwfps htl
        rw [hs1, hs2] at hih
        simp only [Nat.zero_add, List.replicate_zero, List.nil_append] at hih
        rw [hih, List.flatMap_cons]
      by_cases hpos : 0 < e.runningPixCnt
      · rw [encodePixel_ne_pending true _ p e heq hpos]
        have hv : (e.runningPixCnt + 256 - run.BIAS) % 256 = e.runningPixCnt - 1 := by
          unfold run.BIAS; omega
        have hbyte := (run_byte_facts (e.runningPixCnt - 1) (by omega)).1
        simp only [chunkBytes, Chunk.bytes, hv, run.TAG, hbyte, List.singleton_append,
          List.cons_append, List.nil_append]
        rw [decodeLoop_run_chunk e.previousPixel idx e.runningPixCnt (ps.length + 1) _ hpos
          (by omega) (by simp; omega)]
        rw [hstep { e with runningPixCnt := 0 } (qoi.store idx e.previousPixel)
          (InStep_store_prev e idx _ hin rfl rfl) rfl rfl, List.flatMap_append]
      · have hz : e.runningPixCnt = 0 := by omega
        rw [hz, Nat.zero_add, List.replicate_zero, List.nil_append]
        exact hstep e idx hin rfl hz

/-! ## C1: round trip in the alpha format -/

theorem read32_writeToStream32 (w : Nat) (hw : w < 2 ^ 32) (tl : List Nat) :
    qoi.read32 (util.writeToStream32 w ++ tl) = w := by
  unfold qoi.read32 util.writeToStream32
  simp only [List.cons_append, List.nil_append, List.getD_cons_zero, List.getD_cons_succ]
  norm_num at hw ⊢
  omega

theorem header_ok (e : Encoder) :
    e.header = .ok (qoi.MAGIC ++ util.writeToStream32 (e.mat.cols % 2 ^ 32)
        ++ util.writeToStream32 (e.mat.rows % 2 ^ 32) ++ [e.mat.channels % 256] ++ [1]) := by
  unfold header
  have h1 : ¬ (e.mat.rows % 2 ^ 32 > 2 ^ 32 - 1 ∨ e.mat.cols % 2 ^ 32 > 2 ^ 32 - 1) := by
    have := Nat.mod_lt e.mat.rows (show 0 < 2 ^ 32 by norm_num)
    have := Nat.mod_lt e.mat.cols (show 0 < 2 ^ 32 by norm_num)
    omega
  simp only [h1, if_false]

theorem decode_framed (w h ch : Nat) (body : List Nat) (hw : w < 2 ^ 32) (hh : h < 2 ^ 32)
    (hw0 : w ≠ 0) (hh0 : h ≠ 0) (hch : ch = 3 ∨ ch = 4) (hbody : 8 ≤ body.length) :
    qoi.decode (qoi.MAGIC ++ util.writeToStream32 w ++ util.writeToStream32 h ++ [ch] ++ [1] ++ body)
      = some (⟨w, h, ch, 1⟩,
          qoi.decodeLoop ch (w * h) ⟨⟨0, 0, 0, 255⟩, fun _ => Pixel.zero, 0, body⟩) := by
  have hr1 : qoi.read32 (List.drop 4 (qoi.MAGIC ++ util.writeToStream32 w ++ util.writeToStream32 h
      ++ [ch] ++ [1] ++ body)) = w := by
    have : List.drop 4 (qoi.MAGIC ++ util.writeToStream32 w ++ util.writeToStream32 h
      ++ [ch] ++ [1] ++ body) = util.writeToStream32 w ++ (util.writeToStream32 h ++ [ch] ++ [1] ++ body) := by
      simp [qoi.MAGIC]
    rw [this, read32_writeToStream32 w hw]
  have hr2 : qoi.read32 (List.drop 8 (qoi.MAGIC ++ util.writeToStream32 w ++ util.writeToStream32 h
      ++ [ch] ++ [1] ++ body)) = h := by
    have : List.drop 8 (qoi.MAGIC ++ util.writeToStream32 w ++ util.writeToStream32 h
      ++ [ch] ++ [1] ++ body) = util.writeToStream32 h ++ ([ch] ++ [1] ++ body) := by
      simp [qoi.MAGIC, util.writeToStream32]
    rw [this, read32_writeToStream32 h hh]
  unfold qoi.decode
  simp only [hr1, hr2]
  have hlen : ¬ (qoi.MAGIC ++ util.writeToStream32 w ++ util.writeToStream32 h ++ [ch] ++ [1]
      ++ body).length < 14 + 8 := by
    simp [qoi.MAGIC, util.writeToStream32]; omega
  have h12 : (qoi.MAGIC ++ util.writeToStream32 w ++ util.writeToStream32 h ++ [ch] ++ [1]
      ++ body).getD 12 0 = ch := by
    simp [qoi.MAGIC, util.writeToStream32]
  have h13 : (qoi.MAGIC ++ util.writeToStream32 w ++ util.writeToStream32 h ++ [ch] ++ [1]
      ++ body).getD 13 0 = 1 := by
    simp [qoi.MAGIC, util.writeToStream32]
  have htake : List.take 4 (qoi.MAGIC ++ util.writeToStream32 w ++ util.writeToStream32 h ++ [ch]
      ++ [1] ++ body) = qoi.MAGIC := by
    simp [qoi.MAGIC]
  have hdrop : List.drop 14 (qoi.MAGIC ++ util.writeToStream32 w ++ util.writeToStream32 h ++ [ch]
      ++ [1] ++ body) = body := by
    simp [qoi.MAGIC, util.writeToStream32]
  simp only [hlen, if_false, h12, h13, htake, hdrop]
  have hcond : ¬ (w = 0 ∨ h = 0 ∨ ch < 3 ∨ ch > 4 ∨ 1 > 1 ∨ qoi.MAGIC ≠ qoi.MAGIC) := by
    rcases hch with rfl | rfl <;> simp [hw0, hh0]
  simp only [hcond, if_false]

theorem ctor_InStep (m : Mat) : InStep (ctor true m) (fun _ => Pixel.zero) := by
  refine ⟨?_, ?_, ?_⟩
  · simp [ctor, Pixel.wf, Pixel.zero]
  · intro s; left; rfl
  · right
    simp [ctor, Pixel.zero, util.hash]

/-- C1. Round trip, alpha format: for every well-formed 4-channel image with
at least one pixel, the reference decoder applied to the bytes written by
`Encoder<true>` returns the image's width, height and channel count and
exactly its pixels, r, g, b, a of each in row-major order. -/
theorem roundTrip_alpha (m : Mat) (hwf : m.wf true) (hrows : 0 < m.rows) (hcols : 0 < m.cols) :
    roundTrip true m = some (⟨m.cols, m.rows, 4, 1⟩, m.rgbaBytes) := by
  obtain ⟨hr, hc, hch, hlen, hpx⟩ := hwf
  simp only [if_true] at hch
  have hscan := encodeImage_eq_scan true (ctor true m) hlen
  have hr32 : m.rows % 2 ^ 32 = m.rows := Nat.mod_eq_of_lt (by omega)
  have hc32 : m.cols % 2 ^ 32 = m.cols := Nat.mod_eq_of_lt (by omega)
  have hmat : (ctor true m).mat = m := rfl
  unfold roundTrip encode write
  rw [header_ok, hscan]
  simp only [hmat, hr32, hc32, hch, Nat.reduceMod, List.nil_append, markEnd]
  have hfr := decode_framed m.cols m.rows 4
    (chunkBytes (scan true m.data (ctor true m)).2 ++ qoi.EOS) (by omega) (by omega) (by omega)
    (by omega) (Or.inr rfl) (by simp [qoi.EOS])
  simp only [List.append_assoc] at hfr ⊢
  rw [hfr]
  have hdec := decode_scan m.data (ctor true m) (fun _ => Pixel.zero) qoi.EOS (ctor_InStep m)
    (by simp [ctor]) (by intro _; rfl) hpx (by simp [qoi.EOS])
  have h0 : (ctor true m).runningPixCnt = 0 := rfl
  have hp0 : (ctor true m).previousPixel = ⟨0, 0, 0, 255⟩ := rfl
  rw [h0, hp0, Nat.zero_add, hlen, Nat.mul_comm] at hdec
  rw [hdec]
  simp only [Mat.rgbaBytes, hch, if_true, List.replicate_zero, List.nil_append]
  congr 1

theorem roundTrip_alpha_witness :
    imgBlackColourBlack.wf true ∧ 0 < imgBlackColourBlack.rows ∧ 0 < imgBlackColourBlack.cols ∧
    roundTrip true imgBlackColourBlack
      = some (⟨imgBlackColourBlack.cols, imgBlackColourBlack.rows, 4, 1⟩,
          imgBlackColourBlack.rgbaBytes) :=
  ⟨by decide, by decide, by decide,
    roundTrip_alpha imgBlackColourBlack (by decide) (by decide) (by decide)⟩

/-! ## C2: round trip without alpha -/

/-- C2. Round trip, no-alpha format, at a failing input: the well-formed 1x3
image `imgRepeat` repeats its first pixel (R=10, G=20, B=30) at the third
position. `Encoder<false>` writes it as Index chunk 20 (its hash without the
alpha term), the reference decoder keeps that pixel at slot 9 (alpha 255
included) and reads the untouched slot 20: it returns 0, 0, 0 for the third
pixel, so decoding does not give back the image. -/
theorem roundTrip_noAlpha_fails :
    imgRepeat.wf false ∧
    encode false imgRepeat
      = .ok [0x71, 0x6f, 0x69, 0x66, 0, 0, 0, 3, 0, 0, 0, 1, 3, 1,
             0xfe, 10, 20, 30, 190, 136, 20, 0, 0, 0, 0, 0, 0, 0, 1] ∧
    util.hash false ⟨30, 20, 10, 0⟩ = 20 ∧ qoi.colorHash ⟨30, 20, 10, 255⟩ = 9 ∧
    roundTrip false imgRepeat = some (⟨3, 1, 3, 1⟩, [10, 20, 30, 40, 50, 60, 0, 0, 0]) ∧
    imgRepeat.rgbaBytes = [10, 20, 30, 40, 50, 60, 10, 20, 30] ∧
    roundTrip false imgRepeat ≠ some (⟨imgRepeat.cols, imgRepeat.rows, 3, 1⟩, imgRepeat.rgbaBytes) := by
  refine ⟨by decide, rfl, rfl, rfl, rfl, rfl, by decide⟩

/-! ## C3, C4: framing -/

/-- C3. Framing: for every image (dimensions in `int` range, channel count as
the constructor asserts) the output is the 14 header bytes 'q','o','i','f',
the width (number of columns) as 4 big-endian bytes, the height (number of
rows) as 4 big-endian bytes, the channel count 3 or 4, the colorspace 1, then
the chunk stream of the scan, then the trailer 00 00 00 00 00 00 00 01; so
it has at least 22 bytes, starts with the header and ends with the trailer. -/
theorem framing (hasAlpha : Bool) (m : Mat) (hr : m.rows < 2 ^ 31) (hc : m.cols < 2 ^ 31)
    (hch : ctorAssert hasAlpha m = true) :
    ∃ (w0 w1 w2 w3 h0 h1 h2 h3 : Nat) (out : List Nat),
      (w0 < 256 ∧ w1 < 256 ∧ w2 < 256 ∧ w3 < 256 ∧
        w0 * 2 ^ 24 + w1 * 2 ^ 16 + w2 * 2 ^ 8 + w3 = m.cols) ∧
      (h0 < 256 ∧ h1 < 256 ∧ h2 < 256 ∧ h3 < 256 ∧
        h0 * 2 ^ 24 + h1 * 2 ^ 16 + h2 * 2 ^ 8 + h3 = m.rows) ∧
      encode hasAlpha m = .ok out ∧
      out = ['q'.toNat, 'o'.toNat, 'i'.toNat, 'f'.toNat, w0, w1, w2, w3, h0, h1, h2, h3,
              (if hasAlpha then 4 else 3), 1]
            ++ chunkBytes (encodeImage hasAlpha (ctor hasAlpha m)).2
            ++ [0, 0, 0, 0, 0, 0, 0, 1] ∧
      22 ≤ out.length ∧
      out.take 14 = ['q'.toNat, 'o'.toNat, 'i'.toNat, 'f'.toNat, w0, w1, w2, w3, h0, h1, h2, h3,
              (if hasAlpha then 4 else 3), 1] ∧
      out.drop (out.length - 8) = [0, 0, 0, 0, 0, 0, 0, 1] := by
  have hr32 : m.rows % 2 ^ 32 = m.rows := Nat.mod_eq_of_lt (by omega)
  have hc32 : m.cols % 2 ^ 32 = m.cols := Nat.mod_eq_of_lt (by omega)
  have hchan : m.channels % 256 = (if hasAlpha then 4 else 3) := by
    unfold ctorAssert at hch
    cases hasAlpha <;> simp at hch <;> simp [hch]
  refine ⟨m.cols / 2 ^ 24 % 256, m.cols / 2 ^ 16 % 256, m.cols / 2 ^ 8 % 256, m.cols % 256,
    m.rows / 2 ^ 24 % 256, m.rows / 2 ^ 16 % 256, m.rows / 2 ^ 8 % 256, m.rows % 256, _,
    ?_, ?_, ?_, rfl, ?_, ?_, ?_⟩
  · norm_num at hc ⊢; omega
  · norm_num at hr ⊢; omega
  · unfold encode write
    rw [header_ok]
    have hmat : (ctor hasAlpha m).mat = m := rfl
    simp only [hmat, hr32, hc32, hchan, List.nil_append, markEnd, qoi.MAGIC, qoi.EOS,
      util.writeToStream32, List.cons_append, List.nil_append, List.append_assoc]
    rfl
  · simp
  · simp
  · simp

theorem framing_witness :
    imgSingle.rows < 2 ^ 31 ∧ imgSingle.cols < 2 ^ 31 ∧ ctorAssert false imgSingle = true ∧
    ∃ (w0 w1 w2 w3 h0 h1 h2 h3 : Nat) (out : List Nat),
      (w0 < 256 ∧ w1 < 256 ∧ w2 < 256 ∧ w3 < 256 ∧
        w0 * 2 ^ 24 + w1 * 2 ^ 16 + w2 * 2 ^ 8 + w3 = imgSingle.cols) ∧
      (h0 < 256 ∧ h1 < 256 ∧ h2 < 256 ∧ h3 < 256 ∧
        h0 * 2 ^ 24 + h1 * 2 ^ 16 + h2 * 2 ^ 8 + h3 = imgSingle.rows) ∧
      encode false imgSingle = .ok out ∧
      out = ['q'.toNat, 'o'.toNat, 'i'.toNat, 'f'.toNat, w0, w1, w2, w3, h0, h1, h2, h3,
              (if false then 4 else 3), 1]
            ++ chunkBytes (encodeImage false (ctor false imgSingle)).2
            ++ [0, 0, 0, 0, 0, 0, 0, 1] ∧
      22 ≤ out.length ∧
      out.take 14 = ['q'.toNat, 'o'.toNat, 'i'.toNat, 'f'.toNat, w0, w1, w2, w3, h0, h1, h2, h3,
              (if false then 4 else 3), 1] ∧
      out.drop (out.length - 8) = [0, 0, 0, 0, 0, 0, 0, 1] :=
  ⟨by decide, by decide, by decide, framing false imgSingle (by decide) (by decide) (by decide)⟩

/-- C4. Header exactness: for the 1x1 no-alpha image whose pixel is R=10,
G=20, B=30 the output is exactly the 26 bytes 'q','o','i','f', 00 00 00 01,
00 00 00 01, 03, 01, the RGB chunk FE 0A 14 1E, and 00 00 00 00 00 00 00 01. -/
theorem header_exactness :
    encode false imgSingle
      = .ok ['q'.toNat, 'o'.toNat, 'i'.toNat, 'f'.toNat, 0x00, 0x00, 0x00, 0x01,
             0x00, 0x00, 0x00, 0x01, 0x03, 0x01, 0xFE, 0x0A, 0x14, 0x1E,
             0x00, 0x00, 0x00, 0x00, 0x00, 0x00, 0x00, 0x01] ∧
    (encodeImage false (ctor false imgSingle)).2 = [Chunk.rgb [0xFE, 0x0A, 0x14, 0x1E]] ∧
    ['q'.toNat, 'o'.toNat, 'i'.toNat, 'f'.toNat, 0x00, 0x00, 0x00, 0x01,
             0x00, 0x00, 0x00, 0x01, 0x03, 0x01, 0xFE, 0x0A, 0x14, 0x1E,
             0x00, 0x00, 0x00, 0x00, 0x00, 0x00, 0x00, 0x01].length = 26 := by
  refine ⟨rfl, rfl, rfl⟩

/-! ## The state of the scan after `k` iterations -/

theorem foldl_flatMap_map {α β γ : Type} (f : γ → α × β → γ) (xs : List α) (ys : List β) (init : γ) :
    (xs.flatMap (fun x => ys.map (fun y => (x, y)))).foldl f init
      = xs.foldl (fun acc x => ys.foldl (fun acc y => f acc (x, y)) acc) init := by
  induction xs generalizing init with
  | nil => simp
  | cons x xs ih => simp [List.flatMap_cons, List.foldl_append, List.foldl_map, ih]

theorem encodeImage_eq_foldl (hasAlpha : Bool) (e : Encoder) :
    encodeImage hasAlpha e
      = (scanOrder e.mat).foldl (fun acc rc => loopBody hasAlpha rc.1 rc.2 acc) (e, []) := by
  unfold encodeImage scanOrder
  rw [foldl_flatMap_map]

theorem stateAfter_length (hasAlpha : Bool) (m : Mat) :
    stateAfter hasAlpha m (scanOrder m).length = encodeImage hasAlpha (ctor hasAlpha m) := by
  rw [encodeImage_eq_foldl]
  unfold stateAfter
  rw [List.take_length]
  rfl

theorem stateAfter_zero (hasAlpha : Bool) (m : Mat) :
    stateAfter hasAlpha m 0 = (ctor hasAlpha m, []) := by
  simp [stateAfter]

theorem stateAfter_succ (hasAlpha : Bool) (m : Mat) (k : Nat) (hk : k < (scanOrder m).length) :
    stateAfter hasAlpha m (k + 1)
      = ((iterAt hasAlpha m k).enc, (stateAfter hasAlpha m k).2 ++ (iterAt hasAlpha m k).out) := by
  unfold iterAt stateAfter
  rw [List.take_succ, List.foldl_append]
  have : (scanOrder m)[k]? = some ((scanOrder m).getD k (0, 0)) := by
    rw [List.getD_eq_getElem _ _ hk]
    exact List.getElem?_eq_getElem hk
  rw [this]
  simp [loopBody]

theorem stateAfter_ge (hasAlpha : Bool) (m : Mat) (k : Nat) (hk : (scanOrder m).length ≤ k) :
    stateAfter hasAlpha m k = encodeImage hasAlpha (ctor hasAlpha m) := by
  rw [← stateAfter_length]
  unfold stateAfter
  rw [List.take_of_length_le hk, List.take_length]

/-- Whatever every iteration of the loop body preserves holds after any
number of iterations. -/
theorem stateAfter_induction (hasAlpha : Bool) (m : Mat) (P : Encoder × List Chunk → Prop)
    (h0 : P (ctor hasAlpha m, []))
    (hstep : ∀ acc last p, P acc →
      P ((encodePixel hasAlpha last p acc.1).enc, acc.2 ++ (encodePixel hasAlpha last p acc.1).out)) :
    ∀ k, P (stateAfter hasAlpha m k) := by
  intro k
  induction k with
  | zero => rw [stateAfter_zero]; exact h0
  | succ k ih =>
    by_cases hk : k < (scanOrder m).length
    · rw [stateAfter_succ hasAlpha m k hk]
      exact hstep _ _ _ ih
    · rw [stateAfter_ge hasAlpha m (k + 1) (by omega), ← stateAfter_ge hasAlpha m k (by omega)]
      exact ih

theorem stateAfter_mat (hasAlpha : Bool) (m : Mat) (k : Nat) :
    (stateAfter hasAlpha m k).1.mat = m :=
  stateAfter_induction hasAlpha m (fun acc => acc.1.mat = m) rfl
    (fun acc last p h => by simp only [encodePixel_mat]; exact h) k

theorem scanOrder_eq_map (m : Mat) :
    scanOrder m = (List.range (m.rows * m.cols)).map (fun i => (i / m.cols, i % m.cols)) := by
  unfold scanOrder
  generalize m.rows = rows
  induction rows with
  | zero => simp
  | succ n ih =>
    rw [List.range_succ, List.flatMap_append, ih, Nat.succ_mul, List.range_add, List.map_append]
    congr 1
    simp only [List.flatMap_cons, List.flatMap_nil, List.append_nil, List.map_map]
    apply List.map_congr_left
    intro c hc
    have hc' : c < m.cols := List.mem_range.mp hc
    have h1 : (n * m.cols + c) / m.cols = n := by
      rw [Nat.mul_comm, Nat.mul_add_div (by omega), Nat.div_eq_of_lt hc', Nat.add_zero]
    have h2 : (n * m.cols + c) % m.cols = c := by
      rw [Nat.mul_comm, Nat.mul_add_mod, Nat.mod_eq_of_lt hc']
    simp [h1, h2]

theorem scanOrder_length (m : Mat) : (scanOrder m).length = m.rows * m.cols := by
  rw [scanOrder_eq_map]; simp

theorem scanOrder_getD (m : Mat) (k : Nat) (hk : k < m.rows * m.cols) :
    (scanOrder m).getD k (0, 0) = (k / m.cols, k % m.cols) := by
  rw [List.getD_eq_getElem _ _ (by rw [scanOrder_length]; exact hk)]
  simp [scanOrder_eq_map]

/-- Iteration `k` of the scan of a well-formed image works on pixel `k` of
the data and has the last-pixel flag set exactly at the final pixel. -/
theorem iterAt_eq (hasAlpha : Bool) (m : Mat) (hlen : m.data.length = m.rows * m.cols) (k : Nat)
    (hk : k < m.data.length) :
    iterAt hasAlpha m k
      = encodePixel hasAlpha (decide (k + 1 = m.data.length)) (m.data.getD k Pixel.zero)
          (stateAfter hasAlpha m k).1 := by
  unfold iterAt
  simp only []
  rw [scanOrder_getD m k (by omega)]
  have hm := stateAfter_mat hasAlpha m k
  have h1 := isLastPixel_div_mod (stateAfter hasAlpha m k).1 k (by rw [hm]; omega)
  rw [hm] at h1
  simp only [h1, hm, Mat.ptr]
  rw [Nat.div_add_mod', hlen]

/-! ## C5: run bound -/

/-- With no run pending, a pixel that differs from the previous one gets
exactly one chunk, and it is not a Run chunk. -/
theorem encodePixel_ne_out (hasAlpha last : Bool) (p : Pixel) (e : Encoder)
    (hne : p ≠ e.previousPixel) (hcnt : e.runningPixCnt = 0) :
    ∃ c, (encodePixel hasAlpha last p e).out = [c] ∧ ∀ ch, c ≠ Chunk.run ch := by
  unfold encodePixel isSeenBefore
  simp only [hne, if_false, hcnt, run.LOWER_RANGE, gt_iff_lt, lt_self_iff_false, List.nil_append]
  split_ifs <;> exact ⟨_, rfl, fun ch h => by cases h⟩

theorem encodePixel_run_bound (hasAlpha last : Bool) (p : Pixel) (e : Encoder)
    (hcnt : e.runningPixCnt ≤ 61) :
    (encodePixel hasAlpha last p e).enc.runningPixCnt ≤ 61 ∧
    ∀ ch, Chunk.run ch ∈ (encodePixel hasAlpha last p e).out → ∃ v, v ≤ 61 ∧ ch = 0xc0 + v := by
  have hmod : (e.runningPixCnt + 1) % 256 = e.runningPixCnt + 1 := Nat.mod_eq_of_lt (by omega)
  by_cases heq : p = e.previousPixel
  · by_cases hfl : (e.runningPixCnt + 1) % 256 = run.UPPER_LIMIT ∨ last = true
    · rw [encodePixel_eq_flush hasAlpha last p e heq hfl]
      have hv : (e.runningPixCnt + 1 + 256 - run.BIAS) % 256 = e.runningPixCnt := by
        unfold run.BIAS; omega
      have hbyte := (run_byte_facts e.runningPixCnt (by omega)).1
      simp only [hmod, hv, run.TAG, hbyte, List.mem_singleton, Chunk.run.injEq]
      exact ⟨by omega, fun ch h => ⟨e.runningPixCnt, hcnt, h⟩⟩
    · have h1 : (e.runningPixCnt + 1) % 256 ≠ run.UPPER_LIMIT := fun h => hfl (Or.inl h)
      have h2 : last = false := by
        cases hl : last
        · rfl
        · exact absurd (Or.inr hl) hfl
      rw [encodePixel_eq_keep hasAlpha last p e heq h1 h2]
      rw [hmod] at h1 ⊢
      unfold run.UPPER_LIMIT at h1
      simp only [List.not_mem_nil, false_imp_iff, implies_true, and_true]
      omega
  · refine ⟨by rw [(encodePixel_ne_state hasAlpha last p e heq).2.1]; omega, ?_⟩
    by_cases hpos : 0 < e.runningPixCnt
    · rw [encodePixel_ne_pending hasAlpha last p e heq hpos]
      have hv : (e.runningPixCnt + 256 - run.BIAS) % 256 = e.runningPixCnt - 1 := by
        unfold run.BIAS; omega
      have hbyte := (run_byte_facts (e.runningPixCnt - 1) (by omega)).1
      obtain ⟨c, hc, hnr⟩ := encodePixel_ne_out hasAlpha last p { e with runningPixCnt := 0 } heq rfl
      simp only [hv, run.TAG, hbyte, hc, List.mem_cons, Chunk.run.injEq, List.mem_singleton,
        List.not_mem_nil, or_false]
      intro ch h
      rcases h with h | h
      · exact ⟨e.runningPixCnt - 1, by omega, h⟩
      · exact absurd h.symm (hnr ch)
    · obtain ⟨c, hc, hnr⟩ := encodePixel_ne_out hasAlpha last p e heq (by omega)
      rw [hc]
      intro ch h
      simp only [List.mem_singleton] at h
      exact absurd h.symm (hnr ch)

theorem run_value_facts : ∀ v < 62, (0xc0 + v) &&& 0x3f = v := by decide

/-- C5. Run bound: for every image, every Run chunk the encoder emits stores
a value of at most 61 in its low 6 bits, so its byte lies in 0xC0..0xFD and
is neither 0xFE nor 0xFF; the run counter is at most 61 after every
iteration of the scan, and its incremented value inside an iteration never
exceeds 62. -/
theorem run_bound (hasAlpha : Bool) (m : Mat) :
    (∀ ch, Chunk.run ch ∈ (encodeImage hasAlpha (ctor hasAlpha m)).2 →
      ch &&& 0x3f ≤ 61 ∧ 0xC0 ≤ ch ∧ ch ≤ 0xFD ∧ ch ≠ 0xFE ∧ ch ≠ 0xFF) ∧
    (∀ k, (stateAfter hasAlpha m k).1.runningPixCnt ≤ 61) ∧
    (∀ k, ((stateAfter hasAlpha m k).1.runningPixCnt + 1) % 256 ≤ 62) := by
  have hinv := stateAfter_induction hasAlpha m
    (fun acc => acc.1.runningPixCnt ≤ 61 ∧ ∀ ch, Chunk.run ch ∈ acc.2 → ∃ v, v ≤ 61 ∧ ch = 0xc0 + v)
    ⟨by simp [ctor], by simp⟩
    (fun acc last p h => by
      obtain ⟨h1, h2⟩ := encodePixel_run_bound hasAlpha last p acc.1 h.1
      refine ⟨h1, fun ch hch => ?_⟩
      rcases List.mem_append.mp hch with hch | hch
      · exact h.2 ch hch
      · exact h2 ch hch)
  refine ⟨fun ch hch => ?_, fun k => (hinv k).1, fun k => ?_⟩
  · rw [← stateAfter_length] at hch
    obtain ⟨v, hv, rfl⟩ := (hinv _).2 ch hch
    have := run_value_facts v (by omega)
    rw [this]
    omega
  · have := (hinv k).1
    omega

/-! ## C6: cache correctness -/

theorem toInt8_eq_signedDelta (c q : Nat) : toInt8 ((c : Int) - q) = signedDelta c q := by
  unfold toInt8 signedDelta
  simp only []
  split_ifs <;> omega

/-- A pixel that differs from the previous one: the pending run is flushed,
then the pixel is encoded as if no run had been pending. -/
theorem encodePixel_ne_split (hasAlpha last : Bool) (p : Pixel) (e : Encoder)
    (hne : p ≠ e.previousPixel) :
    (encodePixel hasAlpha last p e).out
        = pendingRun e ++ (encodePixel hasAlpha last p { e with runningPixCnt := 0 }).out ∧
    (encodePixel hasAlpha last p e).enc
        = (encodePixel hasAlpha last p { e with runningPixCnt := 0 }).enc ∧
    (encodePixel hasAlpha last p e).currentTag
        = (encodePixel hasAlpha last p { e with runningPixCnt := 0 }).currentTag := by
  by_cases hpos : 0 < e.runningPixCnt
  · rw [encodePixel_ne_pending hasAlpha last p e hne hpos]
    simp [pendingRun, flushRun, runChunk, run.LOWER_RANGE, hpos]
  · have hz : e.runningPixCnt = 0 := by omega
    have he : ({ e with runningPixCnt := 0 } : Encoder) = e := by
      cases e; simp at hz; simp [hz]
    rw [he]
    simp [pendingRun, run.LOWER_RANGE, hz]

theorem pendingRun_run (e : Encoder) : ∀ c ∈ pendingRun e, ∃ ch, c = Chunk.run ch := by
  intro c hc
  unfold pendingRun at hc
  split_ifs at hc
  · simp only [List.mem_singleton] at hc
    exact ⟨_, hc⟩
  · simp at hc

theorem index_top_bits : ∀ s < 64, s &&& 0xc0 = 0 ∧ (0 ||| s % 256) % 256 = s := by decide

/-- With no run pending, a pixel found in the cache is written as the Index
chunk of its slot, and only the previous pixel changes. -/
theorem encodePixel_hit_slot (hasAlpha last : Bool) (p : Pixel) (e : Encoder)
    (hne : p ≠ e.previousPixel) (hhit : e.arr (util.hash hasAlpha p) = p) :
    encodePixel hasAlpha last p { e with runningPixCnt := 0 }
      = { enc := { e with runningPixCnt := 0, previousPixel := p,
                          previousTag := some (index.TAG, util.hash hasAlpha p) }
          out := [Chunk.index (util.hash hasAlpha p)]
          currentTag := some (index.TAG, util.hash hasAlpha p) } := by
  rw [encodePixel_hit hasAlpha last p { e with runningPixCnt := 0 } hne rfl hhit]
  simp only [indexChunk, index.TAG, (index_top_bits _ (hash_lt hasAlpha p)).2]

/-- With no run pending, a pixel not found in the cache gets no Index chunk. -/
theorem encodePixel_miss_no_index (hasAlpha last : Bool) (p : Pixel) (e : Encoder)
    (hne : p ≠ e.previousPixel) (hmiss : e.arr (util.hash hasAlpha p) ≠ p) :
    (∀ ch, Chunk.index ch ∉ (encodePixel hasAlpha last p { e with runningPixCnt := 0 }).out) ∧
    (encodePixel hasAlpha last p { e with runningPixCnt := 0 }).currentTag
      ≠ some (index.TAG, util.hash hasAlpha p) := by
  unfold encodePixel isSeenBefore
  simp only [hne, if_false, run.LOWER_RANGE, gt_iff_lt, lt_self_iff_false, List.nil_append,
    hmiss, decide_False, Bool.false_eq_true]
  split_ifs <;> simp [index.TAG, rgba.TAG, diff.TAG, luma.TAG, rgb.TAG]

/-- C6. Cache correctness: for every encoder state the scan can be in and
every pixel `p` that differs from the previous pixel, an Index chunk is
emitted for `p` if and only if the cache entry at slot
`hash(p) = (b*7 + g*5 + r*3 [+ a*11]) mod 64` equals `p` at that moment; the
chunk is then the single byte equal to that slot (below 64, top two bits
00), it is the only chunk written for `p` (only the flush of a pending run
precedes it), and the cache is not written. -/
theorem cache_correctness (hasAlpha last : Bool) (p : Pixel) (e : Encoder)
    (hne : p ≠ e.previousPixel) :
    util.hash hasAlpha p
      = (p.b * 7 + p.g * 5 + p.r * 3 + (if hasAlpha then p.a * 11 else 0)) % 64 ∧
    ((∃ ch, Chunk.index ch ∈ (encodePixel hasAlpha last p e).out)
      ↔ e.arr (util.hash hasAlpha p) = p) ∧
    ((encodePixel hasAlpha last p e).currentTag = some (index.TAG, util.hash hasAlpha p)
      ↔ e.arr (util.hash hasAlpha p) = p) ∧
    (e.arr (util.hash hasAlpha p) = p →
      (encodePixel hasAlpha last p e).out = pendingRun e ++ [Chunk.index (util.hash hasAlpha p)] ∧
      (Chunk.index (util.hash hasAlpha p)).bytes = [util.hash hasAlpha p] ∧
      util.hash hasAlpha p < 64 ∧ util.hash hasAlpha p &&& 0xc0 = 0 ∧
      (encodePixel hasAlpha last p e).enc.arr = e.arr) := by
  obtain ⟨hout, henc, htag⟩ := encodePixel_ne_split hasAlpha last p e hne
  have hlt := hash_lt hasAlpha p
  have htop := (index_top_bits _ hlt).1
  have hhash : util.hash hasAlpha p
      = (p.b * 7 + p.g * 5 + p.r * 3 + (if hasAlpha then p.a * 11 else 0)) % 64 := by
    unfold util.hash; cases hasAlpha <;> simp
  refine ⟨hhash, ?_, ?_, ?_⟩
  · constructor
    · rintro ⟨ch, hch⟩
      by_contra hmiss
      rw [hout] at hch
      rcases List.mem_append.mp hch with h | h
      · obtain ⟨ch', h'⟩ := pendingRun_run e _ h
        cases h'
      · exact (encodePixel_miss_no_index hasAlpha last p e hne hmiss).1 ch h
    · intro hhit
      refine ⟨util.hash hasAlpha p, ?_⟩
      rw [hout, encodePixel_hit_slot hasAlpha last p e hne hhit]
      simp
  · constructor
    · intro h
      by_contra hmiss
      rw [htag] at h
      exact (encodePixel_miss_no_index hasAlpha last p e hne hmiss).2 h
    · intro hhit
      rw [htag, encodePixel_hit_slot hasAlpha last p e hne hhit]
  · intro hhit
    refine ⟨by rw [hout, encodePixel_hit_slot hasAlpha last p e hne hhit], rfl, hlt, htop, ?_⟩
    rw [henc, encodePixel_hit_slot hasAlpha last p e hne hhit]

/-! ## C9: Diff selection -/

theorem diff_byte_spec : ∀ r < 4, ∀ g < 4, ∀ b < 4,
    (0x40 ||| ((r <<< 4) ||| (g <<< 2) ||| b)) % 256 = 0x40 ||| (r <<< 4) ||| (g <<< 2) ||| b := by
  decide

theorem toInt8_self (x : Nat) : toInt8 ((x : Int) - x) = 0 := by
  unfold toInt8; omega

theorem toInt8_small (x : Int) (h1 : -128 ≤ x) (h2 : x ≤ 127) : toInt8 x = x := by
  unfold toInt8; omega

theorem signedDelta_range (c q : Nat) : -128 ≤ signedDelta c q ∧ signedDelta c q ≤ 127 := by
  unfold signedDelta
  simp only []
  split_ifs <;> omega

/-- C9. Diff selection: for every pixel that differs from the previous pixel,
misses the cache and (in the alpha format) has the previous pixel's alpha,
a Diff chunk is emitted if and only if each of dr, dg, db (current minus
previous modulo 256, read as signed 8-bit) lies in [-2, 1]; the chunk is then
the single byte `0x40 | ((dr+2) << 4) | ((dg+2) << 2) | (db+2)`, written
after the flush of a pending run, if any. -/
theorem diff_selection (hasAlpha last : Bool) (p : Pixel) (e : Encoder)
    (hne : p ≠ e.previousPixel) (hmiss : e.arr (util.hash hasAlpha p) ≠ p)
    (ha : hasAlpha = true → p.a = e.previousPixel.a) :
    ((∃ ch, Chunk.diff ch ∈ (encodePixel hasAlpha last p e).out) ↔
      ((-2 ≤ signedDelta p.r e.previousPixel.r ∧ signedDelta p.r e.previousPixel.r ≤ 1) ∧
       (-2 ≤ signedDelta p.g e.previousPixel.g ∧ signedDelta p.g e.previousPixel.g ≤ 1) ∧
       (-2 ≤ signedDelta p.b e.previousPixel.b ∧ signedDelta p.b e.previousPixel.b ≤ 1))) ∧
    ((encodePixel hasAlpha last p e).currentTag = some (diff.TAG, 255) ↔
      ((-2 ≤ signedDelta p.r e.previousPixel.r ∧ signedDelta p.r e.previousPixel.r ≤ 1) ∧
       (-2 ≤ signedDelta p.g e.previousPixel.g ∧ signedDelta p.g e.previousPixel.g ≤ 1) ∧
       (-2 ≤ signedDelta p.b e.previousPixel.b ∧ signedDelta p.b e.previousPixel.b ≤ 1))) ∧
    (((-2 ≤ signedDelta p.r e.previousPixel.r ∧ signedDelta p.r e.previousPixel.r ≤ 1) ∧
       (-2 ≤ signedDelta p.g e.previousPixel.g ∧ signedDelta p.g e.previousPixel.g ≤ 1) ∧
       (-2 ≤ signedDelta p.b e.previousPixel.b ∧ signedDelta p.b e.previousPixel.b ≤ 1)) →
      (encodePixel hasAlpha last p e).out
        = pendingRun e ++
          [Chunk.diff (0x40 ||| ((signedDelta p.r e.previousPixel.r + 2).toNat <<< 4)
                            ||| ((signedDelta p.g e.previousPixel.g + 2).toNat <<< 2)
                            ||| (signedDelta p.b e.previousPixel.b + 2).toNat)]) := by
  obtain ⟨hout, _, htag⟩ := encodePixel_ne_split hasAlpha last p e hne
  have ha' : hasAlpha = true → toInt8 ((p.a : Int) - e.previousPixel.a) = 0 := by
    intro h; rw [ha h]; exact toInt8_self _
  have hrange : util.isInDiffRange (dpOf p e.previousPixel) = true ↔
      ((-2 ≤ signedDelta p.r e.previousPixel.r ∧ signedDelta p.r e.previousPixel.r ≤ 1) ∧
       (-2 ≤ signedDelta p.g e.previousPixel.g ∧ signedDelta p.g e.previousPixel.g ≤ 1) ∧
       (-2 ≤ signedDelta p.b e.previousPixel.b ∧ signedDelta p.b e.previousPixel.b ≤ 1)) := by
    rw [isInDiffRange_iff]
    simp only [dpOf, toInt8_eq_signedDelta]
    constructor
    · rintro ⟨⟨h1, h2, h3⟩, h4, h5, h6⟩; omega
    · rintro ⟨⟨h1, h2⟩, ⟨h3, h4⟩, h5, h6⟩; omega
  have hin : util.isInDiffRange (dpOf p e.previousPixel) = true →
      encodePixel hasAlpha last p { e with runningPixCnt := 0 }
        = { enc := { e with runningPixCnt := 0, arr := arrStore hasAlpha e.arr p, previousPixel := p
                            previousTag := some (diff.TAG, 255) }
            out := [Chunk.diff (0x40 ||| ((signedDelta p.r e.previousPixel.r + 2).toNat <<< 4)
                            ||| ((signedDelta p.g e.previousPixel.g + 2).toNat <<< 2)
                            ||| (signedDelta p.b e.previousPixel.b + 2).toNat)]
            currentTag := some (diff.TAG, 255) } := by
    intro hd
    rw [encodePixel_diff hasAlpha last p { e with runningPixCnt := 0 } hne rfl hmiss ha' hd]
    obtain ⟨⟨h1, h2⟩, ⟨h3, h4⟩, h5, h6⟩ := hrange.mp hd
    simp only [dpOf, toInt8_eq_signedDelta, diff.BIAS, saturateU8, diffChunk, diff.TAG]
    rw [toInt8_small _ (by omega) (by omega), toInt8_small _ (by omega) (by omega),
      toInt8_small _ (by omega) (by omega)]
    rw [diff_byte_spec _ (by omega) _ (by omega) _ (by omega)]
  have hnot : util.isInDiffRange (dpOf p e.previousPixel) = false →
      (∀ ch, Chunk.diff ch ∉ (encodePixel hasAlpha last p { e with runningPixCnt := 0 }).out) ∧
      (encodePixel hasAlpha last p { e with runningPixCnt := 0 }).currentTag
        ≠ some (diff.TAG, 255) := by
    intro hd
    by_cases hl : (util.isInLumaRange (dpOf p e.previousPixel) SignedPixel.zero).1 = true
    · rw [encodePixel_luma hasAlpha last p { e with runningPixCnt := 0 } hne rfl hmiss ha' hd hl]
      simp [luma.TAG, diff.TAG]
    · have hl' : (util.isInLumaRange (dpOf p e.previousPixel) SignedPixel.zero).1 = false := by
        simpa using hl
      rw [encodePixel_rgb hasAlpha last p { e with runningPixCnt := 0 } hne rfl hmiss ha' hd hl']
      simp [rgb.TAG, diff.TAG]
  refine ⟨⟨?_, ?_⟩, ⟨?_, ?_⟩, ?_⟩
  · rintro ⟨ch, hch⟩
    rw [← hrange]
    by_contra hd
    have hd' : util.isInDiffRange (dpOf p e.previousPixel) = false := by simpa using hd
    rw [hout] at hch
    rcases List.mem_append.mp hch with h | h
    · obtain ⟨ch', h'⟩ := pendingRun_run e _ h
      cases h'
    · exact (hnot hd').1 ch h
  · intro h
    rw [hout, hin (hrange.mpr h)]
    exact ⟨_, List.mem_append_right _ (List.mem_singleton_self _)⟩
  · intro h
    rw [← hrange]
    by_contra hd
    have hd' : util.isInDiffRange (dpOf p e.previousPixel) = false := by simpa using hd
    rw [htag] at h
    exact (hnot hd').2 h
  · intro h
    rw [htag, hin (hrange.mpr h)]
  · intro h
    rw [hout, hin (hrange.mpr h)]

/-! ## C10: Luma selection -/

theorem luma_byte0_spec : ∀ g < 64, (0x80 ||| g) % 256 = 0x80 ||| g := by decide

set_option maxRecDepth 100000 in
theorem luma_byte1_spec : ∀ r < 16, ∀ b < 16, ((r <<< 4) ||| b) % 256 = (r <<< 4) ||| b := by
  decide

/-- The wrapping 8-bit test of `isInLumaRange` agrees with the test on exact
integer differences, for all 8-bit deltas. -/
theorem isInLumaRange_exact (dp : SignedPixel)
    (hr : -128 ≤ dp.r ∧ dp.r ≤ 127) (hb : -128 ≤ dp.b ∧ dp.b ≤ 127) :
    (util.isInLumaRange dp SignedPixel.zero).1 = true ↔
      ((-32 ≤ dp.g ∧ dp.g ≤ 31) ∧ (-8 ≤ dp.r - dp.g ∧ dp.r - dp.g ≤ 7)
        ∧ (-8 ≤ dp.b - dp.g ∧ dp.b - dp.g ≤ 7)) := by
  rw [isInLumaRange_iff]
  unfold toInt8
  constructor
  · rintro ⟨⟨h1, h2⟩, ⟨h3, h4⟩, h5, h6⟩; omega
  · rintro ⟨⟨h1, h2⟩, ⟨h3, h4⟩, h5, h6⟩; omega

/-- C10. Luma selection: for every pixel that differs from the previous
pixel, misses the cache, has the previous pixel's alpha (alpha format) and
is not in Diff range, a Luma chunk is emitted if and only if dg lies in
[-32, 31] and the exact integer differences dr-dg and db-dg lie in [-8, 7]
(dr, dg, db the signed 8-bit wrapped deltas); the chunk is then the two
bytes `0x80 | (dg+32)` and `(((dr-dg)+8) << 4) | ((db-dg)+8)`. The test the
code makes in wrapping 8-bit arithmetic agrees with the exact-integer test
for all 8-bit deltas. -/
theorem luma_selection (hasAlpha last : Bool) (p : Pixel) (e : Encoder)
    (hne : p ≠ e.previousPixel) (hmiss : e.arr (util.hash hasAlpha p) ≠ p)
    (ha : hasAlpha = true → p.a = e.previousPixel.a)
    (hnd : ¬ ((-2 ≤ signedDelta p.r e.previousPixel.r ∧ signedDelta p.r e.previousPixel.r ≤ 1) ∧
       (-2 ≤ signedDelta p.g e.previousPixel.g ∧ signedDelta p.g e.previousPixel.g ≤ 1) ∧
       (-2 ≤ signedDelta p.b e.previousPixel.b ∧ signedDelta p.b e.previousPixel.b ≤ 1))) :
    ((∃ ch, Chunk.luma ch ∈ (encodePixel hasAlpha last p e).out) ↔
      ((-32 ≤ signedDelta p.g e.previousPixel.g ∧ signedDelta p.g e.previousPixel.g ≤ 31) ∧
       (-8 ≤ signedDelta p.r e.previousPixel.r - signedDelta p.g e.previousPixel.g ∧
          signedDelta p.r e.previousPixel.r - signedDelta p.g e.previousPixel.g ≤ 7) ∧
       (-8 ≤ signedDelta p.b e.previousPixel.b - signedDelta p.g e.previousPixel.g ∧
          signedDelta p.b e.previousPixel.b - signedDelta p.g e.previousPixel.g ≤ 7))) ∧
    ((encodePixel hasAlpha last p e).currentTag = some (luma.TAG, 255) ↔
      ((-32 ≤ signedDelta p.g e.previousPixel.g ∧ signedDelta p.g e.previousPixel.g ≤ 31) ∧
       (-8 ≤ signedDelta p.r e.previousPixel.r - signedDelta p.g e.previousPixel.g ∧
          signedDelta p.r e.previousPixel.r - signedDelta p.g e.previousPixel.g ≤ 7) ∧
       (-8 ≤ signedDelta p.b e.previousPixel.b - signedDelta p.g e.previousPixel.g ∧
          signedDelta p.b e.previousPixel.b - signedDelta p.g e.previousPixel.g ≤ 7))) ∧
    (((-32 ≤ signedDelta p.g e.previousPixel.g ∧ signedDelta p.g e.previousPixel.g ≤ 31) ∧
       (-8 ≤ signedDelta p.r e.previousPixel.r - signedDelta p.g e.previousPixel.g ∧
          signedDelta p.r e.previousPixel.r - signedDelta p.g e.previousPixel.g ≤ 7) ∧
       (-8 ≤ signedDelta p.b e.previousPixel.b - signedDelta p.g e.previousPixel.g ∧
          signedDelta p.b e.previousPixel.b - signedDelta p.g e.previousPixel.g ≤ 7)) →
      (encodePixel hasAlpha last p e).out
        = pendingRun e ++
          [Chunk.luma
            [0x80 ||| (signedDelta p.g e.previousPixel.g + 32).toNat,
             ((signedDelta p.r e.previousPixel.r - signedDelta p.g e.previousPixel.g + 8).toNat <<< 4)
              ||| (signedDelta p.b e.previousPixel.b - signedDelta p.g e.previousPixel.g + 8).toNat]]) ∧
    (∀ dp : SignedPixel, (-128 ≤ dp.r ∧ dp.r ≤ 127) → (-128 ≤ dp.b ∧ dp.b ≤ 127) →
      ((util.isInLumaRange dp SignedPixel.zero).1 = true ↔
        ((-32 ≤ dp.g ∧ dp.g ≤ 31) ∧ (-8 ≤ dp.r - dp.g ∧ dp.r - dp.g ≤ 7)
          ∧ (-8 ≤ dp.b - dp.g ∧ dp.b - dp.g ≤ 7)))) := by
  obtain ⟨hout, _, htag⟩ := encodePixel_ne_split hasAlpha last p e hne
  have ha' : hasAlpha = true → toInt8 ((p.a : Int) - e.previousPixel.a) = 0 := by
    intro h; rw [ha h]; exact toInt8_self _
  have hd : util.isInDiffRange (dpOf p e.previousPixel) = false := by
    by_contra hcon
    have hcon' : util.isInDiffRange (dpOf p e.previousPixel) = true := by simpa using hcon
    apply hnd
    obtain ⟨⟨h1, h2, h3⟩, h4, h5, h6⟩ := (isInDiffRange_iff _).mp hcon'
    simp only [dpOf, toInt8_eq_signedDelta] at h1 h2 h3 h4 h5 h6
    omega
  have hsr := signedDelta_range p.r e.previousPixel.r
  have hsg := signedDelta_range p.g e.previousPixel.g
  have hsb := signedDelta_range p.b e.previousPixel.b
  have hrange : (util.isInLumaRange (dpOf p e.previousPixel) SignedPixel.zero).1 = true ↔
      ((-32 ≤ signedDelta p.g e.previousPixel.g ∧ signedDelta p.g e.previousPixel.g ≤ 31) ∧
       (-8 ≤ signedDelta p.r e.previousPixel.r - signedDelta p.g e.previousPixel.g ∧
          signedDelta p.r e.previousPixel.r - signedDelta p.g e.previousPixel.g ≤ 7) ∧
       (-8 ≤ signedDelta p.b e.previousPixel.b - signedDelta p.g e.previousPixel.g ∧
          signedDelta p.b e.previousPixel.b - signedDelta p.g e.previousPixel.g ≤ 7)) := by
    have := isInLumaRange_exact (dpOf p e.previousPixel)
      (by simp only [dpOf, toInt8_eq_signedDelta]; exact hsr)
      (by simp only [dpOf, toInt8_eq_signedDelta]; exact hsb)
    simpa only [dpOf, toInt8_eq_signedDelta] using this
  have hin : (util.isInLumaRange (dpOf p e.previousPixel) SignedPixel.zero).1 = true →
      encodePixel hasAlpha last p { e with runningPixCnt := 0 }
        = { enc := { e with runningPixCnt := 0, arr := arrStore hasAlpha e.arr p, previousPixel := p
                            previousTag := some (luma.TAG, 255) }
            out := [Chunk.luma
              [0x80 ||| (signedDelta p.g e.previousPixel.g + 32).toNat,
               ((signedDelta p.r e.previousPixel.r - signedDelta p.g e.previousPixel.g + 8).toNat <<< 4)
                ||| (signedDelta p.b e.previousPixel.b - signedDelta p.g e.previousPixel.g + 8).toNat]]
            currentTag := some (luma.TAG, 255) } := by
    intro hl
    rw [encodePixel_luma hasAlpha last p { e with runningPixCnt := 0 } hne rfl hmiss ha' hd hl]
    obtain ⟨⟨h1, h2⟩, ⟨h3, h4⟩, h5, h6⟩ := hrange.mp hl
    simp only [dpOf, toInt8_eq_signedDelta, luma.green.BIAS, luma.red_blue.BIAS, saturateU8,
      lumaChunk, luma.TAG]
    rw [toInt8_small (signedDelta p.b e.previousPixel.b - signedDelta p.g e.previousPixel.g)
        (by omega) (by omega),
      toInt8_small (signedDelta p.r e.previousPixel.r - signedDelta p.g e.previousPixel.g)
        (by omega) (by omega),
      toInt8_small _ (by omega) (by omega), toInt8_small _ (by omega) (by omega),
      toInt8_small _ (by omega) (by omega)]
    rw [luma_byte0_spec _ (by omega), luma_byte1_spec _ (by omega) _ (by omega)]
  have hnot : (util.isInLumaRange (dpOf p e.previousPixel) SignedPixel.zero).1 = false →
      (∀ ch, Chunk.luma ch ∉ (encodePixel hasAlpha last p { e with runningPixCnt := 0 }).out) ∧
      (encodePixel hasAlpha last p { e with runningPixCnt := 0 }).currentTag
        ≠ some (luma.TAG, 255) := by
    intro hl
    rw [encodePixel_rgb hasAlpha last p { e with runningPixCnt := 0 } hne rfl hmiss ha' hd hl]
    simp [rgb.TAG, luma.TAG]
  refine ⟨⟨?_, ?_⟩, ⟨?_, ?_⟩, ?_, ?_⟩
  · rintro ⟨ch, hch⟩
    rw [← hrange]
    by_contra hl
    have hl' : (util.isInLumaRange (dpOf p e.previousPixel) SignedPixel.zero).1 = false := by
      simpa using hl
    rw [hout] at hch
    rcases List.mem_append.mp hch with h | h
    · obtain ⟨ch', h'⟩ := pendingRun_run e _ h
      cases h'
    · exact (hnot hl').1 ch h
  · intro h
    rw [hout, hin (hrange.mpr h)]
    exact ⟨_, List.mem_append_right _ (List.mem_singleton_self _)⟩
  · intro h
    rw [← hrange]
    by_contra hl
    have hl' : (util.isInLumaRange (dpOf p e.previousPixel) SignedPixel.zero).1 = false := by
      simpa using hl
    rw [htag] at h
    exact (hnot hl').2 h
  · intro h
    rw [htag, hin (hrange.mpr h)]
  · intro h
    rw [hout, hin (hrange.mpr h)]
  · intro dp hr hb
    exact isInLumaRange_exact dp hr hb

/-! ## C8: trailing-run flush -/

theorem encodePixel_last_cnt (hasAlpha : Bool) (p : Pixel) (e : Encoder) :
    (encodePixel hasAlpha true p e).enc.runningPixCnt = 0 := by
  by_cases heq : p = e.previousPixel
  · rw [encodePixel_eq_flush hasAlpha true p e heq (Or.inr rfl)]
  · exact (encodePixel_ne_state hasAlpha true p e heq).2.1

theorem isLastPixel_iff (e : Encoder) (r c : Nat) (hr : r < e.mat.rows) (hc : c < e.mat.cols) :
    e.isLastPixel (r, c) = true ↔ r = e.mat.rows - 1 ∧ c = e.mat.cols - 1 := by
  unfold isLastPixel
  simp only [Bool.and_eq_true, decide_eq_true_eq]
  omega

/-- The final iteration of the scan of an image with at least one pixel works
on the pixel at `(rows-1, cols-1)` with the last-pixel flag set. -/
theorem iterAt_final (hasAlpha : Bool) (m : Mat) (hrows : 1 ≤ m.rows) (hcols : 1 ≤ m.cols) :
    iterAt hasAlpha m (m.rows * m.cols - 1)
      = encodePixel hasAlpha true (m.ptr (m.rows - 1) (m.cols - 1))
          (stateAfter hasAlpha m (m.rows * m.cols - 1)).1 := by
  have hn : 1 ≤ m.rows * m.cols := Nat.mul_pos hrows hcols
  unfold iterAt
  simp only []
  rw [scanOrder_getD m _ (by omega)]
  have hm := stateAfter_mat hasAlpha m (m.rows * m.cols - 1)
  have h1 := isLastPixel_div_mod (stateAfter hasAlpha m (m.rows * m.cols - 1)).1
    (m.rows * m.cols - 1) (by rw [hm]; omega)
  rw [hm] at h1
  have h2 : decide (m.rows * m.cols - 1 + 1 = m.rows * m.cols) = true := by
    simp only [decide_eq_true_eq]; omega
  rw [h2] at h1
  have hlt : m.rows * m.cols - 1 < m.cols * m.rows := by
    rw [Nat.mul_comm m.cols m.rows]; omega
  have hdm : (m.rows * m.cols - 1) / m.cols < m.rows := Nat.div_lt_of_lt_mul hlt
  have hmm : (m.rows * m.cols - 1) % m.cols < m.cols := Nat.mod_lt _ (by omega)
  have h3 := (isLastPixel_iff (stateAfter hasAlpha m (m.rows * m.cols - 1)).1 _ _
    (by rw [hm]; exact hdm) (by rw [hm]; exact hmm)).mp h1
  rw [hm] at h3
  rw [h1, hm, h3.1, h3.2]

/-- C8. Trailing-run flush: for every image with rows >= 1 and cols >= 1,
square or not: if the final pixel in scan order (row rows-1, column cols-1)
equals the previous pixel, a Run chunk is emitted while that pixel is
processed; in every case the run counter is 0 when the scan is over and the
trailer is written; and throughout the scan the last-pixel test holds at the
final position only. -/
theorem trailing_run_flush (hasAlpha : Bool) (m : Mat) (hrows : 1 ≤ m.rows) (hcols : 1 ≤ m.cols) :
    (m.ptr (m.rows - 1) (m.cols - 1)
        = (stateAfter hasAlpha m (m.rows * m.cols - 1)).1.previousPixel →
      ∃ ch, (iterAt hasAlpha m (m.rows * m.cols - 1)).out = [Chunk.run ch]) ∧
    (encodeImage hasAlpha (ctor hasAlpha m)).1.runningPixCnt = 0 ∧
    (∀ k r c, r < m.rows → c < m.cols →
      ((stateAfter hasAlpha m k).1.isLastPixel (r, c) = true ↔ r = m.rows - 1 ∧ c = m.cols - 1)) := by
  have hn : 1 ≤ m.rows * m.cols := Nat.mul_pos hrows hcols
  refine ⟨?_, ?_, ?_⟩
  · intro heq
    rw [iterAt_final hasAlpha m hrows hcols, encodePixel_eq_flush hasAlpha true _ _ heq (Or.inr rfl)]
    exact ⟨_, rfl⟩
  · rw [← stateAfter_length, scanOrder_length]
    have h : m.rows * m.cols = (m.rows * m.cols - 1) + 1 := by omega
    rw [h, stateAfter_succ hasAlpha m _ (by rw [scanOrder_length]; omega),
      iterAt_final hasAlpha m hrows hcols]
    exact encodePixel_last_cnt hasAlpha _ _
  · intro k r c hr hc
    have hm := stateAfter_mat hasAlpha m k
    have := isLastPixel_iff (stateAfter hasAlpha m k).1 r c (by rw [hm]; exact hr)
      (by rw [hm]; exact hc)
    rw [hm] at this
    exact this

/-! ## C7: Index emission -/

theorem encodePixel_prev (hasAlpha last : Bool) (p : Pixel) (e : Encoder) :
    (encodePixel hasAlpha last p e).enc.previousPixel = p := by
  by_cases heq : p = e.previousPixel
  · by_cases hfl : (e.runningPixCnt + 1) % 256 = run.UPPER_LIMIT ∨ last = true
    · rw [encodePixel_eq_flush hasAlpha last p e heq hfl]; exact heq.symm
    · have h1 : (e.runningPixCnt + 1) % 256 ≠ run.UPPER_LIMIT := fun h => hfl (Or.inl h)
      have h2 : last = false := by
        cases hl : last
        · rfl
        · exact absurd (Or.inr hl) hfl
      rw [encodePixel_eq_keep hasAlpha last p e heq h1 h2]; exact heq.symm
  · exact (encodePixel_ne_state hasAlpha last p e heq).1

theorem encodePixel_eq_arr (hasAlpha last : Bool) (p : Pixel) (e : Encoder)
    (heq : p = e.previousPixel) : (encodePixel hasAlpha last p e).enc.arr = e.arr := by
  by_cases hfl : (e.runningPixCnt + 1) % 256 = run.UPPER_LIMIT ∨ last = true
  · rw [encodePixel_eq_flush hasAlpha last p e heq hfl]
  · have h1 : (e.runningPixCnt + 1) % 256 ≠ run.UPPER_LIMIT := fun h => hfl (Or.inl h)
    have h2 : last = false := by
      cases hl : last
      · rfl
      · exact absurd (Or.inr hl) hfl
    rw [encodePixel_eq_keep hasAlpha last p e heq h1 h2]

/-- A cache entry survives a pixel that either hashes elsewhere or is the
entry itself. -/
theorem encodePixel_arr_keep (hasAlpha last : Bool) (q : Pixel) (e : Encoder) (s : Nat) (v : Pixel)
    (hv : e.arr s = v) (hq : util.hash hasAlpha q = s → q = v) :
    (encodePixel hasAlpha last q e).enc.arr s = v := by
  by_cases heq : q = e.previousPixel
  · rw [encodePixel_eq_arr hasAlpha last q e heq]; exact hv
  · rw [(encodePixel_ne_state hasAlpha last q e heq).2.2]
    by_cases hhit : e.arr (util.hash hasAlpha q) = q
    · simp only [hhit, if_true]; exact hv
    · simp only [hhit, if_false, arrStore]
      by_cases hs : s = util.hash hasAlpha q
      · simp only [hs, if_true]; exact hq hs.symm
      · simp only [hs, if_false]; exact hv

/-- After a pixel that differs from the previous one the cache holds it. -/
theorem encodePixel_ne_cached (hasAlpha last : Bool) (q : Pixel) (e : Encoder)
    (hne : q ≠ e.previousPixel) :
    (encodePixel hasAlpha last q e).enc.arr (util.hash hasAlpha q) = q := by
  rw [(encodePixel_ne_state hasAlpha last q e hne).2.2]
  by_cases hhit : e.arr (util.hash hasAlpha q) = q
  · simp only [hhit, if_true]
  · simp only [hhit, if_false, arrStore, if_true]

theorem stateAfter_step (hasAlpha : Bool) (m : Mat) (hlen : m.data.length = m.rows * m.cols)
    (k : Nat) (hk : k < m.data.length) :
    (stateAfter hasAlpha m (k + 1)).1
      = (encodePixel hasAlpha (decide (k + 1 = m.data.length)) (m.data.getD k Pixel.zero)
          (stateAfter hasAlpha m k).1).enc := by
  rw [stateAfter_succ hasAlpha m k (by rw [scanOrder_length]; omega), iterAt_eq hasAlpha m hlen k hk]

theorem stateAfter_prev (hasAlpha : Bool) (m : Mat) (hlen : m.data.length = m.rows * m.cols)
    (k : Nat) (hk : k < m.data.length) :
    (stateAfter hasAlpha m (k + 1)).1.previousPixel = m.data.getD k Pixel.zero := by
  rw [stateAfter_step hasAlpha m hlen k hk, encodePixel_prev]

/-- The previous pixel is in the cache, unless the scan has so far seen
nothing but the initial previous pixel of the alpha format. -/
theorem stateAfter_prev_cached (hasAlpha : Bool) (m : Mat)
    (hlen : m.data.length = m.rows * m.cols) :
    ∀ k, k ≤ m.data.length →
      (stateAfter hasAlpha m k).1.arr (util.hash hasAlpha (stateAfter hasAlpha m k).1.previousPixel)
          = (stateAfter hasAlpha m k).1.previousPixel ∨
      (hasAlpha = true ∧ ∀ i < k, m.data.getD i Pixel.zero = ⟨0, 0, 0, 255⟩) := by
  intro k
  induction k with
  | zero =>
    intro _
    rw [stateAfter_zero]
    cases hasAlpha
    · left; rfl
    · right; exact ⟨rfl, fun i hi => absurd hi (by omega)⟩
  | succ k ih =>
    intro hk
    have hk' : k < m.data.length := by omega
    have hprev := stateAfter_prev hasAlpha m hlen k hk'
    by_cases heq : m.data.getD k Pixel.zero = (stateAfter hasAlpha m k).1.previousPixel
    · rcases ih (by omega) with h | ⟨h1, h2⟩
      · left
        rw [hprev, stateAfter_step hasAlpha m hlen k hk', encodePixel_eq_arr _ _ _ _ heq, heq]
        exact h
      · by_cases hinit : (stateAfter hasAlpha m k).1.previousPixel = ⟨0, 0, 0, 255⟩
        · right
          refine ⟨h1, fun i hi => ?_⟩
          by_cases hik : i < k
          · exact h2 i hik
          · have : i = k := by omega
            rw [this, heq, hinit]
        · -- the previous pixel is a pixel of the image, all of which are the initial one
          exfalso
          apply hinit
          rcases Nat.eq_zero_or_pos k with hk0 | hk0
          · subst hk0
            rw [stateAfter_zero, h1]; rfl
          · have := stateAfter_prev hasAlpha m hlen (k - 1) (by omega)
            rw [show k - 1 + 1 = k by omega] at this
            rw [this]
            exact h2 (k - 1) (by omega)
    · left
      rw [hprev, stateAfter_step hasAlpha m hlen k hk']
      exact encodePixel_ne_cached hasAlpha _ _ _ heq

/-- C7 (as stated) fails: in the 1x3 alpha image opaque black, colour, opaque
black the third pixel repeats the first, differs from the second, and the
second hashes to another slot; yet the third pixel is written as an RGB
chunk, because the first pixel equalled the initial previous pixel and was
counted into a run without entering the cache. -/
theorem index_emission_counterexample :
    imgBlackColourBlack.wf true ∧
    imgBlackColourBlack.data.getD 0 Pixel.zero = imgBlackColourBlack.data.getD 2 Pixel.zero ∧
    imgBlackColourBlack.data.getD 1 Pixel.zero ≠ imgBlackColourBlack.data.getD 2 Pixel.zero ∧
    (∀ k < 2, 0 < k →
      util.hash true (imgBlackColourBlack.data.getD k Pixel.zero)
          = util.hash true (imgBlackColourBlack.data.getD 2 Pixel.zero) →
      imgBlackColourBlack.data.getD k Pixel.zero = imgBlackColourBlack.data.getD 2 Pixel.zero) ∧
    (iterAt true imgBlackColourBlack 2).out = [Chunk.rgb [0xfe, 0, 0, 0]] ∧
    (iterAt true imgBlackColourBlack 2).currentTag = some (rgb.TAG, 255) ∧
    ¬ (∃ ch, Chunk.index ch ∈ (iterAt true imgBlackColourBlack 2).out) := by
  refine ⟨by decide, by decide, by decide, by decide, ?_, ?_, ?_⟩
  · rfl
  · rfl
  · have h : (iterAt true imgBlackColourBlack 2).out = [Chunk.rgb [0xfe, 0, 0, 0]] := rfl
    rw [h]
    simp


/-- C7, amended. Index emission: for every image (3 or 4 channels) and every
pixel position `j` whose value also occurs at an earlier position `i`,
differs from the pixel at `j-1`, has no pixel of the same hash slot but a
different value between `i` and `j`, and, in the alpha format when the value
is the initial previous pixel (0,0,0,255), is preceded before `i` by some
pixel of another value: position `j` is written as an Index chunk for the
slot of its value (after the flush of a pending run, if any), not as a
Diff, Luma, RGB or RGBA chunk. -/
theorem index_emission (hasAlpha : Bool) (m : Mat) (hlen : m.data.length = m.rows * m.cols)
    (i j : Nat) (hij : i < j) (hj : j < m.data.length)
    (hval : m.data.getD i Pixel.zero = m.data.getD j Pixel.zero)
    (hprev : m.data.getD (j - 1) Pixel.zero ≠ m.data.getD j Pixel.zero)
    (hcoll : ∀ k, i < k → k < j →
      util.hash hasAlpha (m.data.getD k Pixel.zero) = util.hash hasAlpha (m.data.getD j Pixel.zero) →
      m.data.getD k Pixel.zero = m.data.getD j Pixel.zero)
    (hfirst : hasAlpha = true → m.data.getD j Pixel.zero = ⟨0, 0, 0, 255⟩ →
      ∃ i', i' < i ∧ m.data.getD i' Pixel.zero ≠ ⟨0, 0, 0, 255⟩) :
    (iterAt hasAlpha m j).out
      = pendingRun (stateAfter hasAlpha m j).1
          ++ [Chunk.index (util.hash hasAlpha (m.data.getD j Pixel.zero))] ∧
    (iterAt hasAlpha m j).currentTag
      = some (index.TAG, util.hash hasAlpha (m.data.getD j Pixel.zero)) ∧
    (∀ c ∈ (iterAt hasAlpha m j).out, (∃ ch, c = Chunk.run ch) ∨ (∃ ch, c = Chunk.index ch)) := by
  have hA : (stateAfter hasAlpha m (i + 1)).1.arr (util.hash hasAlpha (m.data.getD j Pixel.zero))
      = m.data.getD j Pixel.zero := by
    have hp := stateAfter_prev hasAlpha m hlen i (by omega)
    rcases stateAfter_prev_cached hasAlpha m hlen (i + 1) (by omega) with h | ⟨h1, h2⟩
    · rw [hp, hval] at h; exact h
    · exfalso
      have hv : m.data.getD j Pixel.zero = ⟨0, 0, 0, 255⟩ := by
        rw [← hval]; exact h2 i (by omega)
      obtain ⟨i', hi', hne⟩ := hfirst h1 hv
      exact hne (h2 i' (by omega))
  have hB : ∀ k, i + 1 ≤ k → k ≤ j →
      (stateAfter hasAlpha m k).1.arr (util.hash hasAlpha (m.data.getD j Pixel.zero))
        = m.data.getD j Pixel.zero := by
    intro k hk
    induction k, hk using Nat.le_induction with
    | base => intro _; exact hA
    | succ k hik ih =>
      intro hkj
      rw [stateAfter_step hasAlpha m hlen k (by omega)]
      exact encodePixel_arr_keep hasAlpha _ _ _ _ _ (ih (by omega))
        (hcoll k (by omega) (by omega))
  have hhit := hB j (by omega) (le_refl j)
  have hpj : (stateAfter hasAlpha m j).1.previousPixel = m.data.getD (j - 1) Pixel.zero := by
    have := stateAfter_prev hasAlpha m hlen (j - 1) (by omega)
    rw [show j - 1 + 1 = j by omega] at this
    exact this
  have hne : m.data.getD j Pixel.zero ≠ (stateAfter hasAlpha m j).1.previousPixel := by
    rw [hpj]; exact fun h => hprev h.symm
  obtain ⟨hout, _, htag⟩ := encodePixel_ne_split hasAlpha (decide (j + 1 = m.data.length))
    (m.data.getD j Pixel.zero) (stateAfter hasAlpha m j).1 hne
  have hslot := encodePixel_hit_slot hasAlpha (decide (j + 1 = m.data.length))
    (m.data.getD j Pixel.zero) (stateAfter hasAlpha m j).1 hne hhit
  rw [hslot] at hout htag
  rw [iterAt_eq hasAlpha m hlen j hj]
  refine ⟨hout, htag, ?_⟩
  rw [hout]
  intro c hc
  rcases List.mem_append.mp hc with h | h
  · exact Or.inl (pendingRun_run _ c h)
  · exact Or.inr ⟨_, List.mem_singleton.mp h⟩

/-! ## C11: literal chunks -/

theorem isInDiffRange_dpOf_iff (p q : Pixel) :
    util.isInDiffRange (dpOf p q) = true ↔
      ((-2 ≤ signedDelta p.r q.r ∧ signedDelta p.r q.r ≤ 1) ∧
       (-2 ≤ signedDelta p.g q.g ∧ signedDelta p.g q.g ≤ 1) ∧
       (-2 ≤ signedDelta p.b q.b ∧ signedDelta p.b q.b ≤ 1)) := by
  rw [isInDiffRange_iff]
  simp only [dpOf, toInt8_eq_signedDelta]
  constructor
  · rintro ⟨⟨h1, h2, h3⟩, h4, h5, h6⟩; omega
  · rintro ⟨⟨h1, h2⟩, ⟨h3, h4⟩, h5, h6⟩; omega

theorem isInLumaRange_dpOf_iff (p q : Pixel) :
    (util.isInLumaRange (dpOf p q) SignedPixel.zero).1 = true ↔
      ((-32 ≤ signedDelta p.g q.g ∧ signedDelta p.g q.g ≤ 31) ∧
       (-8 ≤ signedDelta p.r q.r - signedDelta p.g q.g ∧
          signedDelta p.r q.r - signedDelta p.g q.g ≤ 7) ∧
       (-8 ≤ signedDelta p.b q.b - signedDelta p.g q.g ∧
          signedDelta p.b q.b - signedDelta p.g q.g ≤ 7)) := by
  have := isInLumaRange_exact (dpOf p q)
    (by simp only [dpOf, toInt8_eq_signedDelta]; exact signedDelta_range p.r q.r)
    (by simp only [dpOf, toInt8_eq_signedDelta]; exact signedDelta_range p.b q.b)
  simpa only [dpOf, toInt8_eq_signedDelta] using this

theorem toInt8_sub_ne_zero (c q : Nat) (hc : c < 256) (hq : q < 256) (h : c ≠ q) :
    toInt8 ((c : Int) - q) ≠ 0 := by
  unfold toInt8
  omega

/-- The loop body of `Encoder<false>` writes no RGBA chunk. -/
theorem encodePixel_noAlpha_no_rgba (last : Bool) (p : Pixel) (e : Encoder) :
    ∀ ch, Chunk.rgba ch ∉ (encodePixel false last p e).out := by
  intro ch
  unfold encodePixel flushRun
  simp only [Bool.false_and, Bool.false_eq_true, if_false]
  split_ifs <;> simp

/-- C11. Literal chunks: for every pixel that differs from the previous pixel
and misses the cache (alpha values being bytes): in the alpha format, if its
alpha differs from the previous pixel's alpha, exactly the 5 bytes FF, r, g,
b, a of the pixel are written for it, whatever the colour deltas are;
otherwise (alpha unchanged, or no alpha channel), if neither the Diff nor the
Luma range condition holds, exactly the 4 bytes FE, r, g, b are written. A
no-alpha encoder never writes an RGBA chunk. -/
theorem literal_chunks (hasAlpha last : Bool) (p : Pixel) (e : Encoder)
    (hne : p ≠ e.previousPixel) (hmiss : e.arr (util.hash hasAlpha p) ≠ p)
    (hpa : p.a < 256) (hqa : e.previousPixel.a < 256) :
    (hasAlpha = true → p.a ≠ e.previousPixel.a →
      (encodePixel hasAlpha last p e).out
        = pendingRun e ++ [Chunk.rgba [0xFF, p.r, p.g, p.b, p.a]] ∧
      (Chunk.rgba [0xFF, p.r, p.g, p.b, p.a]).bytes = [0xFF, p.r, p.g, p.b, p.a] ∧
      (encodePixel hasAlpha last p e).currentTag = some (rgba.TAG, 255)) ∧
    ((hasAlpha = true → p.a = e.previousPixel.a) →
      ¬ ((-2 ≤ signedDelta p.r e.previousPixel.r ∧ signedDelta p.r e.previousPixel.r ≤ 1) ∧
         (-2 ≤ signedDelta p.g e.previousPixel.g ∧ signedDelta p.g e.previousPixel.g ≤ 1) ∧
         (-2 ≤ signedDelta p.b e.previousPixel.b ∧ signedDelta p.b e.previousPixel.b ≤ 1)) →
      ¬ ((-32 ≤ signedDelta p.g e.previousPixel.g ∧ signedDelta p.g e.previousPixel.g ≤ 31) ∧
         (-8 ≤ signedDelta p.r e.previousPixel.r - signedDelta p.g e.previousPixel.g ∧
            signedDelta p.r e.previousPixel.r - signedDelta p.g e.previousPixel.g ≤ 7) ∧
         (-8 ≤ signedDelta p.b e.previousPixel.b - signedDelta p.g e.previousPixel.g ∧
            signedDelta p.b e.previousPixel.b - signedDelta p.g e.previousPixel.g ≤ 7)) →
      (encodePixel hasAlpha last p e).out
        = pendingRun e ++ [Chunk.rgb [0xFE, p.r, p.g, p.b]] ∧
      (Chunk.rgb [0xFE, p.r, p.g, p.b]).bytes = [0xFE, p.r, p.g, p.b] ∧
      (encodePixel hasAlpha last p e).currentTag = some (rgb.TAG, 255)) ∧
    (∀ (last1 : Bool) (q : Pixel) (e1 : Encoder) (ch : List Nat),
      Chunk.rgba ch ∉ (encodePixel false last1 q e1).out) ∧
    (∀ (m : Mat) (ch : List Nat), Chunk.rgba ch ∉ (encodeImage false (ctor false m)).2) := by
  obtain ⟨hout, _, htag⟩ := encodePixel_ne_split hasAlpha last p e hne
  refine ⟨?_, ?_, ?_, ?_⟩
  · intro hα hadiff
    subst hα
    have ha : toInt8 ((p.a : Int) - e.previousPixel.a) ≠ 0 :=
      toInt8_sub_ne_zero _ _ hpa hqa hadiff
    have hstep := encodePixel_rgba last p { e with runningPixCnt := 0 } hne rfl hmiss ha
    rw [hout, htag, hstep]
    exact ⟨rfl, rfl, rfl⟩
  · intro haeq hnd hnl
    have ha' : hasAlpha = true → toInt8 ((p.a : Int) - e.previousPixel.a) = 0 := by
      intro h; rw [haeq h]; exact toInt8_self _
    have hd : util.isInDiffRange (dpOf p e.previousPixel) = false := by
      by_contra hcon
      exact hnd ((isInDiffRange_dpOf_iff p e.previousPixel).mp (by simpa using hcon))
    have hl : (util.isInLumaRange (dpOf p e.previousPixel) SignedPixel.zero).1 = false := by
      by_contra hcon
      exact hnl ((isInLumaRange_dpOf_iff p e.previousPixel).mp (by simpa using hcon))
    have hstep := encodePixel_rgb hasAlpha last p { e with runningPixCnt := 0 } hne rfl hmiss
      ha' hd hl
    rw [hout, htag, hstep]
    exact ⟨rfl, rfl, rfl⟩
  · intro last1 q e1 ch
    exact encodePixel_noAlpha_no_rgba last1 q e1 ch
  · intro m ch
    rw [← stateAfter_length]
    exact stateAfter_induction false m (fun acc => Chunk.rgba ch ∉ acc.2) (by simp)
      (fun acc last1 q h => by
        intro hmem
        rcases List.mem_append.mp hmem with h1 | h1
        · exact h h1
        · exact encodePixel_noAlpha_no_rgba last1 q acc.1 ch h1) _

theorem literal_chunks_witness :
    (⟨5, 5, 5, 7⟩ : Pixel) ≠ (ctor true imgAlphaRepeat).previousPixel ∧
    (ctor true imgAlphaRepeat).arr (util.hash true ⟨5, 5, 5, 7⟩) ≠ ⟨5, 5, 5, 7⟩ ∧
    (encodePixel true false ⟨5, 5, 5, 7⟩ (ctor true imgAlphaRepeat)).out
      = pendingRun (ctor true imgAlphaRepeat) ++ [Chunk.rgba [0xFF, 5, 5, 5, 7]] :=
  ⟨by decide, by decide,
    ((literal_chunks true false ⟨5, 5, 5, 7⟩ (ctor true imgAlphaRepeat) (by decide) (by decide)
      (by decide) (by decide)).1 rfl (by decide)).1⟩

/-! ## C12: determinism and encoder state -/

/-- C12. Determinism and fresh state per encode, at a failing input: one
`Encoder<false>` built from the well-formed 1x1 image (R=10, G=20, B=30) and
written to two streams, `operator<<` taking it as `const Encoder&`. The
object is constructed in the initial state and its first write gives the bytes
a second object gives, with the RGB chunk FE 0A 14 1E; the scan leaves the
pixel in the `mutable` member `previousPixel`, nothing sets it back, and the
second write gives the Run chunk C0 in its place: the same image, encoded
twice by the same object, is not byte-identical. -/
theorem same_encoder_twice_differs :
    imgSingle.wf false ∧
    (ctor false imgSingle).previousPixel = ⟨0, 0, 0, 0⟩ ∧
    (ctor false imgSingle).runningPixCnt = 0 ∧
    encode false imgSingle
      = .ok [0x71, 0x6f, 0x69, 0x66, 0, 0, 0, 1, 0, 0, 0, 1, 3, 1,
             0xFE, 0x0A, 0x14, 0x1E, 0, 0, 0, 0, 0, 0, 0, 1] ∧
    writeTwice false imgSingle
      = .ok ([0x71, 0x6f, 0x69, 0x66, 0, 0, 0, 1, 0, 0, 0, 1, 3, 1,
                0xFE, 0x0A, 0x14, 0x1E, 0, 0, 0, 0, 0, 0, 0, 1],
             [0x71, 0x6f, 0x69, 0x66, 0, 0, 0, 1, 0, 0, 0, 1, 3, 1,
                0xC0, 0, 0, 0, 0, 0, 0, 0, 1]) ∧
    (encodeImage false (ctor false imgSingle)).1.previousPixel = ⟨30, 20, 10, 0⟩ ∧
    ¬ (∃ out, writeTwice false imgSingle = .ok (out, out)) := by
  have h : writeTwice false imgSingle
      = .ok ([0x71, 0x6f, 0x69, 0x66, 0, 0, 0, 1, 0, 0, 0, 1, 3, 1,
                0xFE, 0x0A, 0x14, 0x1E, 0, 0, 0, 0, 0, 0, 0, 1],
             [0x71, 0x6f, 0x69, 0x66, 0, 0, 0, 1, 0, 0, 0, 1, 3, 1,
                0xC0, 0, 0, 0, 0, 0, 0, 0, 1]) := rfl
  refine ⟨by decide, by decide, rfl, rfl, h, by decide, ?_⟩
  rintro ⟨out, hout⟩
  rw [h] at hout
  injection hout with hout
  injection hout with h1 h2
  rw [← h1] at h2
  exact absurd h2 (by decide)

/-! ## C13: dimension overflow -/

/-- C15 (as stated) fails at pixel 1: from the initial previous pixel (0,0,0)
the delta of (5,5,5) is (5,5,5), outside the Diff range [-2, 1]; the pixel is
written as the Luma chunk A5 88, not as a Diff chunk. -/
theorem run_then_break_counterexample :
    (stateAfter false imgRunBreak 0).1.previousPixel = ⟨0, 0, 0, 0⟩ ∧
    util.isInDiffRange (dpOf ⟨5, 5, 5, 0⟩ ⟨0, 0, 0, 0⟩) = false ∧
    (iterAt false imgRunBreak 0).out = [Chunk.luma [0xA5, 0x88]] ∧
    ¬ (∃ ch, Chunk.diff ch ∈ (iterAt false imgRunBreak 0).out) := by
  refine ⟨rfl, rfl, rfl, ?_⟩
  have h : (iterAt false imgRunBreak 0).out = [Chunk.luma [0xA5, 0x88]] := rfl
  rw [h]
  simp

/-- C15, amended. Run-then-break scenario: for the no-alpha image consisting
of the single row (5,5,5), (5,5,5), (9,9,9), pixel 1 is encoded as the Luma
chunk A5 88 (dg + 32 = 37, dr - dg + 8 = 8, db - dg + 8 = 8); pixel 2 emits
nothing and leaves the run counter at 1; pixel 3 first flushes Run{1}
(stored value 0, byte C0) and is then encoded against the previous pixel
(5,5,5), as the Luma chunk A4 88. -/
theorem run_then_break :
    (iterAt false imgRunBreak 0).out = [Chunk.luma [0x80 ||| 37, (8 <<< 4) ||| 8]] ∧
    (iterAt false imgRunBreak 0).currentTag = some (luma.TAG, 255) ∧
    (iterAt false imgRunBreak 1).out = [] ∧
    (stateAfter false imgRunBreak 2).1.runningPixCnt = 1 ∧
    (stateAfter false imgRunBreak 2).1.previousPixel = ⟨5, 5, 5, 0⟩ ∧
    (iterAt false imgRunBreak 2).out = [Chunk.run 0xC0, Chunk.luma [0xA4, 0x88]] ∧
    pendingRun (stateAfter false imgRunBreak 2).1 = [Chunk.run (0xC0 ||| 0)] ∧
    (encodePixel false true ⟨9, 9, 9, 0⟩
        { (stateAfter false imgRunBreak 2).1 with runningPixCnt := 0 }).out
      = [Chunk.luma [0xA4, 0x88]] ∧
    (encodeImage false (ctor false imgRunBreak)).2
      = [Chunk.luma [0xA5, 0x88], Chunk.run 0xC0, Chunk.luma [0xA4, 0x88]] := by
  refine ⟨rfl, rfl, rfl, rfl, rfl, rfl, rfl, rfl, rfl⟩

/-! ## C16: run flush on break -/

theorem run_or_eq : ∀ v < 62, 0xc0 ||| v = 192 + v := by decide

theorem stateAfter_cnt_le (hasAlpha : Bool) (m : Mat) (k : Nat) :
    (stateAfter hasAlpha m k).1.runningPixCnt ≤ 61 :=
  stateAfter_induction hasAlpha m (fun acc => acc.1.runningPixCnt ≤ 61) (by simp [ctor])
    (fun acc last p h => (encodePixel_run_bound hasAlpha last p acc.1 h).1) k

/-- C16. Run flush on break: for every image and every pixel that differs
from the previous pixel, with `k` the run counter at that moment: the pixel's
own chunk `c` is the one chunk, not a Run chunk, that the loop body writes
with the counter reset to 0; if `k >= 1` the Run byte `0xC0 | (k-1)` is
written before it, if `k = 0` no Run chunk is written for the pixel; the
counter is 0 afterwards. -/
theorem run_flush_on_break (hasAlpha : Bool) (m : Mat)
    (hlen : m.data.length = m.rows * m.cols) (j : Nat) (hj : j < m.data.length)
    (hne : m.data.getD j Pixel.zero ≠ (stateAfter hasAlpha m j).1.previousPixel) :
    ∃ c, (∀ ch, c ≠ Chunk.run ch) ∧
      (encodePixel hasAlpha (decide (j + 1 = m.data.length)) (m.data.getD j Pixel.zero)
          { (stateAfter hasAlpha m j).1 with runningPixCnt := 0 }).out = [c] ∧
      (1 ≤ (stateAfter hasAlpha m j).1.runningPixCnt →
        (iterAt hasAlpha m j).out
          = [Chunk.run (0xC0 ||| ((stateAfter hasAlpha m j).1.runningPixCnt - 1)), c]) ∧
      ((stateAfter hasAlpha m j).1.runningPixCnt = 0 → (iterAt hasAlpha m j).out = [c]) ∧
      (iterAt hasAlpha m j).enc.runningPixCnt = 0 := by
  have hk := stateAfter_cnt_le hasAlpha m j
  obtain ⟨c, hc, hnr⟩ := encodePixel_ne_out hasAlpha (decide (j + 1 = m.data.length))
    (m.data.getD j Pixel.zero) { (stateAfter hasAlpha m j).1 with runningPixCnt := 0 } hne rfl
  rw [iterAt_eq hasAlpha m hlen j hj]
  refine ⟨c, hnr, hc, ?_, ?_, (encodePixel_ne_state hasAlpha _ _ _ hne).2.1⟩
  · intro hpos
    rw [encodePixel_ne_pending hasAlpha _ _ _ hne (by omega), hc]
    have hv : ((stateAfter hasAlpha m j).1.runningPixCnt + 256 - run.BIAS) % 256
        = (stateAfter hasAlpha m j).1.runningPixCnt - 1 := by
      unfold run.BIAS; omega
    have hbyte := (run_byte_facts ((stateAfter hasAlpha m j).1.runningPixCnt - 1) (by omega)).1
    have hor := run_or_eq ((stateAfter hasAlpha m j).1.runningPixCnt - 1) (by omega)
    simp only [hv, run.TAG]
    rw [hbyte, hor]
  · intro hz
    have hsplit := (encodePixel_ne_split hasAlpha (decide (j + 1 = m.data.length))
      (m.data.getD j Pixel.zero) (stateAfter hasAlpha m j).1 hne).1
    rw [hsplit, hc]
    simp [pendingRun, run.LOWER_RANGE, hz]

theorem run_flush_on_break_witness :
    imgRunBreak.data.getD 2 Pixel.zero ≠ (stateAfter false imgRunBreak 2).1.previousPixel ∧
    ∃ c, (∀ ch, c ≠ Chunk.run ch) ∧
      (encodePixel false (decide (2 + 1 = imgRunBreak.data.length))
          (imgRunBreak.data.getD 2 Pixel.zero)
          { (stateAfter false imgRunBreak 2).1 with runningPixCnt := 0 }).out = [c] ∧
      (1 ≤ (stateAfter false imgRunBreak 2).1.runningPixCnt →
        (iterAt false imgRunBreak 2).out
          = [Chunk.run (0xC0 ||| ((stateAfter false imgRunBreak 2).1.runningPixCnt - 1)), c]) ∧
      ((stateAfter false imgRunBreak 2).1.runningPixCnt = 0 →
        (iterAt false imgRunBreak 2).out = [c]) ∧
      (iterAt false imgRunBreak 2).enc.runningPixCnt = 0 :=
  ⟨by decide, run_flush_on_break false imgRunBreak (by decide) 2 (by decide) (by decide)⟩

/-! ## C17: last-pixel test -/

/-- C17 (as stated) fails: there is no image, square or not, and no position
of it at which the last-pixel test as the scan loop calls it differs from
`r == rows-1 && c == cols-1`; and on the non-square 2x3 image that ends in a
run the trailing run is flushed at the final pixel. -/
theorem last_pixel_counterexample :
    (¬ ∃ (e : Encoder) (r c : Nat), r < e.mat.rows ∧ c < e.mat.cols ∧
      ¬ (e.isLastPixel (r, c) = true ↔ (r = e.mat.rows - 1 ∧ c = e.mat.cols - 1))) ∧
    imgTwoByThree.rows ≠ imgTwoByThree.cols ∧
    imgTwoByThree.ptr 1 2 = (stateAfter false imgTwoByThree 5).1.previousPixel ∧
    (iterAt false imgTwoByThree 5).out = [Chunk.run 0xC0] ∧
    (encodeImage false (ctor false imgTwoByThree)).1.runningPixCnt = 0 := by
  refine ⟨?_, by decide, by decide, rfl, rfl⟩
  rintro ⟨e, r, c, hr, hc, hn⟩
  exact hn (isLastPixel_iff e r c hr hc)

/-- C17, amended. Last-pixel check on non-square images: for every image,
square or not, the last-pixel test as the scan loop calls it holds exactly
at `r == rows-1 && c == cols-1`; so for every image, non-square ones
included, whose final pixel equals its predecessor the trailing run is
flushed at the final pixel, by a Run chunk for the pending count, and no run
is left pending. -/
theorem last_pixel_any_shape (hasAlpha : Bool) (m : Mat) (hrows : 1 ≤ m.rows) (hcols : 1 ≤ m.cols) :
    (∀ (e : Encoder), e.mat = m → ∀ r c, r < m.rows → c < m.cols →
      (e.isLastPixel (r, c) = true ↔ (r = m.rows - 1 ∧ c = m.cols - 1))) ∧
    (m.ptr (m.rows - 1) (m.cols - 1)
        = (stateAfter hasAlpha m (m.rows * m.cols - 1)).1.previousPixel →
      (iterAt hasAlpha m (m.rows * m.cols - 1)).out
        = [Chunk.run (0xC0 ||| (stateAfter hasAlpha m (m.rows * m.cols - 1)).1.runningPixCnt)] ∧
      (iterAt hasAlpha m (m.rows * m.cols - 1)).enc.runningPixCnt = 0) := by
  refine ⟨?_, ?_⟩
  · intro e he r c hr hc
    have := isLastPixel_iff e r c (by rw [he]; exact hr) (by rw [he]; exact hc)
    rw [he] at this
    exact this
  · intro heq
    have hk := stateAfter_cnt_le hasAlpha m (m.rows * m.cols - 1)
    rw [iterAt_final hasAlpha m hrows hcols,
      encodePixel_eq_flush hasAlpha true _ _ heq (Or.inr rfl)]
    have hmod : ((stateAfter hasAlpha m (m.rows * m.cols - 1)).1.runningPixCnt + 1) % 256
        = (stateAfter hasAlpha m (m.rows * m.cols - 1)).1.runningPixCnt + 1 :=
      Nat.mod_eq_of_lt (by omega)
    have hv : ((stateAfter hasAlpha m (m.rows * m.cols - 1)).1.runningPixCnt + 1 + 256
        - run.BIAS) % 256 = (stateAfter hasAlpha m (m.rows * m.cols - 1)).1.runningPixCnt := by
      unfold run.BIAS; omega
    have hbyte := (run_byte_facts (stateAfter hasAlpha m (m.rows * m.cols - 1)).1.runningPixCnt
      (by omega)).1
    have hor := run_or_eq (stateAfter hasAlpha m (m.rows * m.cols - 1)).1.runningPixCnt (by omega)
    simp only [hmod, hv, run.TAG]
    rw [hbyte, hor]
    exact ⟨rfl, trivial⟩

theorem last_pixel_any_shape_witness :
    1 ≤ imgTwoByThree.rows ∧ 1 ≤ imgTwoByThree.cols ∧ imgTwoByThree.rows ≠ imgTwoByThree.cols ∧
    imgTwoByThree.ptr (imgTwoByThree.rows - 1) (imgTwoByThree.cols - 1)
      = (stateAfter false imgTwoByThree (imgTwoByThree.rows * imgTwoByThree.cols - 1)).1.previousPixel ∧
    (iterAt false imgTwoByThree (imgTwoByThree.rows * imgTwoByThree.cols - 1)).enc.runningPixCnt
      = 0 :=
  ⟨by decide, by decide, by decide, by decide,
    ((last_pixel_any_shape false imgTwoByThree (by decide) (by decide)).2 (by decide)).2⟩

/-! ## C18: no repeated Index -/

theorem encodePixel_prevTag (hasAlpha last : Bool) (p : Pixel) (e : Encoder) :
    (encodePixel hasAlpha last p e).enc.previousTag = (encodePixel hasAlpha last p e).currentTag := by
  unfold encodePixel flushRun
  simp only []
  split_ifs <;> simp

/-- An Index chunk in the output of the loop body is the chunk of a pixel
that differs from the previous one and is in the cache, for its slot. -/
theorem encodePixel_index_mem (hasAlpha last : Bool) (p : Pixel) (e : Encoder) (s : Nat)
    (h : Chunk.index s ∈ (encodePixel hasAlpha last p e).out) :
    p ≠ e.previousPixel ∧ s = util.hash hasAlpha p ∧ e.arr s = p := by
  by_cases heq : p = e.previousPixel
  · exfalso
    by_cases hfl : (e.runningPixCnt + 1) % 256 = run.UPPER_LIMIT ∨ last = true
    · rw [encodePixel_eq_flush hasAlpha last p e heq hfl] at h
      simp at h
    · have h1 : (e.runningPixCnt + 1) % 256 ≠ run.UPPER_LIMIT := fun h => hfl (Or.inl h)
      have h2 : last = false := by
        cases hl : last
        · rfl
        · exact absurd (Or.inr hl) hfl
      rw [encodePixel_eq_keep hasAlpha last p e heq h1 h2] at h
      simp at h
  · refine ⟨heq, ?_⟩
    rw [(encodePixel_ne_split hasAlpha last p e heq).1] at h
    rcases List.mem_append.mp h with h | h
    · obtain ⟨ch, hch⟩ := pendingRun_run e _ h
      cases hch
    · by_cases hhit : e.arr (util.hash hasAlpha p) = p
      · rw [encodePixel_hit_slot hasAlpha last p e heq hhit] at h
        simp only [List.mem_singleton, Chunk.index.injEq] at h
        rw [h]
        exact ⟨rfl, hhit⟩
      · exact absurd h ((encodePixel_miss_no_index hasAlpha last p e heq hhit).1 s)

/-- The `currentTag` of the loop body is an Index tag only for a pixel that
differs from the previous one and is in the cache, with its slot. -/
theorem encodePixel_tag_index (hasAlpha last : Bool) (p : Pixel) (e : Encoder) (s : Nat)
    (h : (encodePixel hasAlpha last p e).currentTag = some (index.TAG, s)) :
    p ≠ e.previousPixel ∧ s = util.hash hasAlpha p ∧ e.arr s = p := by
  unfold encodePixel flushRun isSeenBefore at h
  simp only [] at h
  split_ifs at h <;>
    simp_all [index.TAG, run.TAG, rgba.TAG, diff.TAG, luma.TAG, rgb.TAG]

theorem encodePixel_out_nil (hasAlpha last : Bool) (p : Pixel) (e : Encoder)
    (h : (encodePixel hasAlpha last p e).out = []) : p = e.previousPixel := by
  by_contra hne
  obtain ⟨c, hc, _⟩ := encodePixel_ne_out hasAlpha last p { e with runningPixCnt := 0 } hne rfl
  rw [(encodePixel_ne_split hasAlpha last p e hne).1, hc] at h
  simp at h

/-- Within one iteration no two Index chunks follow each other. -/
theorem encodePixel_out_chain (hasAlpha last : Bool) (p : Pixel) (e : Encoder) :
    List.Chain' (fun a b => ¬ ∃ s, a = Chunk.index s ∧ b = Chunk.index s)
      (encodePixel hasAlpha last p e).out := by
  by_cases heq : p = e.previousPixel
  · by_cases hfl : (e.runningPixCnt + 1) % 256 = run.UPPER_LIMIT ∨ last = true
    · rw [encodePixel_eq_flush hasAlpha last p e heq hfl]
      exact List.chain'_singleton _
    · have h1 : (e.runningPixCnt + 1) % 256 ≠ run.UPPER_LIMIT := fun h => hfl (Or.inl h)
      have h2 : last = false := by
        cases hl : last
        · rfl
        · exact absurd (Or.inr hl) hfl
      rw [encodePixel_eq_keep hasAlpha last p e heq h1 h2]
      exact List.chain'_nil
  · obtain ⟨c, hc, _⟩ := encodePixel_ne_out hasAlpha last p { e with runningPixCnt := 0 } heq rfl
    rw [(encodePixel_ne_split hasAlpha last p e heq).1, hc]
    unfold pendingRun
    split_ifs
    · simp only [List.singleton_append]
      rw [List.chain'_pair]
      rintro ⟨s, hs, _⟩
      simp [flushRun] at hs
    · exact List.chain'_singleton _

/-- What the scan keeps true about Index chunks: an Index tag or chunk left
by the latest iteration names the slot that holds the previous pixel, and no
two Index chunks of one slot follow each other in the chunks written. -/
theorem stateAfter_index_inv (hasAlpha : Bool) (m : Mat) (k : Nat) :
    (∀ s, (stateAfter hasAlpha m k).1.previousTag = some (index.TAG, s) →
      (stateAfter hasAlpha m k).1.arr s = (stateAfter hasAlpha m k).1.previousPixel) ∧
    (∀ s, (stateAfter hasAlpha m k).2.getLast? = some (Chunk.index s) →
      (stateAfter hasAlpha m k).1.arr s = (stateAfter hasAlpha m k).1.previousPixel) ∧
    List.Chain' (fun a b => ¬ ∃ s, a = Chunk.index s ∧ b = Chunk.index s)
      (stateAfter hasAlpha m k).2 := by
  refine stateAfter_induction hasAlpha m
    (fun acc => (∀ s, acc.1.previousTag = some (index.TAG, s) → acc.1.arr s = acc.1.previousPixel) ∧
      (∀ s, acc.2.getLast? = some (Chunk.index s) → acc.1.arr s = acc.1.previousPixel) ∧
      List.Chain' (fun a b => ¬ ∃ s, a = Chunk.index s ∧ b = Chunk.index s) acc.2)
    ⟨by simp [ctor], by simp, List.chain'_nil⟩ ?_ k
  rintro acc last p ⟨h1, h2, h3⟩
  refine ⟨?_, ?_, ?_⟩
  · intro s hs
    rw [encodePixel_prevTag] at hs
    obtain ⟨hne, hslot, _⟩ := encodePixel_tag_index hasAlpha last p acc.1 s hs
    simp only []
    rw [encodePixel_prev, hslot]
    exact encodePixel_ne_cached hasAlpha last p acc.1 hne
  · intro s hs
    simp only [] at hs ⊢
    by_cases hnil : (encodePixel hasAlpha last p acc.1).out = []
    · rw [hnil, List.append_nil] at hs
      have heq := encodePixel_out_nil hasAlpha last p acc.1 hnil
      rw [encodePixel_eq_arr hasAlpha last p acc.1 heq, encodePixel_prev, heq]
      exact h2 s hs
    · rw [List.getLast?_append_of_ne_nil _ hnil] at hs
      obtain ⟨hne, hslot, _⟩ := encodePixel_index_mem hasAlpha last p acc.1 s
        (List.mem_of_mem_getLast? hs)
      rw [encodePixel_prev, hslot]
      exact encodePixel_ne_cached hasAlpha last p acc.1 hne
  · refine List.Chain'.append h3 (encodePixel_out_chain hasAlpha last p acc.1) ?_
    rintro x hx y hy ⟨s, rfl, rfl⟩
    obtain ⟨hne, _, harr⟩ := encodePixel_index_mem hasAlpha last p acc.1 s
      (List.mem_of_mem_head? hy)
    exact hne (harr.symm.trans (h2 s hx))

/-- C18. No repeated Index: for every image, the chunk stream never contains
two consecutive chunks that are both Index chunks for the same slot, and the
debug assertion "Cannot emit two index tags in a row for the same index"
holds in every iteration of the scan. -/
theorem no_repeated_index (hasAlpha : Bool) (m : Mat) :
    List.Chain' (fun a b => ¬ ∃ s, a = Chunk.index s ∧ b = Chunk.index s)
      (encodeImage hasAlpha (ctor hasAlpha m)).2 ∧
    (∀ k, consecutiveIndexAssert (stateAfter hasAlpha m k).1.previousTag
            (iterAt hasAlpha m k).currentTag = true) ∧
    (∀ k, (stateAfter hasAlpha m (k + 1)).1.previousTag = (iterAt hasAlpha m k).currentTag
      ∨ (scanOrder m).length ≤ k) := by
  refine ⟨?_, ?_, ?_⟩
  · rw [← stateAfter_length]
    exact (stateAfter_index_inv hasAlpha m _).2.2
  · intro k
    have hinv := (stateAfter_index_inv hasAlpha m k).1
    unfold consecutiveIndexAssert
    cases hcur : (iterAt hasAlpha m k).currentTag with
    | none => rfl
    | some cur =>
      cases hprev : (stateAfter hasAlpha m k).1.previousTag with
      | none => rfl
      | some prev =>
        simp only [Bool.not_eq_true', Bool.and_eq_false_imp, beq_iff_eq, beq_eq_false_iff_ne]
        intro hp1 hsame
        simp only [Bool.and_eq_true, beq_iff_eq] at hp1
        obtain ⟨c1, c2⟩ := cur
        obtain ⟨p1, p2⟩ := prev
        simp only at hp1 hsame
        obtain ⟨hp, hc⟩ := hp1
        subst hp hc hsame
        unfold iterAt at hcur
        obtain ⟨hne, _, harr⟩ := encodePixel_tag_index hasAlpha _ _ _ _ hcur
        exact hne (harr.symm.trans (hinv _ hprev))
  · intro k
    by_cases hk : k < (scanOrder m).length
    · left
      rw [stateAfter_succ hasAlpha m k hk]
      exact encodePixel_prevTag hasAlpha _ _ _
    · right; omega

/-! ## C19: the assertions of the chunk builders -/

theorem flushRunChecked_ok (e : Encoder) (h : (e.runningPixCnt + 256 - run.BIAS) % 256 < 63) :
    flushRunChecked e = .ok (flushRun e) := by
  unfold flushRunChecked flushRun runChunkAssert
  simp [h]

theorem indexChunkAssert_hash (hasAlpha : Bool) (p : Pixel) :
    indexChunkAssert (util.hash hasAlpha p) = true := by
  have := hash_lt hasAlpha p
  unfold indexChunkAssert
  simp only [decide_eq_true_eq]
  omega

theorem diffChunkAssert_biased (hasAlpha : Bool) (p q : Pixel)
    (hd : util.isInDiffRange (dpOf p q) = true) :
    diffChunkAssert hasAlpha
      ⟨saturateU8 (toInt8 ((dpOf p q).b + diff.BIAS)), saturateU8 (toInt8 ((dpOf p q).g + diff.BIAS)),
        saturateU8 (toInt8 ((dpOf p q).r + diff.BIAS)), 0⟩ = true := by
  obtain ⟨⟨h1, h2, h3⟩, h4, h5, h6⟩ := (isInDiffRange_iff _).mp hd
  unfold diffChunkAssert saturateU8 toInt8 diff.BIAS
  cases hasAlpha
  · simp only [Bool.and_eq_true, decide_eq_true_eq, Bool.false_eq_true, if_false, and_true]
    omega
  · simp only [Bool.and_eq_true, decide_eq_true_eq, if_true, and_true]
    omega

theorem lumaChunkAssert_biased (hasAlpha : Bool) (p q : Pixel)
    (hl : (util.isInLumaRange (dpOf p q) SignedPixel.zero).1 = true) :
    lumaChunkAssert hasAlpha
      ⟨saturateU8 (toInt8 (toInt8 ((dpOf p q).b - (dpOf p q).g) + luma.red_blue.BIAS)),
       saturateU8 (toInt8 ((dpOf p q).g + luma.green.BIAS)),
       saturateU8 (toInt8 (toInt8 ((dpOf p q).r - (dpOf p q).g) + luma.red_blue.BIAS)), 0⟩
      = true := by
  obtain ⟨⟨h1, h2⟩, ⟨h3, h4⟩, h5, h6⟩ := (isInLumaRange_iff _).mp hl
  unfold lumaChunkAssert saturateU8 luma.green.BIAS luma.red_blue.BIAS
  have e1 : toInt8 (toInt8 ((dpOf p q).r - (dpOf p q).g) + 8)
      = toInt8 ((dpOf p q).r - (dpOf p q).g) + 8 := by
    unfold toInt8 at h3 h4 ⊢; omega
  have e2 : toInt8 (toInt8 ((dpOf p q).b - (dpOf p q).g) + 8)
      = toInt8 ((dpOf p q).b - (dpOf p q).g) + 8 := by
    unfold toInt8 at h5 h6 ⊢; omega
  have e3 : toInt8 ((dpOf p q).g + 32) = (dpOf p q).g + 32 := by
    unfold toInt8; omega
  simp only [e1, e2, e3]
  cases hasAlpha
  · simp only [Bool.and_eq_true, decide_eq_true_eq, Bool.false_eq_true, if_false, and_true]
    omega
  · simp only [Bool.and_eq_true, decide_eq_true_eq, if_true, and_true]
    omega

/-- With no run pending, the checked not-equal branch succeeds and writes
what the loop body writes. -/
theorem encodeNewChecked_ok (hasAlpha last : Bool) (p : Pixel) (e : Encoder) (os : List Chunk)
    (hne : p ≠ e.previousPixel) (hcnt : e.runningPixCnt = 0) :
    encodeNewChecked hasAlpha p e os
      = .ok { enc := (encodePixel hasAlpha last p e).enc
              out := os ++ (encodePixel hasAlpha last p e).out
              currentTag := (encodePixel hasAlpha last p e).currentTag } := by
  have hidx := indexChunkAssert_hash hasAlpha p
  by_cases hhit : e.arr (util.hash hasAlpha p) = p
  · rw [encodePixel_hit hasAlpha last p e hne hcnt hhit]
    unfold encodeNewChecked isSeenBefore
    simp only [hhit, decide_True, if_true, hidx]
  · by_cases ha : hasAlpha = true ∧ toInt8 ((p.a : Int) - e.previousPixel.a) ≠ 0
    · obtain ⟨hα, ha⟩ := ha
      subst hα
      rw [encodePixel_rgba last p e hne hcnt hhit ha]
      unfold encodeNewChecked isSeenBefore arrStore
      simp [hhit, ha]
    · have ha' : hasAlpha = true → toInt8 ((p.a : Int) - e.previousPixel.a) = 0 := by
        intro hα
        by_contra hcon
        exact ha ⟨hα, hcon⟩
      by_cases hd : util.isInDiffRange (dpOf p e.previousPixel) = true
      · rw [encodePixel_diff hasAlpha last p e hne hcnt hhit ha' hd]
        have hass := diffChunkAssert_biased hasAlpha p e.previousPixel hd
        simp only [dpOf] at hd hass ⊢
        unfold encodeNewChecked isSeenBefore arrStore
        cases hasAlpha
        · simp only [saturateU8] at hass
          simp [hhit, hd, SignedPixel.zero, SignedPixel.toPixel, saturateU8, hass]
        · have ha2 := ha' rfl
          simp only [saturateU8] at hass
          simp [hhit, hd, SignedPixel.zero, SignedPixel.toPixel, saturateU8, ha2, hass]
      · have hd' : util.isInDiffRange (dpOf p e.previousPixel) = false := by simpa using hd
        by_cases hl : (util.isInLumaRange (dpOf p e.previousPixel) SignedPixel.zero).1 = true
        · rw [encodePixel_luma hasAlpha last p e hne hcnt hhit ha' hd' hl]
          have hass := lumaChunkAssert_biased hasAlpha p e.previousPixel hl
          have hg : (decide ((dpOf p e.previousPixel).g < luma.green.UPPER_RANGE)
              && decide ((dpOf p e.previousPixel).g > luma.green.LOWER_RANGE)) = true := by
            by_contra hcon
            unfold util.isInLumaRange at hl
            simp only [hcon] at hl
            simp at hl
          have hl2 : util.isInLumaRange (dpOf p e.previousPixel) SignedPixel.zero
              = (true, ⟨toInt8 ((dpOf p e.previousPixel).b - (dpOf p e.previousPixel).g),
                    (dpOf p e.previousPixel).g,
                    toInt8 ((dpOf p e.previousPixel).r - (dpOf p e.previousPixel).g), 0⟩) := by
            rw [← hl]
            unfold util.isInLumaRange
            simp only [hg, if_true, SignedPixel.zero]
          simp only [dpOf, SignedPixel.zero, saturateU8] at hl2 hd' hass ⊢
          unfold encodeNewChecked isSeenBefore arrStore
          cases hasAlpha
          · simp [hhit, hd', SignedPixel.zero, SignedPixel.toPixel, saturateU8, hl2, hass]
          · have ha2 := ha' rfl
            simp [hhit, hd', SignedPixel.zero, SignedPixel.toPixel, saturateU8, ha2, hl2, hass]
        · have hl' : (util.isInLumaRange (dpOf p e.previousPixel) SignedPixel.zero).1 = false := by
            simpa using hl
          rw [encodePixel_rgb hasAlpha last p e hne hcnt hhit ha' hd' hl']
          simp only [dpOf, SignedPixel.zero] at hl' hd'
          unfold encodeNewChecked isSeenBefore arrStore
          cases hasAlpha
          · simp [hhit, hd', SignedPixel.zero, hl']
          · have ha2 := ha' rfl
            simp [hhit, hd', SignedPixel.zero, ha2, hl']

/-- From a state with at most 61 pixels pending, every assertion of the chunk
builders the loop body calls holds: the checked loop body does what the loop
body does. -/
theorem encodePixelChecked_ok (hasAlpha last : Bool) (p : Pixel) (e : Encoder)
    (hcnt : e.runningPixCnt ≤ 61) :
    encodePixelChecked hasAlpha last p e = .ok (encodePixel hasAlpha last p e) := by
  by_cases heq : p = e.previousPixel
  · have hfr1 : flushRunChecked { e with runningPixCnt := (e.runningPixCnt + 1) % 256 }
        = .ok (flushRun { e with runningPixCnt := (e.runningPixCnt + 1) % 256 }) :=
      flushRunChecked_ok _ (by simp only [run.BIAS]; omega)
    unfold encodePixelChecked encodePixel
    simp only [heq, if_true]
    split_ifs
    · simp only [hfr1]
    · rfl
  · unfold encodePixelChecked
    simp only [heq, if_false]
    by_cases hpos : e.runningPixCnt > run.LOWER_RANGE
    · have hfr2 : flushRunChecked e = .ok (flushRun e) :=
        flushRunChecked_ok _ (by simp only [run.BIAS, run.LOWER_RANGE] at hpos ⊢; omega)
      simp only [hpos, if_true, hfr2]
      have hpos' : 0 < e.runningPixCnt := hpos
      rw [encodePixel_ne_pending hasAlpha last p e heq hpos']
      have h0 : (flushRun e).1 = { e with runningPixCnt := 0 } := rfl
      rw [h0, encodeNewChecked_ok hasAlpha last p { e with runningPixCnt := 0 } _ heq rfl]
      simp [flushRun, runChunk]
    · simp only [hpos, if_false]
      have hz : e.runningPixCnt = 0 := by
        simp only [run.LOWER_RANGE] at hpos; omega
      rw [encodeNewChecked_ok hasAlpha last p e [] heq hz]
      simp

/-- C19. Chunk-builder preconditions always hold: for every image, in every
iteration of the scan every call of a chunk builder satisfies the callee's
assertions, so the loop body with the assertions evaluated succeeds and does
what the loop body does. The assertions are: the slot passed to `indexChunk`
is below 64 (as is every hash, also where it indexes the cache); the
components passed to `diffChunk` are below 4; those passed to `lumaChunk`
are below 64 (green) and below 16 (red, blue); the alpha component passed to
either is 0 in the alpha format; the counter read by `runChunk` is below
63. -/
theorem builder_preconditions (hasAlpha : Bool) (m : Mat) :
    (∀ k last p, encodePixelChecked hasAlpha last p (stateAfter hasAlpha m k).1
        = .ok (encodePixel hasAlpha last p (stateAfter hasAlpha m k).1)) ∧
    (∀ k, ∃ last p, iterAt hasAlpha m k = encodePixel hasAlpha last p (stateAfter hasAlpha m k).1 ∧
        encodePixelChecked hasAlpha last p (stateAfter hasAlpha m k).1
          = .ok (iterAt hasAlpha m k)) ∧
    (∀ p, util.hash hasAlpha p < 64 ∧ indexChunkAssert (util.hash hasAlpha p) = true) ∧
    (∀ k, (stateAfter hasAlpha m k).1.runningPixCnt ≤ 61) ∧
    (∀ idx, indexChunkAssert idx = true ↔ idx % 256 < 64) ∧
    (∀ dp, diffChunkAssert hasAlpha dp = true ↔
      (dp.r < 4 ∧ dp.b < 4 ∧ dp.g < 4 ∧ (hasAlpha = true → dp.a = 0))) ∧
    (∀ dp, lumaChunkAssert hasAlpha dp = true ↔
      (dp.r < 16 ∧ dp.b < 16 ∧ dp.g < 64 ∧ (hasAlpha = true → dp.a = 0))) ∧
    (∀ e, runChunkAssert e = true ↔ e.runningPixCnt < 63) := by
  refine ⟨?_, ?_, ?_, ?_, ?_, ?_, ?_, ?_⟩
  · intro k last p
    exact encodePixelChecked_ok hasAlpha last p _ (stateAfter_cnt_le hasAlpha m k)
  · intro k
    refine ⟨_, _, rfl, ?_⟩
    exact encodePixelChecked_ok hasAlpha _ _ _ (stateAfter_cnt_le hasAlpha m k)
  · intro p
    exact ⟨hash_lt hasAlpha p, indexChunkAssert_hash hasAlpha p⟩
  · intro k
    exact stateAfter_cnt_le hasAlpha m k
  · intro idx
    simp [indexChunkAssert]
  · intro dp
    cases hasAlpha <;> simp [diffChunkAssert, and_assoc]
  · intro dp
    cases hasAlpha <;> simp [lumaChunkAssert, and_assoc]
  · intro e
    simp [runChunkAssert]

/-! ## C20: cache contents -/

theorem lastStored_hash (hasAlpha : Bool) (m : Mat) (k s : Nat) (p : Pixel)
    (h : lastStored hasAlpha m k s = some p) : util.hash hasAlpha p = s := by
  induction k with
  | zero => simp [lastStored] at h
  | succ k ih =>
    unfold lastStored at h
    simp only [] at h
    split_ifs at h with hc
    · injection h with h
      rw [← h]; exact hc.2.2
    · exact ih h

theorem stateAfter_arr_lastStored (hasAlpha : Bool) (m : Mat)
    (hlen : m.data.length = m.rows * m.cols) (k : Nat) (hk : k ≤ m.data.length) (s : Nat) :
    (stateAfter hasAlpha m k).1.arr s = (lastStored hasAlpha m k s).getD Pixel.zero := by
  induction k with
  | zero => rw [stateAfter_zero]; rfl
  | succ k ih =>
    have ih' := ih (by omega)
    rw [stateAfter_step hasAlpha m hlen k (by omega)]
    unfold lastStored
    simp only []
    by_cases heq : m.data.getD k Pixel.zero = (stateAfter hasAlpha m k).1.previousPixel
    · rw [encodePixel_eq_arr hasAlpha _ _ _ heq]
      simp only [heq, ne_eq, not_true_eq_false, false_and, if_false]
      exact ih'
    · rw [(encodePixel_ne_state hasAlpha _ _ _ heq).2.2]
      by_cases hhit : (stateAfter hasAlpha m k).1.arr
          (util.hash hasAlpha (m.data.getD k Pixel.zero)) = m.data.getD k Pixel.zero
      · simp only [hhit, if_true, ne_eq, not_true_eq_false, false_and, and_false, if_false]
        exact ih'
      · simp only [hhit, if_false, arrStore, ne_eq, heq, not_false_eq_true, true_and]
        by_cases hs : s = util.hash hasAlpha (m.data.getD k Pixel.zero)
        · simp [hs]
        · have hs' : ¬ util.hash hasAlpha (m.data.getD k Pixel.zero) = s := fun h => hs h.symm
          simp only [hs, hs', if_false]
          exact ih'

/-- C20. Cache contents: after the encoder has processed any prefix of the
image's pixels, every cache slot `s` holds the most recent pixel of that
prefix that was stored at `s` (a pixel that differed from its predecessor,
missed the cache and has hash `s`), or the initial all-zero pixel if no pixel
was stored there; hence every stored entry hashes to its own slot under
`(b*7 + g*5 + r*3 [+ a*11]) mod 64`, and every pixel that went through the
differs-from-previous branch is found by the lookup immediately afterwards. -/
theorem cache_contents (hasAlpha : Bool) (m : Mat) (hlen : m.data.length = m.rows * m.cols)
    (k : Nat) (hk : k ≤ m.data.length) :
    (∀ s, (stateAfter hasAlpha m k).1.arr s = (lastStored hasAlpha m k s).getD Pixel.zero) ∧
    (∀ s p, lastStored hasAlpha m k s = some p →
      (stateAfter hasAlpha m k).1.arr s = p ∧
      (p.b * 7 + p.g * 5 + p.r * 3 + (if hasAlpha then p.a * 11 else 0)) % 64 = s) ∧
    (∀ s, lastStored hasAlpha m k s = none → (stateAfter hasAlpha m k).1.arr s = ⟨0, 0, 0, 0⟩) ∧
    (∀ s, (stateAfter hasAlpha m k).1.arr s = ⟨0, 0, 0, 0⟩
      ∨ util.hash hasAlpha ((stateAfter hasAlpha m k).1.arr s) = s) ∧
    (∀ j, j < k → m.data.getD j Pixel.zero ≠ (stateAfter hasAlpha m j).1.previousPixel →
      isSeenBefore hasAlpha (stateAfter hasAlpha m (j + 1)).1 (m.data.getD j Pixel.zero)
        = (true, util.hash hasAlpha (m.data.getD j Pixel.zero))) := by
  have harr := fun s => stateAfter_arr_lastStored hasAlpha m hlen k hk s
  have hhash : ∀ p : Pixel, util.hash hasAlpha p
      = (p.b * 7 + p.g * 5 + p.r * 3 + (if hasAlpha then p.a * 11 else 0)) % 64 := by
    intro p; unfold util.hash; cases hasAlpha <;> simp
  refine ⟨harr, ?_, ?_, ?_, ?_⟩
  · intro s p hp
    refine ⟨by rw [harr s, hp]; rfl, ?_⟩
    rw [← hhash]
    exact lastStored_hash hasAlpha m k s p hp
  · intro s hs
    rw [harr s, hs]; rfl
  · intro s
    cases hls : lastStored hasAlpha m k s with
    | none => left; rw [harr s, hls]; rfl
    | some p =>
      right
      rw [harr s, hls]
      exact lastStored_hash hasAlpha m k s p hls
  · intro j hj hne
    unfold isSeenBefore
    simp only []
    rw [stateAfter_step hasAlpha m hlen j (by omega),
      encodePixel_ne_cached hasAlpha _ _ _ hne]
    simp

theorem cache_contents_witness :
    imgRepeat.data.length = imgRepeat.rows * imgRepeat.cols ∧ 3 ≤ imgRepeat.data.length ∧
    lastStored false imgRepeat 3 20 = some ⟨30, 20, 10, 0⟩ ∧
    (stateAfter false imgRepeat 3).1.arr 20 = ⟨30, 20, 10, 0⟩ ∧
    (30 * 7 + 20 * 5 + 10 * 3 + (if false then 0 * 11 else 0)) % 64 = 20 :=
  ⟨by decide, by decide, by decide,
    ((cache_contents false imgRepeat (by decide) 3 (by decide)).2.1 20 ⟨30, 20, 10, 0⟩
      (by decide)).1,
    ((cache_contents false imgRepeat (by decide) 3 (by decide)).2.1 20 ⟨30, 20, 10, 0⟩
      (by decide)).2⟩

/-! ## C21: an equal pixel leaves the state alone -/

/-- C21. Equal pixel leaves state alone: processing a pixel equal to the
previous pixel leaves the previous pixel and all cache slots unchanged and
emits either nothing or exactly one Run chunk, never an Index, Diff, Luma,
RGB or RGBA chunk; and after any pixel, equal or not, has been processed,
the previous pixel equals that pixel. -/
theorem equal_pixel_frame (hasAlpha last : Bool) (p : Pixel) (e : Encoder)
    (heq : p = e.previousPixel) :
    (encodePixel hasAlpha last p e).enc.previousPixel = e.previousPixel ∧
    (∀ s, (encodePixel hasAlpha last p e).enc.arr s = e.arr s) ∧
    (encodePixel hasAlpha last p e).enc.mat = e.mat ∧
    ((encodePixel hasAlpha last p e).out = [] ∨
      ∃ ch, (encodePixel hasAlpha last p e).out = [Chunk.run ch]) ∧
    (∀ c ∈ (encodePixel hasAlpha last p e).out, ∃ ch, c = Chunk.run ch) ∧
    (∀ (last1 : Bool) (q : Pixel) (e1 : Encoder),
      (encodePixel hasAlpha last1 q e1).enc.previousPixel = q) := by
  have hout : (encodePixel hasAlpha last p e).out = [] ∨
      ∃ ch, (encodePixel hasAlpha last p e).out = [Chunk.run ch] := by
    by_cases hfl : (e.runningPixCnt + 1) % 256 = run.UPPER_LIMIT ∨ last = true
    · right
      rw [encodePixel_eq_flush hasAlpha last p e heq hfl]
      exact ⟨_, rfl⟩
    · left
      have h1 : (e.runningPixCnt + 1) % 256 ≠ run.UPPER_LIMIT := fun h => hfl (Or.inl h)
      have h2 : last = false := by
        cases hl : last
        · rfl
        · exact absurd (Or.inr hl) hfl
      rw [encodePixel_eq_keep hasAlpha last p e heq h1 h2]
  refine ⟨?_, ?_, encodePixel_mat hasAlpha last p e, hout, ?_, ?_⟩
  · rw [encodePixel_prev, heq]
  · intro s
    rw [encodePixel_eq_arr hasAlpha last p e heq]
  · intro c hc
    rcases hout with h | ⟨ch, h⟩
    · rw [h] at hc; simp at hc
    · rw [h] at hc
      exact ⟨ch, List.mem_singleton.mp hc⟩
  · intro last1 q e1
    exact encodePixel_prev hasAlpha last1 q e1

theorem equal_pixel_frame_witness :
    (⟨7, 7, 7, 0⟩ : Pixel) = (stateAfter false imgTwoByThree 2).1.previousPixel ∧
    (encodePixel false false ⟨7, 7, 7, 0⟩ (stateAfter false imgTwoByThree 2).1).enc.previousPixel
      = (stateAfter false imgTwoByThree 2).1.previousPixel ∧
    ((encodePixel false false ⟨7, 7, 7, 0⟩ (stateAfter false imgTwoByThree 2).1).out = [] ∨
      ∃ ch, (encodePixel false false ⟨7, 7, 7, 0⟩ (stateAfter false imgTwoByThree 2).1).out
        = [Chunk.run ch]) :=
  ⟨by decide,
    (equal_pixel_frame false false ⟨7, 7, 7, 0⟩ (stateAfter false imgTwoByThree 2).1
      (by decide)).1,
    (equal_pixel_frame false false ⟨7, 7, 7, 0⟩ (stateAfter false imgTwoByThree 2).1
      (by decide)).2.2.2.1⟩

/-! ## C22: worst-case size -/

/-- With no run pending, the chunk of a pixel that differs from the previous
one has at most `c + 1` bytes, `c` the number of channels. -/
theorem encodePixel_ne_bytes (hasAlpha last : Bool) (p : Pixel) (e : Encoder)
    (hne : p ≠ e.previousPixel) (hcnt : e.runningPixCnt = 0) :
    (chunkBytes (encodePixel hasAlpha last p e).out).length ≤ (if hasAlpha then 4 else 3) + 1 := by
  by_cases hhit : e.arr (util.hash hasAlpha p) = p
  · rw [encodePixel_hit hasAlpha last p e hne hcnt hhit]
    cases hasAlpha <;> simp [chunkBytes, Chunk.bytes]
  · by_cases ha : hasAlpha = true ∧ toInt8 ((p.a : Int) - e.previousPixel.a) ≠ 0
    · obtain ⟨hα, ha⟩ := ha
      subst hα
      rw [encodePixel_rgba last p e hne hcnt hhit ha]
      simp [chunkBytes, Chunk.bytes, rgbaChunk]
    · have ha' : hasAlpha = true → toInt8 ((p.a : Int) - e.previousPixel.a) = 0 := by
        intro hα
        by_contra hcon
        exact ha ⟨hα, hcon⟩
      by_cases hd : util.isInDiffRange (dpOf p e.previousPixel) = true
      · rw [encodePixel_diff hasAlpha last p e hne hcnt hhit ha' hd]
        cases hasAlpha <;> simp [chunkBytes, Chunk.bytes]
      · have hd' : util.isInDiffRange (dpOf p e.previousPixel) = false := by simpa using hd
        by_cases hl : (util.isInLumaRange (dpOf p e.previousPixel) SignedPixel.zero).1 = true
        · rw [encodePixel_luma hasAlpha last p e hne hcnt hhit ha' hd' hl]
          cases hasAlpha <;> simp [chunkBytes, Chunk.bytes, lumaChunk]
        · have hl' : (util.isInLumaRange (dpOf p e.previousPixel) SignedPixel.zero).1 = false := by
            simpa using hl
          rw [encodePixel_rgb hasAlpha last p e hne hcnt hhit ha' hd' hl']
          cases hasAlpha <;> simp [chunkBytes, Chunk.bytes, rgbChunk]

/-- One iteration adds at most `c + 1` to the bytes written plus the pixels
pending in the run counter. -/
theorem encodePixel_bytes_step (hasAlpha last : Bool) (p : Pixel) (e : Encoder)
    (hcnt : e.runningPixCnt ≤ 61) :
    (chunkBytes (encodePixel hasAlpha last p e).out).length
        + (encodePixel hasAlpha last p e).enc.runningPixCnt
      ≤ e.runningPixCnt + ((if hasAlpha then 4 else 3) + 1) := by
  have hmod : (e.runningPixCnt + 1) % 256 = e.runningPixCnt + 1 := Nat.mod_eq_of_lt (by omega)
  by_cases heq : p = e.previousPixel
  · by_cases hfl : (e.runningPixCnt + 1) % 256 = run.UPPER_LIMIT ∨ last = true
    · rw [encodePixel_eq_flush hasAlpha last p e heq hfl]
      simp only [chunkBytes, Chunk.bytes, List.append_nil, List.length_singleton]
      omega
    · have h1 : (e.runningPixCnt + 1) % 256 ≠ run.UPPER_LIMIT := fun h => hfl (Or.inl h)
      have h2 : last = false := by
        cases hl : last
        · rfl
        · exact absurd (Or.inr hl) hfl
      rw [encodePixel_eq_keep hasAlpha last p e heq h1 h2]
      simp only [chunkBytes, List.length_nil, hmod]
      omega
  · obtain ⟨hout, henc, _⟩ := encodePixel_ne_split hasAlpha last p e heq
    have hb := encodePixel_ne_bytes hasAlpha last p { e with runningPixCnt := 0 } heq rfl
    have hc := (encodePixel_ne_state hasAlpha last p e heq).2.1
    have hp : (chunkBytes (pendingRun e)).length ≤ e.runningPixCnt := by
      unfold pendingRun run.LOWER_RANGE
      split_ifs with h
      · simp only [chunkBytes, flushRun, Chunk.bytes, List.append_nil, List.length_singleton]
        omega
      · simp [chunkBytes]
    rw [hout, chunkBytes_append, List.length_append, hc]
    omega

/-- C22. Worst-case size: for every image with `n = rows * cols` pixels and
`c` channels (3 or 4), the chunk stream is at most `n * (c + 1)` bytes long,
so the whole output is at most `14 + n * (c + 1) + 8` bytes; after `k`
iterations the bytes written plus the pixels pending in the run counter are
at most `k * (c + 1)`, so that a Run byte written together with a literal
chunk is paid for by an earlier equal pixel that wrote nothing. -/
theorem worst_case_size (hasAlpha : Bool) (m : Mat)
    (hch : m.channels = (if hasAlpha then 4 else 3)) :
    (chunkBytes (encodeImage hasAlpha (ctor hasAlpha m)).2).length
      ≤ m.rows * m.cols * (m.channels + 1) ∧
    (∃ out, encode hasAlpha m = .ok out ∧
      out.length ≤ 14 + m.rows * m.cols * (m.channels + 1) + 8) ∧
    (∀ k, k ≤ m.rows * m.cols →
      (chunkBytes (stateAfter hasAlpha m k).2).length + (stateAfter hasAlpha m k).1.runningPixCnt
        ≤ k * (m.channels + 1)) := by
  have hinv : ∀ k, k ≤ m.rows * m.cols →
      (chunkBytes (stateAfter hasAlpha m k).2).length + (stateAfter hasAlpha m k).1.runningPixCnt
        ≤ k * (m.channels + 1) := by
    intro k
    induction k with
    | zero =>
      intro _
      rw [stateAfter_zero]
      simp [chunkBytes, ctor]
    | succ k ih =>
      intro hk
      have ih' := ih (by omega)
      rw [stateAfter_succ hasAlpha m k (by rw [scanOrder_length]; omega)]
      have hstep := encodePixel_bytes_step hasAlpha
        ((stateAfter hasAlpha m k).1.isLastPixel ((scanOrder m).getD k (0, 0)))
        ((stateAfter hasAlpha m k).1.mat.ptr ((scanOrder m).getD k (0, 0)).1
          ((scanOrder m).getD k (0, 0)).2)
        (stateAfter hasAlpha m k).1 (stateAfter_cnt_le hasAlpha m k)
      rw [← hch] at hstep
      have hit : iterAt hasAlpha m k = encodePixel hasAlpha
        ((stateAfter hasAlpha m k).1.isLastPixel ((scanOrder m).getD k (0, 0)))
        ((stateAfter hasAlpha m k).1.mat.ptr ((scanOrder m).getD k (0, 0)).1
          ((scanOrder m).getD k (0, 0)).2)
        (stateAfter hasAlpha m k).1 := rfl
      rw [hit]
      simp only [chunkBytes_append, List.length_append]
      rw [Nat.succ_mul]
      omega
  have hall : (chunkBytes (encodeImage hasAlpha (ctor hasAlpha m)).2).length
      ≤ m.rows * m.cols * (m.channels + 1) := by
    have := hinv (m.rows * m.cols) (le_refl _)
    rw [← scanOrder_length, stateAfter_length] at this
    rw [scanOrder_length] at this
    omega
  refine ⟨hall, ?_, hinv⟩
  unfold encode write
  rw [header_ok]
  refine ⟨_, rfl, ?_⟩
  simp only [List.nil_append, List.length_append, qoi.MAGIC, util.writeToStream32, markEnd,
    qoi.EOS, List.length_cons, List.length_nil]
  omega

theorem worst_case_size_witness :
    imgAlphaRepeat.channels = (if true then 4 else 3) ∧
    (chunkBytes (encodeImage true (ctor true imgAlphaRepeat)).2).length
      ≤ imgAlphaRepeat.rows * imgAlphaRepeat.cols * (imgAlphaRepeat.channels + 1) :=
  ⟨by decide, (worst_case_size true imgAlphaRepeat (by decide)).1⟩

/-! ## The claims at concrete inputs -/

theorem run_bound_witness :
    Chunk.run 0xC1 ∈ (encodeImage false (ctor false imgTwoByThree)).2 ∧
    (0xC1 &&& 0x3f ≤ 61 ∧ 0xC0 ≤ 0xC1 ∧ 0xC1 ≤ 0xFD ∧ 0xC1 ≠ 0xFE ∧ 0xC1 ≠ 0xFF) :=
  ⟨by decide, (run_bound false imgTwoByThree).1 0xC1 (by decide)⟩

theorem cache_correctness_witness :
    (⟨30, 20, 10, 0⟩ : Pixel) ≠ (stateAfter false imgRepeat 2).1.previousPixel ∧
    ((∃ ch, Chunk.index ch ∈
        (encodePixel false true ⟨30, 20, 10, 0⟩ (stateAfter false imgRepeat 2).1).out)
      ↔ (stateAfter false imgRepeat 2).1.arr (util.hash false ⟨30, 20, 10, 0⟩) = ⟨30, 20, 10, 0⟩) :=
  ⟨by decide,
    (cache_correctness false true ⟨30, 20, 10, 0⟩ (stateAfter false imgRepeat 2).1 (by decide)).2.1⟩

theorem index_emission_witness :
    (iterAt true imgAlphaRepeat 3).out
      = pendingRun (stateAfter true imgAlphaRepeat 3).1
          ++ [Chunk.index (util.hash true (imgAlphaRepeat.data.getD 3 Pixel.zero))] ∧
    (iterAt true imgAlphaRepeat 3).currentTag
      = some (index.TAG, util.hash true (imgAlphaRepeat.data.getD 3 Pixel.zero)) ∧
    (∀ c ∈ (iterAt true imgAlphaRepeat 3).out,
      (∃ ch, c = Chunk.run ch) ∨ (∃ ch, c = Chunk.index ch)) :=
  index_emission true imgAlphaRepeat (by decide) 1 3 (by decide) (by decide) (by decide)
    (by decide)
    (fun k h1 h2 => by
      have hk : k = 2 := by omega
      subst hk
      decide)
    (fun _ _ => ⟨0, by decide, by decide⟩)

theorem trailing_run_flush_witness :
    1 ≤ imgTwoByThree.rows ∧ 1 ≤ imgTwoByThree.cols ∧
    (encodeImage false (ctor false imgTwoByThree)).1.runningPixCnt = 0 :=
  ⟨by decide, by decide, (trailing_run_flush false imgTwoByThree (by decide) (by decide)).2.1⟩

theorem diff_selection_witness :
    (⟨1, 1, 1, 255⟩ : Pixel) ≠ (ctor true imgAlphaRepeat).previousPixel ∧
    (ctor true imgAlphaRepeat).arr (util.hash true ⟨1, 1, 1, 255⟩) ≠ ⟨1, 1, 1, 255⟩ ∧
    (⟨1, 1, 1, 255⟩ : Pixel).a = (ctor true imgAlphaRepeat).previousPixel.a ∧
    ∃ ch, Chunk.diff ch ∈ (encodePixel true false ⟨1, 1, 1, 255⟩ (ctor true imgAlphaRepeat)).out :=
  ⟨by decide, by decide, by decide,
    (diff_selection true false ⟨1, 1, 1, 255⟩ (ctor true imgAlphaRepeat) (by decide) (by decide)
      (fun _ => by decide)).1.mpr (by decide)⟩

theorem luma_selection_witness :
    (⟨5, 5, 5, 255⟩ : Pixel) ≠ (ctor true imgAlphaRepeat).previousPixel ∧
    (ctor true imgAlphaRepeat).arr (util.hash true ⟨5, 5, 5, 255⟩) ≠ ⟨5, 5, 5, 255⟩ ∧
    (⟨5, 5, 5, 255⟩ : Pixel).a = (ctor true imgAlphaRepeat).previousPixel.a ∧
    ∃ ch, Chunk.luma ch ∈ (encodePixel true false ⟨5, 5, 5, 255⟩ (ctor true imgAlphaRepeat)).out :=
  ⟨by decide, by decide, by decide,
    (luma_selection true false ⟨5, 5, 5, 255⟩ (ctor true imgAlphaRepeat) (by decide) (by decide)
      (fun _ => by decide) (by decide)).1.mpr (by decide)⟩

end cvqoi
